import Mathlib

/-!
# cutestream: a decoder for the Qt `QDataStream` variant format

A shallow embedding of `reader.go`.  The byte source of a `Reader` is a finite
list of bytes that have not been read yet (the tests feed a `bytes.Reader`);
every read returns the Go result pair `(value, error)` together with the reader
after the call.  Go's `int` is the 64-bit integer of the usual platforms.
-/

set_option linter.dupNamespace false

namespace Cutestream

/-! ## Data model -/

/-- One octet of the byte source. -/
abbrev Byte := Fin 256

/-- The two byte orders of `encoding/binary`. -/
inductive ByteOrder where
  | BigEndian
  | LittleEndian
deriving DecidableEq, Repr

/-- A Go `string`: its UTF-8 bytes. -/
abbrev GoString := List Byte

/-- `type QMetaType int`. -/
abbrev QMetaType := Int

def QMetaTypeBool : QMetaType := 1
def QMetaTypeInt : QMetaType := 2
def QMetaTypeUInt : QMetaType := 3
def QMetaTypeLongLong : QMetaType := 4
def QMetaTypeULongLong : QMetaType := 5
def QMetaTypeDouble : QMetaType := 6
def QMetaTypeQChar : QMetaType := 7
def QMetaTypeQVariantMap : QMetaType := 8
def QMetaTypeQVariantList : QMetaType := 9
def QMetaTypeQString : QMetaType := 10
def QMetaTypeQStringList : QMetaType := 11
def QMetaTypeQByteArray : QMetaType := 12
def QMetaTypeQBitArray : QMetaType := 13
def QMetaTypeQDate : QMetaType := 14
def QMetaTypeQTime : QMetaType := 15
def QMetaTypeQDateTime : QMetaType := 16
def QMetaTypeQUrl : QMetaType := 17
def QMetaTypeQVariantHash : QMetaType := 28
def QMetaTypeQUuid : QMetaType := 30
def QMetaTypeShort : QMetaType := 33
def QMetaTypeChar : QMetaType := 34
def QMetaTypeUShort : QMetaType := 36
def QMetaTypeFloat : QMetaType := 38
def QMetaTypeSChar : QMetaType := 40

/-- The `Reader` struct: the unread bytes of the underlying `io.Reader`, the
byte order, the protocol version and the precision flag. -/
structure Reader where
  Reader : List Byte
  ByteOrder : ByteOrder
  version : Int
  DoublePrecision : Bool
deriving DecidableEq, Repr

/-- The errors the package returns: the two `io` errors of a short read, the
`unimplemented type %d` error of `ReadQVariant`, the error of `SetVersion` and
an error of `url.Parse`. -/
inductive GoError where
  | EOF
  | ErrUnexpectedEOF
  | unimplementedType (t : Int)
  | unsupportedVersion (v : Int)
  | urlParse (s : GoString)
deriving DecidableEq, Repr

/-- The result of a call: it returns the Go pair `(val, err)` and leaves the
reader `r`, or it panics, or (for the recursive decoder run with a bound on
the nesting depth) the bound was reached. -/
inductive Outcome (α : Type) where
  | ret (val : α) (err : Option GoError) (r : Reader)
  | panic
  | fuel
deriving DecidableEq, Repr

/-! ## Primitive reader -/

/-- The read `io.ReadFull(r.Reader, bs)` that `binary.Read` performs for a value
of `n` bytes: the next `n` bytes, or, when fewer are left, the `io` error with
the source drained (`io.EOF` when nothing was left at all). -/
def binaryRead (n : Nat) (r : Reader) : Except GoError (List Byte) × Reader :=
  if n ≤ r.Reader.length then
    (.ok (r.Reader.take n), { r with Reader := r.Reader.drop n })
  else
    (.error (if r.Reader.isEmpty then GoError.EOF else GoError.ErrUnexpectedEOF),
      { r with Reader := [] })

/-- The unsigned integer a byte sequence denotes under a byte order
(`ByteOrder.Uint16`, `Uint32`, `Uint64`). -/
def decodeUint : ByteOrder → List Byte → Nat
  | .BigEndian, bs => bs.foldl (fun acc b => acc * 256 + b.val) 0
  | .LittleEndian, bs => bs.foldr (fun b acc => b.val + 256 * acc) 0

/-- The conversion of a `bits`-wide unsigned value to the signed type of the
same width (two's complement). -/
def toSigned (bits : Nat) (v : Nat) : Int :=
  if v % 2 ^ bits < 2 ^ (bits - 1) then (v % 2 ^ bits : Nat) else (v % 2 ^ bits : Nat) - 2 ^ bits

/-- The type parameter `T` of `ReadNumber`. -/
inductive NumKind where
  | int8 | int16 | int32 | int64
  | uint8 | uint16 | uint32 | uint64
  | float32 | float64
deriving DecidableEq, Repr

/-- The size of a value of the kind in bytes. -/
def NumKind.size : NumKind → Nat
  | .int8 => 1 | .int16 => 2 | .int32 => 4 | .int64 => 8
  | .uint8 => 1 | .uint16 => 2 | .uint32 => 4 | .uint64 => 8
  | .float32 => 4 | .float64 => 8

/-- Whether the kind is a signed integer. -/
def NumKind.signed : NumKind → Bool
  | .int8 => true | .int16 => true | .int32 => true | .int64 => true
  | _ => false

/-- The value of kind `k` that `binary.Read` stores for the bytes `bs`: an
integer for the integer kinds, the IEEE-754 bit pattern for the float kinds. -/
def NumKind.decode (k : NumKind) (o : ByteOrder) (bs : List Byte) : Int :=
  if k.signed then toSigned (8 * k.size) (decodeUint o bs) else (decodeUint o bs : Nat)

/-- The generic `ReadNumber[T]`. -/
def ReadNumber (k : NumKind) (reader : Reader) : Outcome Int :=
  match binaryRead k.size reader with
  | (.error err, r) => .ret 0 (some err) r
  | (.ok bs, r) => .ret (k.decode reader.ByteOrder bs) none r

/-- The method `ReadBool`. -/
def ReadBool (r : Reader) : Outcome Bool :=
  match binaryRead 1 r with
  | (.error err, r1) => .ret false (some err) r1
  | (.ok bs, r1) => .ret (decide (decodeUint r.ByteOrder bs ≠ 0)) none r1

def ReadInt8 (r : Reader) : Outcome Int := ReadNumber .int8 r
def ReadInt16 (r : Reader) : Outcome Int := ReadNumber .int16 r
def ReadInt32 (r : Reader) : Outcome Int := ReadNumber .int32 r
def ReadInt64 (r : Reader) : Outcome Int := ReadNumber .int64 r
def ReadUint8 (r : Reader) : Outcome Int := ReadNumber .uint8 r
def ReadUint16 (r : Reader) : Outcome Int := ReadNumber .uint16 r
def ReadUint32 (r : Reader) : Outcome Int := ReadNumber .uint32 r
def ReadUint64 (r : Reader) : Outcome Int := ReadNumber .uint64 r

/-! ## Floating point fields -/

/-- A `float32` result: the IEEE-754 single whose bit pattern was read, or the
conversion `float32(val)` of the double whose bit pattern was read. -/
inductive Float32Val where
  | bits (b : Int)
  | fromFloat64 (b : Int)
deriving DecidableEq, Repr

/-- A `float64` result: the IEEE-754 double whose bit pattern was read, or the
conversion `float64(val)` of the single whose bit pattern was read. -/
inductive Float64Val where
  | bits (b : Int)
  | fromFloat32 (b : Int)
deriving DecidableEq, Repr

/-- The method `ReadFloat`. -/
def ReadFloat (r : Reader) : Outcome Float32Val :=
  if r.DoublePrecision then
    match ReadNumber .float64 r with
    | .ret _ (some err) r1 => .ret (.bits 0) (some err) r1
    | .ret val none r1 => .ret (.fromFloat64 val) none r1
    | .panic => .panic
    | .fuel => .fuel
  else
    match ReadNumber .float32 r with
    | .ret v err r1 => .ret (.bits v) err r1
    | .panic => .panic
    | .fuel => .fuel

/-- The method `ReadDouble`. -/
def ReadDouble (r : Reader) : Outcome Float64Val :=
  if !r.DoublePrecision then
    match ReadNumber .float32 r with
    | .ret _ (some err) r1 => .ret (.bits 0) (some err) r1
    | .ret val none r1 => .ret (.fromFloat32 val) none r1
    | .panic => .panic
    | .fuel => .fuel
  else
    match ReadNumber .float64 r with
    | .ret v err r1 => .ret (.bits v) err r1
    | .panic => .panic
    | .fuel => .fuel

/-! ## Text and blobs -/

/-- The byte with the value `n mod 256`. -/
def byte (n : Nat) : Byte := ⟨n % 256, Nat.mod_lt _ (by decide)⟩

def surr1 : Nat := 0xd800
def surr2 : Nat := 0xdc00
def surr3 : Nat := 0xe000
def surrSelf : Nat := 0x10000
def replacementChar : Nat := 0xFFFD

/-- The function `utf16.DecodeRune`: the expression
`(r1-surr1)<<10 | (r2 - surr2) + surrSelf` for a high and a low surrogate. -/
def DecodeRune (r1 r2 : Nat) : Nat :=
  if surr1 ≤ r1 ∧ r1 < surr2 ∧ surr2 ≤ r2 ∧ r2 < surr3 then
    ((r1 - surr1) * 1024 ||| (r2 - surr2)) + surrSelf
  else replacementChar

/-- The function `utf16.Decode`: the loop over the code units, taking two units
for a valid surrogate pair and writing U+FFFD for any other surrogate. -/
def utf16Decode : List Nat → List Nat
  | [] => []
  | [r] => if r < surr1 ∨ surr3 ≤ r then [r] else [replacementChar]
  | r :: s1 :: rest =>
    if r < surr1 ∨ surr3 ≤ r then r :: utf16Decode (s1 :: rest)
    else if surr1 ≤ r ∧ r < surr2 ∧ surr2 ≤ s1 ∧ s1 < surr3 then
      DecodeRune r s1 :: utf16Decode rest
    else replacementChar :: utf16Decode (s1 :: rest)

/-- The UTF-8 encoding of one rune (`utf8.AppendRune`): a surrogate or a value
above U+10FFFF is written as U+FFFD. -/
def encodeRune (r : Nat) : List Byte :=
  if r ≤ 0x7F then [byte r]
  else if r ≤ 0x7FF then [byte (0xC0 + r / 64), byte (0x80 + r % 64)]
  else if 0x10FFFF < r ∨ (surr1 ≤ r ∧ r < surr3) then [byte 0xEF, byte 0xBF, byte 0xBD]
  else if r ≤ 0xFFFF then
    [byte (0xE0 + r / 4096), byte (0x80 + r / 64 % 64), byte (0x80 + r % 64)]
  else
    [byte (0xF0 + r / 262144), byte (0x80 + r / 4096 % 64), byte (0x80 + r / 64 % 64),
      byte (0x80 + r % 64)]

/-- The conversion `string(runes)`. -/
def stringOfRunes (runes : List Nat) : GoString := (runes.map encodeRune).flatten

/-- The `[]uint16` that `binary.Read` decodes from an even number of bytes. -/
def decodeUint16s (o : ByteOrder) : List Byte → List Nat
  | b0 :: b1 :: rest => decodeUint o [b0, b1] :: decodeUint16s o rest
  | _ => []

/-- The method `ReadQString`. -/
def ReadQString (r : Reader) : Outcome GoString :=
  match ReadUint32 r with
  | .ret _ (some err) r1 => .ret [] (some err) r1
  | .ret n none r1 =>
    if n = 0xFFFFFFFF then .ret [] none r1
    else
      match binaryRead (2 * (n.toNat / 2)) r1 with
      | (.error err, r2) => .ret [] (some err) r2
      | (.ok buf, r2) => .ret (stringOfRunes (utf16Decode (decodeUint16s r.ByteOrder buf))) none r2
  | .panic => .panic
  | .fuel => .fuel

/-- The method `ReadCString`. -/
def ReadCString (r : Reader) : Outcome GoString :=
  match ReadUint32 r with
  | .ret _ (some err) r1 => .ret [] (some err) r1
  | .ret n none r1 =>
    match binaryRead n.toNat r1 with
    | (.error err, r2) => .ret [] (some err) r2
    | (.ok buf, r2) => .ret buf none r2
  | .panic => .panic
  | .fuel => .fuel

/-- The method `ReadQByteArray`; `none` is the nil slice. -/
def ReadQByteArray (r : Reader) : Outcome (Option (List Byte)) :=
  match ReadUint32 r with
  | .ret _ (some err) r1 => .ret none (some err) r1
  | .ret n none r1 =>
    if n = 0xFFFFFFFF then .ret none none r1
    else
      match binaryRead n.toNat r1 with
      | (.error err, r2) => .ret none (some err) r2
      | (.ok buf, r2) => .ret (some buf) none r2
  | .panic => .panic
  | .fuel => .fuel

/-- The subtraction `i - 1` on `uint32`, which wraps around at zero. -/
def dec32 (i : Nat) : Nat := if i = 0 then 4294967295 else i - 1

/-- The loop `for i := n - 1; i >= 0; i--` of `ReadQBitArray` with its `uint32`
counter `i`: the condition `i >= 0` holds for every `uint32`, an index outside
`buf` or `bits` panics, and `i--` wraps around below zero.  The first argument
bounds the number of iterations. -/
def bitArrayLoop (buf : List Byte) (r : Reader) : Nat → Nat → List Bool → Outcome (List Bool)
  | 0, _, _ => .fuel
  | k + 1, i, bits =>
    if 0 ≤ i then
      match buf.get? (i / 8) with
      | none => .panic
      | some b =>
        if i < bits.length then
          bitArrayLoop buf r k (dec32 i)
            (bits.set i (decide (b.val / 2 ^ (7 - i % 8) % 2 = 1)))
        else .panic
    else .ret bits none r

/-- The method `ReadQBitArray`; `none` is the nil slice.  The loop is given one
iteration for each of the `n` bits and two more. -/
def ReadQBitArray (r : Reader) : Outcome (Option (List Bool)) :=
  match ReadUint32 r with
  | .ret _ (some err) r1 => .ret none (some err) r1
  | .ret n none r1 =>
    match binaryRead ((n.toNat + 7) % 4294967296 / 8) r1 with
    | (.error err, r2) => .ret none (some err) r2
    | (.ok buf, r2) =>
      match bitArrayLoop buf r2 (n.toNat + 2) (dec32 n.toNat)
          (List.replicate n.toNat false) with
      | .ret bits _ r3 => .ret (some bits) none r3
      | .panic => .panic
      | .fuel => .fuel
  | .panic => .panic
  | .fuel => .fuel

/-! ## Calendar -/

/-- The value of a 64-bit signed integer expression after wrap-around. -/
def wrap64 (x : Int) : Int := (x + 9223372036854775808) % 18446744073709551616 - 9223372036854775808

/-- Go's `a + b` on `int` and `int64`. -/
def add64 (a b : Int) : Int := wrap64 (a + b)

/-- Go's `a - b` on `int` and `int64`. -/
def sub64 (a b : Int) : Int := wrap64 (a - b)

/-- Go's `a * b` on `int` and `int64`. -/
def mul64 (a b : Int) : Int := wrap64 (a * b)

/-- Go's `a / b` on `int`: the quotient truncated toward zero.  The divisors of
`ReadQDate` are nonzero constants, so the division never panics. -/
def div64 (a b : Int) : Int := wrap64 (a.tdiv b)

/-- The closure `floordiv` of `ReadQDate`. -/
def floordiv (a b : Int) : Int :=
  let x : Int := if a < 0 then sub64 b 1 else 0
  div64 (sub64 a x) b

/-- The year, month and day that `ReadQDate` computes from the `uint64` it read
and passes to `time.Date`. -/
def qdateYMD (julian : Int) : Int × Int × Int :=
  let a := add64 (wrap64 julian) 32044
  let b := floordiv (add64 (mul64 4 a) 3) 146097
  let c := sub64 a (floordiv (mul64 146097 b) 4)
  let d := floordiv (add64 (mul64 4 c) 3) 1461
  let e := sub64 c (floordiv (mul64 1461 d) 4)
  let m := floordiv (add64 (mul64 5 e) 2) 153
  let day := add64 (sub64 e (floordiv (add64 (mul64 153 m) 2) 5)) 1
  let month := sub64 (add64 m 3) (mul64 12 (floordiv m 10))
  let year := add64 (sub64 (add64 (mul64 100 b) d) 4800) (floordiv m 10)
  let year := if year ≤ 0 then sub64 year 1 else year
  (year, month, day)

/-- The conversion `uint64(x)`, and the value of a `uint64` expression after
wrap-around. -/
def toUint64 (x : Int) : Int := x % 18446744073709551616

/-- Go's `a + b` on `uint64`. -/
def addU64 (a b : Int) : Int := toUint64 (a + b)

/-- Go's `a - b` on `uint64`. -/
def subU64 (a b : Int) : Int := toUint64 (a - b)

/-- Go's `a * b` on `uint64`. -/
def mulU64 (a b : Int) : Int := toUint64 (a * b)

/-- A `*time.Location`, by what its method `lookup` returns for a Unix time: the
offset in seconds east of UTC in force at that time, and the Unix times at which
that offset starts and stops being in force.  What `time.Local` is depends on
the zone database and the settings of the machine, so the local location is a
parameter of the code that uses it. -/
structure Location where
  lookup : Int → Int × Int × Int

/-- The location `time.UTC`: the offset 0, in force from `alpha` to `omega`. -/
def Location.UTC : Location := ⟨fun _ => (0, -9223372036854775808, 9223372036854775807)⟩

/-- A `time.Time` without a monotonic clock reading: the seconds since 1 January
of year 1, 00:00:00 UTC (the field `ext`, an `int64`), the nanoseconds within
the second (kept in the field `wall`), and the location. -/
structure GoTime where
  ext : Int
  nsec : Int
  loc : Location

/-- The constant `absoluteZeroYear` of package `time`: the year from which the
package counts its unsigned absolute times. -/
def absoluteZeroYear : Int := -292277022399

/-- The constant `absoluteToInternal` of package `time`, in seconds. -/
def absoluteToInternal : Int := -9223371966579724800

/-- The constant `unixToInternal` of package `time`, in seconds. -/
def unixToInternal : Int := 62135596800

/-- The function `isLeap` of package `time`. -/
def isLeap (year : Int) : Bool := year % 4 = 0 ∧ (year % 100 ≠ 0 ∨ year % 400 = 0)

/-- The table `daysBefore` of package `time`: the days of a non-leap year before
the end of month `m`. -/
def daysBefore (m : Int) : Int :=
  if m ≤ 0 then 0 else if m = 1 then 31 else if m = 2 then 59 else if m = 3 then 90
  else if m = 4 then 120 else if m = 5 then 151 else if m = 6 then 181
  else if m = 7 then 212 else if m = 8 then 243 else if m = 9 then 273
  else if m = 10 then 304 else if m = 11 then 334 else 365

/-- The function `norm` of package `time`: `hi` and `lo` with `lo` brought into
`0 ≤ lo < base` and the overflow moved into `hi`. -/
def norm (hi lo base : Int) : Int × Int :=
  let n1 := add64 (div64 (sub64 (sub64 0 lo) 1) base) 1
  let hi1 := if lo < 0 then sub64 hi n1 else hi
  let lo1 := if lo < 0 then add64 lo (mul64 n1 base) else lo
  let n2 := div64 lo1 base
  if lo1 ≥ base then (add64 hi1 n2, sub64 lo1 (mul64 n2 base)) else (hi1, lo1)

/-- The function `daysSinceEpoch` of package `time`: the days from 1 January of
the absolute zero year to 1 January of `year`, by 400-year, 100-year and 4-year
cycles, in `uint64` arithmetic. -/
def daysSinceEpoch (year : Int) : Int :=
  let y := toUint64 (sub64 year absoluteZeroYear)
  let n := y / 400
  let y := subU64 y (mulU64 400 n)
  let d := mulU64 146097 n
  let n := y / 100
  let y := subU64 y (mulU64 100 n)
  let d := addU64 d (mulU64 36524 n)
  let n := y / 4
  let y := subU64 y (mulU64 4 n)
  let d := addU64 d (mulU64 1461 n)
  addU64 d (mulU64 365 y)

/-- The function `time.Date(year, month, day, 0, 0, 0, 0, loc)`.  The month is
normalised into the year, then the days before the year, before the month and
before the day are added, so a day past the end of its month runs into the
next month; the count of seconds is a `uint64` and wraps around.  The seconds
so found are a wall clock reading; the offset of the location at that reading
taken as a Unix time is subtracted, or, when the Unix time so found lies
outside the period in which that offset is in force, the offset that a second
lookup gives for it. -/
def goDate (year month day : Int) (loc : Location) : GoTime :=
  let ym := norm year (sub64 month 1) 12
  let year := ym.1
  let month := add64 ym.2 1
  let d := daysSinceEpoch year
  let d := addU64 d (daysBefore (month - 1))
  let d := if isLeap year ∧ 3 ≤ month then addU64 d 1 else d
  let d := addU64 d (toUint64 (sub64 day 1))
  let abs := mulU64 d 86400
  let unix := add64 (wrap64 abs) (absoluteToInternal + -unixToInternal)
  let z := loc.lookup unix
  let offset := z.1
  let utc := sub64 unix offset
  let offset2 := if utc < z.2.1 ∨ utc ≥ z.2.2 then (loc.lookup utc).1 else offset
  let unix := if offset ≠ 0 then sub64 unix offset2 else unix
  ⟨add64 unix unixToInternal, 0, loc⟩

/-- The method `abs` of `time.Time`: the seconds since 1 January of the absolute
zero year of the wall clock reading in the location of the time, a `uint64`. -/
def GoTime.abs (t : GoTime) : Int :=
  let sec := add64 t.ext (-unixToInternal)
  let sec := add64 sec (t.loc.lookup sec).1
  toUint64 (add64 sec (unixToInternal + -absoluteToInternal))

/-- The function `absDate` of package `time`: the year, month and day of an
absolute time.  The argument is a `uint64`, and no operation on the way exceeds
it, so none wraps around. -/
def absDate (abs : Int) : Int × Int × Int :=
  let d := abs / 86400
  let n := d / 146097
  let y := 400 * n
  let d := d - 146097 * n
  let n := d / 36524
  let n := n - n / 4
  let y := y + 100 * n
  let d := d - 36524 * n
  let n := d / 1461
  let y := y + 4 * n
  let d := d - 1461 * n
  let n := d / 365
  let n := n - n / 4
  let y := y + n
  let d := d - 365 * n
  let year := y + absoluteZeroYear
  if isLeap year ∧ d = 31 + 29 - 1 then (year, 2, 29)
  else
    let day := if isLeap year ∧ d > 31 + 29 - 1 then d - 1 else d
    let month := day / 31
    let wrapped := day ≥ daysBefore (month + 1)
    let begin := if wrapped then daysBefore (month + 1) else daysBefore month
    let month := if wrapped then month + 1 else month
    (year, month + 1, day - begin + 1)

/-- The method `Date` of `time.Time`: the year, month and day in which the time
falls in its location. -/
def GoTime.civil (t : GoTime) : Int × Int × Int := absDate t.abs

/-- The method `Year` of `time.Time`. -/
def GoTime.Year (t : GoTime) : Int := t.civil.1

/-- The method `Month` of `time.Time`. -/
def GoTime.Month (t : GoTime) : Int := t.civil.2.1

/-- The method `Day` of `time.Time`. -/
def GoTime.Day (t : GoTime) : Int := t.civil.2.2

/-- The method `Hour` of `time.Time`. -/
def GoTime.Hour (t : GoTime) : Int := t.abs % 86400 / 3600

/-- The method `Minute` of `time.Time`. -/
def GoTime.Minute (t : GoTime) : Int := t.abs % 3600 / 60

/-- The method `Second` of `time.Time`. -/
def GoTime.Second (t : GoTime) : Int := t.abs % 60

/-- The method `Nanosecond` of `time.Time`. -/
def GoTime.Nanosecond (t : GoTime) : Int := t.nsec

/-- The method `addSec` of `time.Time` on the field `ext`: the sum, or the
largest or smallest value when the sum overflows. -/
def addSec (ext d : Int) : Int :=
  let sum := add64 ext d
  if decide (sum > ext) = decide (d > 0) then sum
  else if d > 0 then 9223372036854775807
  else -9223372036854775807

/-- The method `Add` of `time.Time` for a `time.Duration` of `d` nanoseconds. -/
def GoTime.Add (t : GoTime) (d : Int) : GoTime :=
  let dsec := d.tdiv 1000000000
  let nsec := t.nsec + d.tmod 1000000000
  let dsec1 := if nsec ≥ 1000000000 then dsec + 1 else if nsec < 0 then dsec - 1 else dsec
  let nsec1 := if nsec ≥ 1000000000 then nsec - 1000000000
    else if nsec < 0 then nsec + 1000000000 else nsec
  { t with ext := addSec t.ext dsec1, nsec := nsec1 }

/-- The zero value `time.Time{}`: 1 January of year 1, 00:00 UTC. -/
def GoTime.zero : GoTime := ⟨0, 0, .UTC⟩

/-- The method `ReadQDate`. -/
def ReadQDate (r : Reader) : Outcome GoTime :=
  match ReadUint64 r with
  | .ret _ (some err) r1 => .ret GoTime.zero (some err) r1
  | .ret julian none r1 =>
    match qdateYMD julian with
    | (year, month, day) => .ret (goDate year month day .UTC) none r1
  | .panic => .panic
  | .fuel => .fuel

/-- The method `ReadQTime`: a `time.Duration`, an `int64` count of nanoseconds. -/
def ReadQTime (r : Reader) : Outcome Int :=
  match ReadUint32 r with
  | .ret _ (some err) r1 => .ret 0 (some err) r1
  | .ret msecsMidnight none r1 => .ret (mul64 1000000 (wrap64 msecsMidnight)) none r1
  | .panic => .panic
  | .fuel => .fuel

/-- The method `ReadQDateTime`; `Local` is the location `time.Local`. -/
def ReadQDateTime (Local : Location) (r : Reader) : Outcome GoTime :=
  match ReadQDate r with
  | .ret _ (some err) r1 => .ret GoTime.zero (some err) r1
  | .ret d none r1 =>
    match ReadQTime r1 with
    | .ret _ (some err) r2 => .ret GoTime.zero (some err) r2
    | .ret t none r2 =>
      match ReadUint8 r2 with
      | .ret _ (some err) r3 => .ret GoTime.zero (some err) r3
      | .ret u none r3 =>
        let z := if u = 0 then Local else Location.UTC
        .ret ((goDate d.Year d.Month d.Day z).Add t) none r3
      | .panic => .panic
      | .fuel => .fuel
    | .panic => .panic
    | .fuel => .fuel
  | .panic => .panic
  | .fuel => .fuel

/-! ## Variants -/

/-- The payload `interface{}` of a variant.  A slice or a map is `none` when it
is the nil slice or the nil map; `nil` is the nil interface. -/
inductive Value where
  | nil
  | bool (v : Bool)
  | int32 (v : Int)
  | uint32 (v : Int)
  | int64 (v : Int)
  | uint64 (v : Int)
  | float64 (v : Float64Val)
  | float32 (v : Float32Val)
  | uint8 (v : Int)
  | int8 (v : Int)
  | int16 (v : Int)
  | uint16 (v : Int)
  | bools (v : Option (List Bool))
  | map (v : Option (List (GoString × Value)))
  | string (v : GoString)
  | list (v : Option (List Value))
  | bytes (v : Option (List Byte))
  | strings (v : Option (List GoString))
  | time (v : GoTime)
  | duration (v : Int)
  | url (v : Option GoString)

/-- The method `ReadQUrl`.  The standard library's `url.Parse` is a parameter:
`urlFails str` tells whether it returns an error for `str`; the `*url.URL` it
returns otherwise is represented by the string it was parsed from, and `none`
is the nil pointer. -/
def ReadQUrl (urlFails : GoString → Bool) (r : Reader) : Outcome (Option GoString) :=
  match ReadQString r with
  | .ret _ (some err) r1 => .ret none (some err) r1
  | .ret str none r1 =>
    if str = [] then .ret none none r1
    else if urlFails str then .ret none (some (.urlParse str)) r1
    else .ret (some str) none r1
  | .panic => .panic
  | .fuel => .fuel

/-- The two lower-case hexadecimal digits of a byte (`hex.EncodeToString`). -/
def hexByte (b : Byte) : List Byte :=
  let digit (n : Nat) : Byte := if n < 10 then byte (48 + n) else byte (87 + n)
  [digit (b.val / 16), digit (b.val % 16)]

/-- The method `ReadQUuid`: `io.ReadAll` of an `io.LimitReader` of 16 bytes takes
the next 16 bytes, or all that are left, and reports no error at the end of the
source. -/
def ReadQUuid (r : Reader) : Outcome GoString :=
  .ret ((r.Reader.take 16).map hexByte).flatten none { r with Reader := r.Reader.drop 16 }

/-- The assignment `m[k] = v` on a map kept as the list of its entries. -/
def mapSet (m : List (GoString × Value)) (k : GoString) (v : Value) : List (GoString × Value) :=
  if m.any (fun e => e.1 = k) then m.map (fun e => if e.1 = k then (k, v) else e)
  else m ++ [(k, v)]

/-- The loop of `ReadQStringQVariantList` with `n` elements left to read and the
elements `acc` read so far; `rv` is `ReadQVariant`. -/
def variantListLoop (rv : Reader → Outcome (QMetaType × Value)) :
    Nat → Reader → List Value → Outcome (Option (List Value))
  | 0, r, acc => .ret (some acc) none r
  | n + 1, r, acc =>
    match rv r with
    | .ret _ (some err) r1 => .ret none (some err) r1
    | .ret (_, v) none r1 => variantListLoop rv n r1 (acc ++ [v])
    | .panic => .panic
    | .fuel => .fuel

/-- The method `ReadQStringQVariantList`; `rv` is `ReadQVariant`. -/
def readQStringQVariantList (rv : Reader → Outcome (QMetaType × Value)) (r : Reader) :
    Outcome (Option (List Value)) :=
  match ReadUint32 r with
  | .ret _ (some err) r1 => .ret none (some err) r1
  | .ret n none r1 => variantListLoop rv n.toNat r1 []
  | .panic => .panic
  | .fuel => .fuel

/-- The loop of `ReadQStringQStringList`. -/
def stringListLoop : Nat → Reader → List GoString → Outcome (Option (List GoString))
  | 0, r, acc => .ret (some acc) none r
  | n + 1, r, acc =>
    match ReadQString r with
    | .ret _ (some err) r1 => .ret none (some err) r1
    | .ret v none r1 => stringListLoop n r1 (acc ++ [v])
    | .panic => .panic
    | .fuel => .fuel

/-- The method `ReadQStringQStringList`. -/
def ReadQStringQStringList (r : Reader) : Outcome (Option (List GoString)) :=
  match ReadUint32 r with
  | .ret _ (some err) r1 => .ret none (some err) r1
  | .ret n none r1 => stringListLoop n.toNat r1 []
  | .panic => .panic
  | .fuel => .fuel

/-- The loop of `ReadQStringQVariantAssociative` with `n` pairs left to read and
the map `m` built so far, which is returned with the error when a read fails;
`rv` is `ReadQVariant`. -/
def variantMapLoop (rv : Reader → Outcome (QMetaType × Value)) :
    Nat → Reader → List (GoString × Value) → Outcome (Option (List (GoString × Value)))
  | 0, r, m => .ret (some m) none r
  | n + 1, r, m =>
    match ReadQString r with
    | .ret _ (some err) r1 => .ret (some m) (some err) r1
    | .ret k none r1 =>
      match rv r1 with
      | .ret _ (some err) r2 => .ret (some m) (some err) r2
      | .ret (_, v) none r2 => variantMapLoop rv n r2 (mapSet m k v)
      | .panic => .panic
      | .fuel => .fuel
    | .panic => .panic
    | .fuel => .fuel

/-- The method `ReadQStringQVariantAssociative`; `rv` is `ReadQVariant`. -/
def readQStringQVariantAssociative (rv : Reader → Outcome (QMetaType × Value)) (r : Reader) :
    Outcome (Option (List (GoString × Value))) :=
  match ReadUint32 r with
  | .ret _ (some err) r1 => .ret none (some err) r1
  | .ret n none r1 => variantMapLoop rv n.toNat r1 []
  | .panic => .panic
  | .fuel => .fuel

/-- The statement `v, err = f()` followed by `return QMetaType(t), v, err`. -/
def payload {α : Type} (t : Int) (f : α → Value) : Outcome α → Outcome (QMetaType × Value)
  | .ret v err r => .ret (t, f v) err r
  | .panic => .panic
  | .fuel => .fuel

/-- The `switch QMetaType(t)` of `ReadQVariant` with the `return` after it; `rv`
is `ReadQVariant`, which the list and the map call for their elements, and
`Local` is the location `time.Local`, which `ReadQDateTime` uses. -/
def variantSwitch (urlFails : GoString → Bool) (Local : Location)
    (rv : Reader → Outcome (QMetaType × Value)) (t : Int) (r2 : Reader) :
    Outcome (QMetaType × Value) :=
  if t = QMetaTypeBool then payload t .bool (ReadBool r2)
  else if t = QMetaTypeInt then payload t .int32 (ReadInt32 r2)
  else if t = QMetaTypeUInt then payload t .uint32 (ReadUint32 r2)
  else if t = QMetaTypeLongLong then payload t .int64 (ReadInt64 r2)
  else if t = QMetaTypeULongLong then payload t .uint64 (ReadUint64 r2)
  else if t = QMetaTypeDouble then payload t .float64 (ReadDouble r2)
  else if t = QMetaTypeFloat then payload t .float32 (ReadFloat r2)
  else if t = QMetaTypeQChar ∨ t = QMetaTypeChar then payload t .uint8 (ReadUint8 r2)
  else if t = QMetaTypeSChar then payload t .int8 (ReadInt8 r2)
  else if t = QMetaTypeShort then payload t .int16 (ReadInt16 r2)
  else if t = QMetaTypeUShort then payload t .uint16 (ReadUint16 r2)
  else if t = QMetaTypeQBitArray then payload t .bools (ReadQBitArray r2)
  else if t = QMetaTypeQVariantMap ∨ t = QMetaTypeQVariantHash then
    payload t .map (readQStringQVariantAssociative rv r2)
  else if t = QMetaTypeQUuid then payload t .string (ReadQUuid r2)
  else if t = QMetaTypeQVariantList then payload t .list (readQStringQVariantList rv r2)
  else if t = QMetaTypeQByteArray then payload t .bytes (ReadQByteArray r2)
  else if t = QMetaTypeQString then payload t .string (ReadQString r2)
  else if t = QMetaTypeQStringList then payload t .strings (ReadQStringQStringList r2)
  else if t = QMetaTypeQDate then payload t .time (ReadQDate r2)
  else if t = QMetaTypeQTime then payload t .duration (ReadQTime r2)
  else if t = QMetaTypeQDateTime then payload t .time (ReadQDateTime Local r2)
  else if t = QMetaTypeQUrl then payload t .url (ReadQUrl urlFails r2)
  else .ret (t, .nil) (some (.unimplementedType t)) r2

/-- The method `ReadQVariant` with a bound on the depth of nested variants: each
call that a list or a map makes for one of its elements lowers the bound by one,
and `Outcome.fuel` is the result when the bound is used up. -/
def readQVariant (urlFails : GoString → Bool) (Local : Location) :
    Nat → Reader → Outcome (QMetaType × Value)
  | 0, _ => .fuel
  | depth + 1, r =>
    match ReadUint32 r with
    | .ret _ (some err) r1 => .ret (0, .nil) (some err) r1
    | .ret t none r1 =>
      match ReadBool r1 with
      | .ret _ (some err) r2 => .ret (0, .nil) (some err) r2
      | .ret true none r2 => .ret (t, .nil) none r2
      | .ret false none r2 => variantSwitch urlFails Local (readQVariant urlFails Local depth) t r2
      | .panic => .panic
      | .fuel => .fuel
    | .panic => .panic
    | .fuel => .fuel

/-- The method `ReadQVariant`.  A variant nested in another one starts after the
five header bytes of the enclosing one, so the depth of nesting stays below the
bound given here. -/
def ReadQVariant (urlFails : GoString → Bool) (Local : Location)
    (r : Reader) : Outcome (QMetaType × Value) :=
  readQVariant urlFails Local (r.Reader.length + 1) r

/-- The method `ReadQStringQVariantList`. -/
def ReadQStringQVariantList (urlFails : GoString → Bool) (Local : Location) (r : Reader) :
    Outcome (Option (List Value)) :=
  readQStringQVariantList (readQVariant urlFails Local (r.Reader.length + 1)) r

/-- The method `ReadQStringQVariantAssociative`. -/
def ReadQStringQVariantAssociative (urlFails : GoString → Bool) (Local : Location) (r : Reader) :
    Outcome (Option (List (GoString × Value))) :=
  readQStringQVariantAssociative (readQVariant urlFails Local (r.Reader.length + 1)) r

/-- The body of the method `ReadQVariant` with `rv` in the place of the calls
that its list and its map make of `ReadQVariant` itself. -/
def variantBody (urlFails : GoString → Bool) (Local : Location)
    (rv : Reader → Outcome (QMetaType × Value))
    (r : Reader) : Outcome (QMetaType × Value) :=
  match ReadUint32 r with
  | .ret _ (some err) r1 => .ret (0, .nil) (some err) r1
  | .ret t none r1 =>
    match ReadBool r1 with
    | .ret _ (some err) r2 => .ret (0, .nil) (some err) r2
    | .ret true none r2 => .ret (t, .nil) none r2
    | .ret false none r2 => variantSwitch urlFails Local rv t r2
    | .panic => .panic
    | .fuel => .fuel
  | .panic => .panic
  | .fuel => .fuel

/-! ## Construction and version -/

/-- The function `NewReader`. -/
def NewReader (reader : List Byte) : Reader :=
  { Reader := reader, ByteOrder := .BigEndian, version := 19, DoublePrecision := false }

/-- The method `SetVersion`: the error it returns, if any, and the reader after
the call. -/
def SetVersion (r : Reader) (version : Int) : Option GoError × Reader :=
  let acceptedVersions : List Int := [19, 20]
  let found := acceptedVersions.any (fun v => v = version)
  if !found then (some (.unsupportedVersion version), r)
  else (none, { r with version := version })

/-! ## Definitions of the specification

The encodings, calendars and decodings that the statements below compare the
decoder with, and the predicates of the proofs. -/

/-- The bytes of the `w`-byte unsigned integer `n`, least significant first. -/
def encodeLE : Nat → Nat → List Byte
  | 0, _ => []
  | w + 1, n => byte n :: encodeLE w (n / 256)

/-- The `w`-byte encoding of the unsigned integer `n` in a byte order. -/
def encodeUint (o : ByteOrder) (w n : Nat) : List Byte :=
  match o with
  | .LittleEndian => encodeLE w n
  | .BigEndian => (encodeLE w n).reverse

/-- The number a byte sequence denotes, by the weight of each position: in big
endian the first byte is the most significant, in little endian the least. -/
def weighted (o : ByteOrder) : List Byte → Nat
  | [] => 0
  | b :: rest =>
    match o with
    | .BigEndian => b.val * 256 ^ rest.length + weighted o rest
    | .LittleEndian => b.val + 256 * weighted o rest

/-- The eight integer methods, each with its width in bits and whether its type
is signed. -/
def integerMethods : List (Nat × Bool × (Reader → Outcome Int)) :=
  [(8, true, ReadInt8), (16, true, ReadInt16), (32, true, ReadInt32), (64, true, ReadInt64),
    (8, false, ReadUint8), (16, false, ReadUint16), (32, false, ReadUint32),
    (64, false, ReadUint64)]

/-- The signed integer that the `N`-bit pattern `u` is in two's complement. -/
def twosComplement (N : Nat) (u : Nat) : Int := if u < 2 ^ (N - 1) then (u : Int) else (u : Int) - 2 ^ N

/-- The type codes that `ReadQVariant` has a case for. -/
def implementedCodes : List Int :=
  [1, 2, 3, 4, 5, 6, 7, 8, 9, 10, 11, 12, 13, 14, 15, 16, 17, 28, 30, 33, 34, 36, 38, 40]

/-- The error of a short read. -/
def ioErr (e : GoError) : Prop := e = .EOF ∨ e = .ErrUnexpectedEOF

/-- The error of an outcome, if it returns one, satisfies `P`. -/
def Outcome.errSat {α : Type} (P : GoError → Prop) : Outcome α → Prop
  | .ret _ (some e) _ => P e
  | _ => True

/-- An error that is not the unsupported-type error. -/
def notUnimplemented (e : GoError) : Prop := ∀ c, e ≠ .unimplementedType c

/-- The value and the error of an outcome, if it returns an error, satisfy `R`. -/
def Outcome.retSat {α : Type} (R : α → GoError → Prop) : Outcome α → Prop
  | .ret v (some e) _ => R v e
  | _ => True

/-- An unsupported-type error carries a code that has no case in `ReadQVariant`. -/
def carriesUnimplemented (e : GoError) : Prop := ∀ c, e = .unimplementedType c → c ∉ implementedCodes

/-- A high (leading) surrogate code unit. -/
def isHigh (u : Nat) : Bool := 0xD800 ≤ u && u < 0xDC00

/-- A low (trailing) surrogate code unit. -/
def isLow (u : Nat) : Bool := 0xDC00 ≤ u && u < 0xE000

/-- The scalar value of a surrogate pair. -/
def pairScalar (hi lo : Nat) : Nat := 0x10000 + (hi - 0xD800) * 1024 + (lo - 0xDC00)

/-- Whether `out` is a UTF-16 decoding of the code units: a high surrogate
immediately followed by a low one gives the scalar value of the pair, a unit
that is no surrogate gives itself, and any other surrogate, which is unpaired,
gives one value accepted by `unpairedOk`. -/
def decodesAs (unpairedOk : Nat → Bool) : List Nat → List Nat → Bool
  | [], [] => true
  | [], _ :: _ => false
  | _ :: _, [] => false
  | [u], s :: out => (if isHigh u || isLow u then unpairedOk s else decide (s = u)) && out.isEmpty
  | hi :: lo :: rest, s :: out =>
    if isHigh hi && isLow lo then decide (s = pairScalar hi lo) && decodesAs unpairedOk rest out
    else if isHigh hi || isLow hi then unpairedOk s && decodesAs unpairedOk (lo :: rest) out
    else decide (s = hi) && decodesAs unpairedOk (lo :: rest) out

/-- Whether the code units contain an unpaired surrogate: a high surrogate not
followed by a low one, or a low surrogate not preceded by a high one; `prev` is
the unit before the list. -/
def hasUnpaired (prev : Option Nat) : List Nat → Bool
  | [] => false
  | u :: rest =>
    (isHigh u && !(rest.head?.any isLow)) || (isLow u && !(prev.any isHigh)) ||
      hasUnpaired (some u) rest

/-- The `n/2` code units of a string field of declared byte length `n` whose
bytes start the list `body`. -/
def codeUnits (o : ByteOrder) (n : Nat) (body : List Byte) : List Nat :=
  decodeUint16s o (body.take (2 * (n / 2)))

/-- The date of the spec's algorithm for the Julian day number `j`, over the
integers with floored division: the year, the month and the day. -/
def specYMD (j : Int) : Int × Int × Int :=
  let a := j + 32044
  let b := Int.fdiv (4 * a + 3) 146097
  let c := a - Int.fdiv (146097 * b) 4
  let d := Int.fdiv (4 * c + 3) 1461
  let e := c - Int.fdiv (1461 * d) 4
  let m := Int.fdiv (5 * e + 2) 153
  let day := e - Int.fdiv (153 * m + 2) 5 + 1
  let month := m + 3 - 12 * Int.fdiv m 10
  let year := 100 * b + d - 4800 + Int.fdiv m 10
  (if year ≤ 0 then year - 1 else year, month, day)

/-- The `time.Time` that `ReadQDate` returns for the Julian day number it read. -/
def qdateValue (julian : Int) : GoTime :=
  goDate (qdateYMD julian).1 (qdateYMD julian).2.1 (qdateYMD julian).2.2 .UTC

/-- The Julian day number of a date of the proleptic Gregorian calendar whose
years before year 1 are numbered -1, -2, ... (there is no year 0). -/
def julianDayFromDate (year month day : Int) : Int :=
  let year := if year < 0 then year + 1 else year
  let a := Int.fdiv (14 - month) 12
  let y := year + 4800 - a
  let m := month + 12 * a - 3
  day + Int.fdiv (153 * m + 2) 5 + 365 * y + Int.fdiv y 4 - Int.fdiv y 100 + Int.fdiv y 400 - 32045

/-- The days of a month of that calendar: the year before year 1 is a leap
year, and so is every fourth year before it, by the Gregorian rule. -/
def daysInMonth (year month : Int) : Int :=
  let y := if year < 0 then year + 1 else year
  if month = 2 then (if y % 4 = 0 ∧ (y % 100 ≠ 0 ∨ y % 400 = 0) then 29 else 28)
  else if month = 4 ∨ month = 6 ∨ month = 9 ∨ month = 11 then 30 else 31

/-- A date of that calendar. -/
def validDate (year month day : Int) : Bool :=
  year ≠ 0 ∧ 1 ≤ month ∧ month ≤ 12 ∧ 1 ≤ day ∧ day ≤ daysInMonth year month

/-- The characters `0123456789abcdef` of the lower-case hexadecimal digits. -/
def hexDigits : List Byte :=
  [48, 49, 50, 51, 52, 53, 54, 55, 56, 57, 97, 98, 99, 100, 101, 102]

/-- The function `time.FixedZone`: a location whose offset is in force at all
times. -/
def FixedZone (offset : Int) : Location :=
  ⟨fun _ => (offset, -9223372036854775808, 9223372036854775807)⟩

/-- The location America/Sao_Paulo in the year 2018, as `time.Local` when the
zone of the machine is that one: the offset is -3 hours from 18 February 2018,
02:00 UTC, and -2 hours from 4 November 2018, 03:00 UTC (the Unix time
1541300400), to 17 February 2019, 02:00 UTC.  The clocks went from 00:00 to
01:00 on 4 November, so that day has no midnight there. -/
def saoPaulo2018 : Location :=
  ⟨fun sec => if sec < 1541300400 then (-10800, 1518919200, 1541300400)
    else (-7200, 1541300400, 1550368800)⟩

/-- The outcome is not the exhausted depth bound, and the reader it leaves has at
most `bound` unread bytes. -/
def Outcome.within {α : Type} (bound : Nat) : Outcome α → Prop
  | .ret _ _ r => r.Reader.length ≤ bound
  | .panic => True
  | .fuel => False

/-- The source holds `n` well-formed variants one after the other: the payloads
that `ReadQVariant` returns for them, in the order of the stream, and the reader
after the last of them; `none` when one of the `n` calls fails. -/
def wellFormedVariants (urlFails : GoString → Bool) (Local : Location) :
    Nat → Reader → Option (List Value × Reader)
  | 0, r => some ([], r)
  | n + 1, r =>
    match ReadQVariant urlFails Local r with
    | .ret (_, v) none r1 =>
      match wellFormedVariants urlFails Local n r1 with
      | some (vs, r2) => some (v :: vs, r2)
      | none => none
    | _ => none

/-- The source holds `n` well-formed pairs of a string key and a variant one after
the other: the keys with the payloads that `ReadQString` and `ReadQVariant`
return for them, in the order of the stream, and the reader after the last
pair; `none` when one of the calls fails. -/
def wellFormedPairs (urlFails : GoString → Bool) (Local : Location) :
    Nat → Reader → Option (List (GoString × Value) × Reader)
  | 0, r => some ([], r)
  | n + 1, r =>
    match ReadQString r with
    | .ret k none r1 =>
      match ReadQVariant urlFails Local r1 with
      | .ret (_, v) none r2 =>
        match wellFormedPairs urlFails Local n r2 with
        | some (ps, r3) => some ((k, v) :: ps, r3)
        | none => none
      | _ => none
    | _ => none

/-- The value that a map kept as the list of its entries has for a key. -/
def mapGet (m : List (GoString × Value)) (k : GoString) : Option Value :=
  (m.find? (fun e => e.1 = k)).map (fun e => e.2)

/-- The payload of the last pair of the stream that carries the key. -/
def lastValue (pairs : List (GoString × Value)) (k : GoString) : Option Value :=
  mapGet pairs.reverse k

/-- The map that the assignments `m[k] = v` of the pairs, in their order, make of
the map `m`. -/
def assignAll (m pairs : List (GoString × Value)) : List (GoString × Value) :=
  pairs.foldl (fun m p => mapSet m p.1 p.2) m

/-! # Theorems -/

theorem encodeLE_length (w n : Nat) : (encodeLE w n).length = w := by
  induction w generalizing n with
  | zero => rfl
  | succ w ih => simp [encodeLE, ih]

theorem encodeUint_length (o : ByteOrder) (w n : Nat) : (encodeUint o w n).length = w := by
  cases o <;> simp [encodeUint, encodeLE_length]

theorem decodeUint_le_encodeLE (w n : Nat) :
    decodeUint .LittleEndian (encodeLE w n) = n % 256 ^ w := by
  induction w generalizing n with
  | zero => simp [encodeLE, decodeUint, Nat.mod_one]
  | succ w ih =>
    have h := ih (n / 256)
    simp only [decodeUint] at h
    simp only [encodeLE, decodeUint, List.foldr_cons, h, byte]
    rw [pow_succ, mul_comm (256 ^ w) 256, Nat.mod_mul]

theorem decodeUint_reverse (l : List Byte) :
    decodeUint .BigEndian l.reverse = decodeUint .LittleEndian l := by
  simp only [decodeUint, List.foldl_reverse]
  congr 1
  funext b acc
  omega

theorem decodeUint_encodeUint (o : ByteOrder) (w n : Nat) (h : n < 256 ^ w) :
    decodeUint o (encodeUint o w n) = n := by
  cases o
  · simp only [encodeUint, decodeUint_reverse, decodeUint_le_encodeLE, Nat.mod_eq_of_lt h]
  · simp only [encodeUint, decodeUint_le_encodeLE, Nat.mod_eq_of_lt h]

theorem decodeUint_eq_weighted (o : ByteOrder) (bs : List Byte) :
    decodeUint o bs = weighted o bs := by
  cases o
  · have key : ∀ (l : List Byte) (acc : Nat),
        l.foldl (fun acc b => acc * 256 + b.val) acc
          = acc * 256 ^ l.length + weighted .BigEndian l := by
      intro l
      induction l with
      | nil => intro acc; simp [weighted]
      | cons b rest ih =>
        intro acc
        simp only [List.foldl_cons, ih, weighted, List.length_cons, pow_succ]
        ring
    simpa [decodeUint] using key bs 0
  · induction bs with
    | nil => rfl
    | cons b rest ih =>
      simp only [decodeUint, List.foldr_cons, weighted] at ih ⊢
      rw [ih]

theorem binaryRead_append (bs rest : List Byte) (o : ByteOrder) (v : Int) (dp : Bool) :
    binaryRead bs.length ⟨bs ++ rest, o, v, dp⟩ = (.ok bs, ⟨rest, o, v, dp⟩) := by
  simp [binaryRead]

theorem binaryRead_short (n : Nat) (r : Reader) (h : r.Reader.length < n) :
    binaryRead n r = (.error (if r.Reader.isEmpty then GoError.EOF else GoError.ErrUnexpectedEOF),
      { r with Reader := [] }) := by
  simp [binaryRead, Nat.not_le.mpr h]

theorem binaryRead_enough (n : Nat) (r : Reader) (h : n ≤ r.Reader.length) :
    binaryRead n r = (.ok (r.Reader.take n), { r with Reader := r.Reader.drop n }) := by
  simp [binaryRead, h]

theorem ReadUint32_encode (o : ByteOrder) (n : Nat) (hn : n < 4294967296) (rest : List Byte)
    (v : Int) (dp : Bool) :
    ReadUint32 ⟨encodeUint o 4 n ++ rest, o, v, dp⟩ = .ret (n : Int) none ⟨rest, o, v, dp⟩ := by
  have hlen : (encodeUint o 4 n).length = 4 := encodeUint_length o 4 n
  have hb := binaryRead_append (encodeUint o 4 n) rest o v dp
  rw [hlen] at hb
  simp only [ReadUint32, ReadNumber, NumKind.size, hb, NumKind.decode, NumKind.signed]
  rw [decodeUint_encodeUint o 4 n (by simpa using hn)]
  rfl

theorem weighted_lt (o : ByteOrder) (bs : List Byte) : weighted o bs < 256 ^ bs.length := by
  induction bs with
  | nil => simp [weighted]
  | cons b rest ih =>
    have hb : b.val < 256 := b.isLt
    cases o <;> simp only [weighted, List.length_cons, pow_succ] <;> nlinarith

theorem ReadNumber_enough (k : NumKind) (r : Reader) (h : k.size ≤ r.Reader.length) :
    ReadNumber k r = .ret (k.decode r.ByteOrder (r.Reader.take k.size)) none
      { r with Reader := r.Reader.drop k.size } := by
  simp only [ReadNumber, binaryRead_enough _ _ h]

theorem ReadNumber_short (k : NumKind) (r : Reader) (h : r.Reader.length < k.size) :
    ReadNumber k r = .ret 0
      (some (if r.Reader.isEmpty then GoError.EOF else GoError.ErrUnexpectedEOF))
      { r with Reader := [] } := by
  simp only [ReadNumber, binaryRead_short _ _ h]

theorem decode_signed (k : NumKind) (hk : k.signed = true) (o : ByteOrder) (bs : List Byte)
    (hlen : bs.length = k.size) :
    k.decode o bs = twosComplement (8 * k.size) (weighted o bs) := by
  have hlt := weighted_lt o bs
  rw [hlen] at hlt
  have hp : 2 ^ (8 * k.size) = 256 ^ k.size := by
    rw [pow_mul]; norm_num
  simp only [NumKind.decode, hk, if_true, toSigned, twosComplement, decodeUint_eq_weighted]
  rw [Nat.mod_eq_of_lt (by rw [hp]; exact hlt)]

theorem decode_unsigned (k : NumKind) (hk : k.signed = false) (o : ByteOrder) (bs : List Byte) :
    k.decode o bs = (weighted o bs : Nat) := by
  simp [NumKind.decode, hk, decodeUint_eq_weighted]

/-- C6: each of `ReadInt8` ... `ReadUint64`, of width `N` bits, on a source with at
least `N/8` bytes left takes exactly `N/8` bytes and returns the unsigned number
they denote in the reader's byte order (first byte most significant in big
endian, least significant in little endian), reinterpreted in two's complement
for the signed methods; on a shorter source it returns an error with the
value 0. -/
theorem readInteger_spec (N : Nat) (signed : Bool) (f : Reader → Outcome Int)
    (hm : (N, signed, f) ∈ integerMethods) (r : Reader) :
    (N / 8 ≤ r.Reader.length →
      f r = .ret
        (if signed then twosComplement N (weighted r.ByteOrder (r.Reader.take (N / 8)))
          else (weighted r.ByteOrder (r.Reader.take (N / 8)) : Nat))
        none { r with Reader := r.Reader.drop (N / 8) }) ∧
    (r.Reader.length < N / 8 → ∃ err, f r = .ret 0 (some err) { r with Reader := [] }) := by
  have main : ∀ k : NumKind, k ≠ .float32 → k ≠ .float64 →
      (k.size ≤ r.Reader.length →
        ReadNumber k r = .ret
          (if k.signed then twosComplement (8 * k.size) (weighted r.ByteOrder (r.Reader.take k.size))
            else (weighted r.ByteOrder (r.Reader.take k.size) : Nat))
          none { r with Reader := r.Reader.drop k.size }) ∧
      (r.Reader.length < k.size → ∃ err, ReadNumber k r = .ret 0 (some err) { r with Reader := [] }) := by
    intro k _ _
    refine ⟨fun h => ?_, fun h => ⟨_, ReadNumber_short k r h⟩⟩
    rw [ReadNumber_enough k r h]
    cases hk : k.signed
    · rw [decode_unsigned k hk]; simp
    · rw [decode_signed k hk _ _ (by simp [h])]; simp
  simp only [integerMethods, List.mem_cons, Prod.mk.injEq, List.mem_singleton, List.not_mem_nil,
    or_false] at hm
  rcases hm with ⟨rfl, rfl, rfl⟩ | ⟨rfl, rfl, rfl⟩ | ⟨rfl, rfl, rfl⟩ | ⟨rfl, rfl, rfl⟩ |
    ⟨rfl, rfl, rfl⟩ | ⟨rfl, rfl, rfl⟩ | ⟨rfl, rfl, rfl⟩ | ⟨rfl, rfl, rfl⟩
  · exact main .int8 (by decide) (by decide)
  · exact main .int16 (by decide) (by decide)
  · exact main .int32 (by decide) (by decide)
  · exact main .int64 (by decide) (by decide)
  · exact main .uint8 (by decide) (by decide)
  · exact main .uint16 (by decide) (by decide)
  · exact main .uint32 (by decide) (by decide)
  · exact main .uint64 (by decide) (by decide)

theorem readInteger_spec_witness :
    ReadInt16 ⟨[255, 254, 7], .LittleEndian, 19, false⟩
        = .ret (-257) none ⟨[7], .LittleEndian, 19, false⟩ ∧
      (∃ err, ReadUint32 ⟨[1, 2, 3], .BigEndian, 19, false⟩
        = .ret 0 (some err) ⟨[], .BigEndian, 19, false⟩) :=
  ⟨(readInteger_spec 16 true ReadInt16 (by simp [integerMethods])
      ⟨[255, 254, 7], .LittleEndian, 19, false⟩).1 (by decide),
    (readInteger_spec 32 false ReadUint32 (by simp [integerMethods])
      ⟨[1, 2, 3], .BigEndian, 19, false⟩).2 (by decide)⟩

theorem ReadBool_cons (flag : Byte) (rest : List Byte) (o : ByteOrder) (v : Int) (dp : Bool) :
    ReadBool ⟨flag :: rest, o, v, dp⟩ = .ret (decide (flag ≠ 0)) none ⟨rest, o, v, dp⟩ := by
  have hd : decodeUint o [flag] = flag.val := by cases o <;> simp [decodeUint]
  have hz : (flag.val = 0) = (flag = 0) := by
    apply propext
    constructor
    · intro h; exact Fin.ext h
    · intro h; rw [h]; rfl
  simp [ReadBool, binaryRead, hd, hz]

theorem readQVariant_header (urlFails : GoString → Bool) (Local : Location)
    (depth : Nat) (o : ByteOrder) (v : Int)
    (dp : Bool) (t : Nat) (ht : t < 4294967296) (flag : Byte) (rest : List Byte) :
    readQVariant urlFails Local (depth + 1) ⟨encodeUint o 4 t ++ flag :: rest, o, v, dp⟩ =
      if flag ≠ 0 then .ret ((t : Int), .nil) none ⟨rest, o, v, dp⟩
      else readQVariant urlFails Local (depth + 1) ⟨encodeUint o 4 t ++ 0 :: rest, o, v, dp⟩ := by
  by_cases hf : flag = 0
  · subst hf; simp
  · simp only [readQVariant, ReadUint32_encode o t ht, ReadBool_cons, ne_eq, hf, not_false_eq_true,
      decide_True, if_true]

/-- C1: for every type code `t` and every source that starts with the four bytes of
`t` in the reader's byte order and a nonzero flag byte, `ReadQVariant` returns
`t` with the nil payload and no error, and leaves every byte after those five
unread. -/
theorem readQVariant_null (urlFails : GoString → Bool) (Local : Location)
    (o : ByteOrder) (v : Int) (dp : Bool)
    (t : Nat) (ht : t < 4294967296) (flag : Byte) (hflag : flag ≠ 0) (rest : List Byte) :
    ReadQVariant urlFails Local ⟨encodeUint o 4 t ++ flag :: rest, o, v, dp⟩ =
      .ret ((t : Int), Value.nil) none ⟨rest, o, v, dp⟩ := by
  unfold ReadQVariant
  rw [readQVariant_header urlFails Local _ o v dp t ht flag rest]
  simp [hflag]

theorem readQVariant_null_witness :
    ReadQVariant (fun _ => false) Location.UTC ⟨[0, 0, 0, 19, 1, 7, 7], .BigEndian, 19, false⟩ =
      .ret (19, Value.nil) none ⟨[7, 7], .BigEndian, 19, false⟩ :=
  readQVariant_null (fun _ => false) Location.UTC .BigEndian 19 false 19 (by decide) 1 (by decide) [7, 7]

theorem readQVariant_unimplemented_aux (urlFails : GoString → Bool) (Local : Location)
    (depth : Nat) (o : ByteOrder)
    (v : Int) (dp : Bool) (t : Nat) (ht : t < 4294967296) (hset : (t : Int) ∉ implementedCodes)
    (rest : List Byte) :
    readQVariant urlFails Local (depth + 1) ⟨encodeUint o 4 t ++ 0 :: rest, o, v, dp⟩ =
      .ret ((t : Int), Value.nil) (some (.unimplementedType t)) ⟨rest, o, v, dp⟩ := by
  simp only [implementedCodes, List.mem_cons, List.mem_singleton, List.not_mem_nil, or_false,
    not_or] at hset
  simp only [readQVariant, variantSwitch, ReadUint32_encode o t ht, ReadBool_cons, ne_eq,
    not_true_eq_false, decide_False, QMetaTypeBool, QMetaTypeInt, QMetaTypeUInt, QMetaTypeLongLong,
    QMetaTypeULongLong, QMetaTypeDouble, QMetaTypeFloat, QMetaTypeQChar, QMetaTypeChar,
    QMetaTypeSChar, QMetaTypeShort, QMetaTypeUShort, QMetaTypeQBitArray, QMetaTypeQVariantMap,
    QMetaTypeQVariantHash, QMetaTypeQUuid, QMetaTypeQVariantList, QMetaTypeQByteArray,
    QMetaTypeQString, QMetaTypeQStringList, QMetaTypeQDate, QMetaTypeQTime, QMetaTypeQDateTime,
    QMetaTypeQUrl, hset, if_false, or_self]

theorem errSat_mono {α : Type} {P Q : GoError → Prop} (h : ∀ e, P e → Q e) (o : Outcome α) :
    o.errSat P → o.errSat Q := by
  cases o with
  | ret val err r => cases err <;> simp [Outcome.errSat]; exact h _
  | panic => simp [Outcome.errSat]
  | fuel => simp [Outcome.errSat]

theorem errSat_ReadNumber (k : NumKind) (r : Reader) : (ReadNumber k r).errSat ioErr := by
  unfold ReadNumber binaryRead
  split_ifs <;> simp [Outcome.errSat, ioErr]

theorem errSat_ReadBool (r : Reader) : (ReadBool r).errSat ioErr := by
  unfold ReadBool binaryRead
  split_ifs <;> simp [Outcome.errSat, ioErr]

theorem ReadNumber_cases (k : NumKind) (r : Reader) :
    (∃ val r1, ReadNumber k r = .ret val none r1) ∨
      (∃ e r1, ioErr e ∧ ReadNumber k r = .ret 0 (some e) r1) := by
  unfold ReadNumber binaryRead
  split_ifs <;> simp [ioErr]

theorem errSat_ReadFloat (r : Reader) : (ReadFloat r).errSat ioErr := by
  unfold ReadFloat
  split_ifs
  · rcases ReadNumber_cases .float64 r with ⟨val, r1, h⟩ | ⟨e, r1, he, h⟩
    · simp [h, Outcome.errSat]
    · simp [h, Outcome.errSat, he]
  · rcases ReadNumber_cases .float32 r with ⟨val, r1, h⟩ | ⟨e, r1, he, h⟩
    · simp [h, Outcome.errSat]
    · simp [h, Outcome.errSat, he]

theorem errSat_ReadDouble (r : Reader) : (ReadDouble r).errSat ioErr := by
  unfold ReadDouble
  split_ifs
  · rcases ReadNumber_cases .float32 r with ⟨val, r1, h⟩ | ⟨e, r1, he, h⟩
    · simp [h, Outcome.errSat]
    · simp [h, Outcome.errSat, he]
  · rcases ReadNumber_cases .float64 r with ⟨val, r1, h⟩ | ⟨e, r1, he, h⟩
    · simp [h, Outcome.errSat]
    · simp [h, Outcome.errSat, he]

theorem binaryRead_cases (n : Nat) (r : Reader) :
    (∃ bs r1, binaryRead n r = (.ok bs, r1)) ∨ (∃ e r1, ioErr e ∧ binaryRead n r = (.error e, r1)) := by
  unfold binaryRead
  split_ifs <;> simp [ioErr]

theorem errSat_ReadQString (r : Reader) : (ReadQString r).errSat ioErr := by
  unfold ReadQString ReadUint32
  rcases ReadNumber_cases .uint32 r with ⟨val, r1, h⟩ | ⟨e, r1, he, h⟩
  · simp only [h]
    split_ifs
    · simp [Outcome.errSat]
    · rcases binaryRead_cases (2 * (val.toNat / 2)) r1 with ⟨bs, r2, hb⟩ | ⟨e, r2, he, hb⟩
      · simp [hb, Outcome.errSat]
      · simp [hb, Outcome.errSat, he]
  · simp [h, Outcome.errSat, he]

theorem errSat_ReadQByteArray (r : Reader) : (ReadQByteArray r).errSat ioErr := by
  unfold ReadQByteArray ReadUint32
  rcases ReadNumber_cases .uint32 r with ⟨val, r1, h⟩ | ⟨e, r1, he, h⟩
  · simp only [h]
    split_ifs
    · simp [Outcome.errSat]
    · rcases binaryRead_cases val.toNat r1 with ⟨bs, r2, hb⟩ | ⟨e, r2, he, hb⟩
      · simp [hb, Outcome.errSat]
      · simp [hb, Outcome.errSat, he]
  · simp [h, Outcome.errSat, he]

theorem errSat_ReadQBitArray (r : Reader) : (ReadQBitArray r).errSat ioErr := by
  unfold ReadQBitArray ReadUint32
  rcases ReadNumber_cases .uint32 r with ⟨val, r1, h⟩ | ⟨e, r1, he, h⟩
  · rw [h]
    dsimp only
    rcases binaryRead_cases ((val.toNat + 7) % 4294967296 / 8) r1 with
      ⟨bs, r2, hb⟩ | ⟨e, r2, he, hb⟩
    · rw [hb]
      dsimp only
      generalize bitArrayLoop bs r2 _ _ _ = res
      cases res <;> simp [Outcome.errSat]
    · rw [hb]
      simp [Outcome.errSat, he]
  · rw [h]
    simp [Outcome.errSat, he]

theorem errSat_ReadQUuid (r : Reader) : (ReadQUuid r).errSat ioErr := by
  simp [ReadQUuid, Outcome.errSat]

theorem errSat_ReadQDate (r : Reader) : (ReadQDate r).errSat ioErr := by
  unfold ReadQDate ReadUint64
  rcases ReadNumber_cases .uint64 r with ⟨val, r1, h⟩ | ⟨e, r1, he, h⟩
  · simp [h, Outcome.errSat]
  · simp [h, Outcome.errSat, he]

theorem errSat_ReadQTime (r : Reader) : (ReadQTime r).errSat ioErr := by
  unfold ReadQTime ReadUint32
  rcases ReadNumber_cases .uint32 r with ⟨val, r1, h⟩ | ⟨e, r1, he, h⟩
  · simp [h, Outcome.errSat]
  · simp [h, Outcome.errSat, he]

theorem ret_cases {α : Type} (o : Outcome α) (P : GoError → Prop) (h : o.errSat P) :
    (∃ val r1, o = .ret val none r1) ∨ (∃ val e r1, P e ∧ o = .ret val (some e) r1) ∨
      o = .panic ∨ o = .fuel := by
  cases o with
  | ret val err r =>
    cases err with
    | none => exact Or.inl ⟨val, r, rfl⟩
    | some e => exact Or.inr (Or.inl ⟨val, e, r, h, rfl⟩)
  | panic => simp
  | fuel => simp

theorem errSat_ReadQDateTime (Local : Location) (r : Reader) :
    (ReadQDateTime Local r).errSat ioErr := by
  unfold ReadQDateTime
  rcases ret_cases _ _ (errSat_ReadQDate r) with ⟨d, r1, h⟩ | ⟨d, e, r1, he, h⟩ | h | h
  · simp only [h]
    rcases ret_cases _ _ (errSat_ReadQTime r1) with ⟨t, r2, h2⟩ | ⟨t, e, r2, he, h2⟩ | h2 | h2
    · simp only [h2]
      rcases ReadNumber_cases .uint8 r2 with ⟨u, r3, h3⟩ | ⟨e, r3, he, h3⟩
      · simp [ReadUint8, h3, Outcome.errSat]
      · simp [ReadUint8, h3, Outcome.errSat, he]
    · simp [h2, Outcome.errSat, he]
    · simp [h2, Outcome.errSat]
    · simp [h2, Outcome.errSat]
  · simp [h, Outcome.errSat, he]
  · simp [h, Outcome.errSat]
  · simp [h, Outcome.errSat]

theorem ioErr_notUnimplemented (e : GoError) (h : ioErr e) : notUnimplemented e := by
  intro c hc
  rcases h with h | h <;> rw [h] at hc <;> cases hc

theorem errSat_ReadQUrl (urlFails : GoString → Bool) (r : Reader) :
    (ReadQUrl urlFails r).errSat notUnimplemented := by
  unfold ReadQUrl
  rcases ret_cases _ _ (errSat_ReadQString r) with ⟨s, r1, h⟩ | ⟨s, e, r1, he, h⟩ | h | h
  · simp only [h]
    split_ifs <;> simp [Outcome.errSat, notUnimplemented]
  · simp [h, Outcome.errSat, ioErr_notUnimplemented e he]
  · simp [h, Outcome.errSat]
  · simp [h, Outcome.errSat]

theorem errSat_stringListLoop (n : Nat) (r : Reader) (acc : List GoString) :
    (stringListLoop n r acc).errSat ioErr := by
  induction n generalizing r acc with
  | zero => simp [stringListLoop, Outcome.errSat]
  | succ n ih =>
    unfold stringListLoop
    rcases ret_cases _ _ (errSat_ReadQString r) with ⟨s, r1, h⟩ | ⟨s, e, r1, he, h⟩ | h | h
    · simp only [h]; exact ih r1 _
    · simp [h, Outcome.errSat, he]
    · simp [h, Outcome.errSat]
    · simp [h, Outcome.errSat]

theorem errSat_ReadQStringQStringList (r : Reader) : (ReadQStringQStringList r).errSat ioErr := by
  unfold ReadQStringQStringList ReadUint32
  rcases ReadNumber_cases .uint32 r with ⟨val, r1, h⟩ | ⟨e, r1, he, h⟩
  · simp only [h]; exact errSat_stringListLoop _ _ _
  · simp [h, Outcome.errSat, he]

theorem errSat_variantListLoop (rv : Reader → Outcome (QMetaType × Value)) (P : GoError → Prop)
    (hrv : ∀ r, (rv r).errSat P) (n : Nat) (r : Reader) (acc : List Value) :
    (variantListLoop rv n r acc).errSat P := by
  induction n generalizing r acc with
  | zero => simp [variantListLoop, Outcome.errSat]
  | succ n ih =>
    unfold variantListLoop
    rcases ret_cases _ _ (hrv r) with ⟨s, r1, h⟩ | ⟨s, e, r1, he, h⟩ | h | h
    · simp only [h]; exact ih r1 _
    · simp [h, Outcome.errSat, he]
    · simp [h, Outcome.errSat]
    · simp [h, Outcome.errSat]

theorem errSat_variantMapLoop (rv : Reader → Outcome (QMetaType × Value)) (P : GoError → Prop)
    (hio : ∀ e, ioErr e → P e)
    (hrv : ∀ r, (rv r).errSat P) (n : Nat) (r : Reader) (m : List (GoString × Value)) :
    (variantMapLoop rv n r m).errSat P := by
  induction n generalizing r m with
  | zero => simp [variantMapLoop, Outcome.errSat]
  | succ n ih =>
    unfold variantMapLoop
    rcases ret_cases _ _ (errSat_ReadQString r) with ⟨s, r1, h⟩ | ⟨s, e, r1, he, h⟩ | h | h
    · simp only [h]
      rcases ret_cases _ _ (hrv r1) with ⟨s, r2, h2⟩ | ⟨s, e, r2, he, h2⟩ | h2 | h2
      · simp only [h2]; exact ih r2 _
      · simp [h2, Outcome.errSat, he]
      · simp [h2, Outcome.errSat]
      · simp [h2, Outcome.errSat]
    · simp [h, Outcome.errSat, hio e he]
    · simp [h, Outcome.errSat]
    · simp [h, Outcome.errSat]

theorem errSat_readQStringQVariantList (rv : Reader → Outcome (QMetaType × Value))
    (P : GoError → Prop) (hio : ∀ e, ioErr e → P e) (hrv : ∀ r, (rv r).errSat P) (r : Reader) :
    (readQStringQVariantList rv r).errSat P := by
  unfold readQStringQVariantList ReadUint32
  rcases ReadNumber_cases .uint32 r with ⟨val, r1, h⟩ | ⟨e, r1, he, h⟩
  · simp only [h]; exact errSat_variantListLoop rv P hrv _ _ _
  · simp [h, Outcome.errSat, hio e he]

theorem errSat_readQStringQVariantAssociative (rv : Reader → Outcome (QMetaType × Value))
    (P : GoError → Prop) (hio : ∀ e, ioErr e → P e) (hrv : ∀ r, (rv r).errSat P) (r : Reader) :
    (readQStringQVariantAssociative rv r).errSat P := by
  unfold readQStringQVariantAssociative ReadUint32
  rcases ReadNumber_cases .uint32 r with ⟨val, r1, h⟩ | ⟨e, r1, he, h⟩
  · simp only [h]; exact errSat_variantMapLoop rv P hio hrv _ _ _
  · simp [h, Outcome.errSat, hio e he]

theorem errSat_payload {α : Type} (P : GoError → Prop) (t : Int) (f : α → Value) (o : Outcome α)
    (h : o.errSat P) : (payload t f o).errSat P := by
  cases o with
  | ret val err r => cases err <;> exact h
  | panic => simp [payload, Outcome.errSat]
  | fuel => simp [payload, Outcome.errSat]

theorem retSat_payload {α : Type} (P : GoError → Prop) (t : Int) (f : α → Value) (o : Outcome α)
    (h : o.errSat P) : (payload t f o).retSat (fun x e => x.1 = t ∧ P e) := by
  cases o with
  | ret val err r => cases err <;> simp_all [payload, Outcome.retSat, Outcome.errSat]
  | panic => simp [payload, Outcome.retSat]
  | fuel => simp [payload, Outcome.retSat]

theorem retSat_mono {α : Type} {R S : α → GoError → Prop} (h : ∀ x e, R x e → S x e)
    (o : Outcome α) : o.retSat R → o.retSat S := by
  cases o with
  | ret val err r => cases err <;> simp [Outcome.retSat]; exact h _ _
  | panic => simp [Outcome.retSat]
  | fuel => simp [Outcome.retSat]

theorem retSat_leaf {α : Type} (t : Int) (f : α → Value) (o : Outcome α) (h : o.errSat ioErr) :
    (payload t f o).retSat (fun x e => x.1 = t ∧ notUnimplemented e) :=
  retSat_payload _ t f o (errSat_mono ioErr_notUnimplemented o h)

theorem notUnimplemented_carries (e : GoError) (h : notUnimplemented e) : carriesUnimplemented e := by
  intro c hc
  exact absurd hc (h c)

theorem retSat_ite {α : Type} (R : α → GoError → Prop) (c : Prop) [Decidable c]
    (a b : Outcome α) (ha : c → a.retSat R) (hb : ¬c → b.retSat R) :
    (if c then a else b).retSat R := by
  split_ifs with h
  · exact ha h
  · exact hb h

theorem variantSwitch_shape (urlFails : GoString → Bool) (Local : Location)
    (rv : Reader → Outcome (QMetaType × Value)) (hrv : ∀ r, (rv r).errSat carriesUnimplemented)
    (t : Int) (r2 : Reader) :
    (variantSwitch urlFails Local rv t r2).retSat (fun x e => ∀ c, e = .unimplementedType c →
      c ∉ implementedCodes ∧ (c = x.1 ∨ x.1 = 8 ∨ x.1 = 9 ∨ x.1 = 28)) := by
  have hio : ∀ e, ioErr e → carriesUnimplemented e := fun e he =>
    notUnimplemented_carries e (ioErr_notUnimplemented e he)
  have leaf : ∀ (x : QMetaType × Value) (e : GoError), x.1 = t ∧ notUnimplemented e →
      ∀ c, e = .unimplementedType c →
        c ∉ implementedCodes ∧ (c = x.1 ∨ x.1 = 8 ∨ x.1 = 9 ∨ x.1 = 28) :=
    fun x e h c hc => absurd hc (h.2 c)
  unfold variantSwitch
  refine retSat_ite _ _ _ _ (fun _ => retSat_mono leaf _ (retSat_leaf _ _ _ (errSat_ReadBool _)))
    (fun h1 => ?_)
  refine retSat_ite _ _ _ _
    (fun _ => retSat_mono leaf _ (retSat_leaf _ _ _ (errSat_ReadNumber _ _))) (fun h2 => ?_)
  refine retSat_ite _ _ _ _
    (fun _ => retSat_mono leaf _ (retSat_leaf _ _ _ (errSat_ReadNumber _ _))) (fun h3 => ?_)
  refine retSat_ite _ _ _ _
    (fun _ => retSat_mono leaf _ (retSat_leaf _ _ _ (errSat_ReadNumber _ _))) (fun h4 => ?_)
  refine retSat_ite _ _ _ _
    (fun _ => retSat_mono leaf _ (retSat_leaf _ _ _ (errSat_ReadNumber _ _))) (fun h5 => ?_)
  refine retSat_ite _ _ _ _
    (fun _ => retSat_mono leaf _ (retSat_leaf _ _ _ (errSat_ReadDouble _))) (fun h6 => ?_)
  refine retSat_ite _ _ _ _
    (fun _ => retSat_mono leaf _ (retSat_leaf _ _ _ (errSat_ReadFloat _))) (fun h7 => ?_)
  refine retSat_ite _ _ _ _
    (fun _ => retSat_mono leaf _ (retSat_leaf _ _ _ (errSat_ReadNumber _ _))) (fun h8 => ?_)
  refine retSat_ite _ _ _ _
    (fun _ => retSat_mono leaf _ (retSat_leaf _ _ _ (errSat_ReadNumber _ _))) (fun h9 => ?_)
  refine retSat_ite _ _ _ _
    (fun _ => retSat_mono leaf _ (retSat_leaf _ _ _ (errSat_ReadNumber _ _))) (fun h10 => ?_)
  refine retSat_ite _ _ _ _
    (fun _ => retSat_mono leaf _ (retSat_leaf _ _ _ (errSat_ReadNumber _ _))) (fun h11 => ?_)
  refine retSat_ite _ _ _ _
    (fun _ => retSat_mono leaf _ (retSat_leaf _ _ _ (errSat_ReadQBitArray _))) (fun h12 => ?_)
  refine retSat_ite _ _ _ _ (fun h13 => ?_) (fun h13 => ?_)
  · refine retSat_mono ?_ _ (retSat_payload carriesUnimplemented t _ _
      (errSat_readQStringQVariantAssociative rv _ hio hrv r2))
    rintro x e ⟨hx, hc⟩ c rfl
    refine ⟨hc c rfl, ?_⟩
    rw [hx]
    rcases h13 with h13 | h13
    · exact Or.inr (Or.inl h13)
    · exact Or.inr (Or.inr (Or.inr h13))
  refine retSat_ite _ _ _ _
    (fun _ => retSat_mono leaf _ (retSat_leaf _ _ _ (errSat_ReadQUuid _))) (fun h14 => ?_)
  refine retSat_ite _ _ _ _ (fun h15 => ?_) (fun h15 => ?_)
  · refine retSat_mono ?_ _ (retSat_payload carriesUnimplemented t _ _
      (errSat_readQStringQVariantList rv _ hio hrv r2))
    rintro x e ⟨hx, hc⟩ c rfl
    refine ⟨hc c rfl, ?_⟩
    rw [hx]
    exact Or.inr (Or.inr (Or.inl h15))
  refine retSat_ite _ _ _ _
    (fun _ => retSat_mono leaf _ (retSat_leaf _ _ _ (errSat_ReadQByteArray _))) (fun h16 => ?_)
  refine retSat_ite _ _ _ _
    (fun _ => retSat_mono leaf _ (retSat_leaf _ _ _ (errSat_ReadQString _))) (fun h17 => ?_)
  refine retSat_ite _ _ _ _
    (fun _ => retSat_mono leaf _ (retSat_leaf _ _ _ (errSat_ReadQStringQStringList _)))
    (fun h18 => ?_)
  refine retSat_ite _ _ _ _
    (fun _ => retSat_mono leaf _ (retSat_leaf _ _ _ (errSat_ReadQDate _))) (fun h19 => ?_)
  refine retSat_ite _ _ _ _
    (fun _ => retSat_mono leaf _ (retSat_leaf _ _ _ (errSat_ReadQTime _))) (fun h20 => ?_)
  refine retSat_ite _ _ _ _
    (fun _ => retSat_mono leaf _ (retSat_leaf _ _ _ (errSat_ReadQDateTime Local _))) (fun h21 => ?_)
  refine retSat_ite _ _ _ _
    (fun _ => retSat_mono leaf _ (retSat_payload _ t _ _ (errSat_ReadQUrl urlFails _)))
    (fun h22 => ?_)
  intro c hc
  cases hc
  refine ⟨?_, Or.inl rfl⟩
  simp only [QMetaTypeBool, QMetaTypeInt, QMetaTypeUInt, QMetaTypeLongLong,
    QMetaTypeULongLong, QMetaTypeDouble, QMetaTypeFloat, QMetaTypeQChar, QMetaTypeChar,
    QMetaTypeSChar, QMetaTypeShort, QMetaTypeUShort, QMetaTypeQBitArray,
    QMetaTypeQVariantMap, QMetaTypeQVariantHash, QMetaTypeQUuid, QMetaTypeQVariantList,
    QMetaTypeQByteArray, QMetaTypeQString, QMetaTypeQStringList, QMetaTypeQDate,
    QMetaTypeQTime, QMetaTypeQDateTime, QMetaTypeQUrl, not_or] at *
  simp only [implementedCodes, List.mem_cons, List.mem_singleton, List.not_mem_nil,
    or_false, not_or]
  tauto

theorem readQVariant_shape (urlFails : GoString → Bool) (Local : Location)
    (rv : Reader → Outcome (QMetaType × Value)) (hrv : ∀ r, (rv r).errSat carriesUnimplemented)
    (depth : Nat) (hd : readQVariant urlFails Local depth = rv) (r : Reader) :
    (readQVariant urlFails Local (depth + 1) r).retSat (fun x e => ∀ c, e = .unimplementedType c →
      c ∉ implementedCodes ∧ (c = x.1 ∨ x.1 = 8 ∨ x.1 = 9 ∨ x.1 = 28)) := by
  unfold readQVariant
  rw [hd]
  rcases ReadNumber_cases .uint32 r with ⟨t, r1, h⟩ | ⟨e, r1, he, h⟩
  · rw [ReadUint32, h]
    dsimp only
    rcases ret_cases _ _ (errSat_ReadBool r1) with ⟨b, r2, h2⟩ | ⟨b, e, r2, he, h2⟩ | h2 | h2
    · rw [h2]
      cases b
      · exact variantSwitch_shape urlFails Local rv hrv t r2
      · simp [Outcome.retSat]
    · rw [h2]
      cases b <;>
      · dsimp only [Outcome.retSat]
        intro c hc
        exact absurd hc (ioErr_notUnimplemented e he c)
    · rw [h2]; simp [Outcome.retSat]
    · rw [h2]; simp [Outcome.retSat]
  · rw [ReadUint32, h]
    dsimp only [Outcome.retSat]
    intro c hc
    exact absurd hc (ioErr_notUnimplemented e he c)

theorem readQVariant_carries (urlFails : GoString → Bool) (Local : Location)
    (depth : Nat) (r : Reader) :
    (readQVariant urlFails Local depth r).errSat carriesUnimplemented := by
  induction depth generalizing r with
  | zero => simp [readQVariant, Outcome.errSat]
  | succ depth ih =>
    have h := readQVariant_shape urlFails Local _ ih depth rfl r
    revert h
    generalize readQVariant urlFails Local (depth + 1) r = res
    intro h
    cases res with
    | ret val err r1 =>
      cases err with
      | none => simp [Outcome.errSat]
      | some e => exact fun c hc => (h c hc).1
    | panic => simp [Outcome.errSat]
    | fuel => simp [Outcome.errSat]

/-- C2, as amended: for every type code `t` outside the implemented set and every
source that starts with the four bytes of `t` and a zero flag byte, `ReadQVariant`
returns the unsupported-type error carrying `t`, with the nil payload, and leaves
every byte after those five unread; and an unsupported-type error that
`ReadQVariant` returns for a variant of an implemented code `t` carries a code
outside the implemented set and `t` is a list or map code (8, 9, 28), the error
being that of a variant nested in it. -/
theorem readQVariant_unimplemented (urlFails : GoString → Bool) (Local : Location) :
    (∀ (o : ByteOrder) (v : Int) (dp : Bool) (t : Nat) (rest : List Byte),
      t < 4294967296 → (t : Int) ∉ implementedCodes →
      ReadQVariant urlFails Local ⟨encodeUint o 4 t ++ 0 :: rest, o, v, dp⟩ =
        .ret ((t : Int), Value.nil) (some (.unimplementedType t)) ⟨rest, o, v, dp⟩) ∧
    (∀ (r r1 : Reader) (t c : Int) (val : Value),
      ReadQVariant urlFails Local r = .ret (t, val) (some (.unimplementedType c)) r1 →
      c ∉ implementedCodes ∧ (t ∈ implementedCodes → t = 8 ∨ t = 9 ∨ t = 28)) := by
  constructor
  · intro o v dp t rest ht hset
    exact readQVariant_unimplemented_aux urlFails Local _ o v dp t ht hset rest
  · intro r r1 t c val h
    have hs := readQVariant_shape urlFails Local _ (readQVariant_carries urlFails Local _) r.Reader.length rfl r
    unfold ReadQVariant at h
    rw [h] at hs
    have hc := hs c rfl
    refine ⟨hc.1, fun ht => ?_⟩
    rcases hc.2 with h1 | h1
    · have h2 : c = t := h1
      subst h2
      exact absurd ht hc.1
    · exact h1

theorem readQVariant_unimplemented_witness :
    ReadQVariant (fun _ => false) Location.UTC ⟨[0, 0, 0, 19, 0, 7], .BigEndian, 19, false⟩ =
        .ret (19, Value.nil) (some (.unimplementedType 19)) ⟨[7], .BigEndian, 19, false⟩ ∧
      ((19 : Int) ∉ implementedCodes ∧ ((9 : Int) ∈ implementedCodes → (9 : Int) = 8 ∨ (9 : Int) = 9 ∨ (9 : Int) = 28)) :=
  ⟨(readQVariant_unimplemented (fun _ => false) Location.UTC).1 .BigEndian 19 false 19 [7] (by decide)
      (by decide),
    (readQVariant_unimplemented (fun _ => false) Location.UTC).2
      ⟨[0, 0, 0, 9, 0, 0, 0, 0, 1, 0, 0, 0, 19, 0], .BigEndian, 19, false⟩
      ⟨[], .BigEndian, 19, false⟩ 9 19 (Value.list none) rfl⟩

/-- C2, counterexample: the variant of the implemented code 9 (a list) whose single
element has the code 19 makes `ReadQVariant` return the unsupported-type error. -/
theorem readQVariant_implemented_returns_unimplemented :
    (9 : Int) ∈ implementedCodes ∧
      ReadQVariant (fun _ => false) Location.UTC
          ⟨[0, 0, 0, 9, 0, 0, 0, 0, 1, 0, 0, 0, 19, 0], .BigEndian, 19, false⟩ =
        .ret (9, Value.list none) (some (.unimplementedType 19)) ⟨[], .BigEndian, 19, false⟩ :=
  ⟨by decide, rfl⟩

/-- C7, counterexample: with `DoublePrecision` set, `ReadFloat` takes eight bytes of
the source, not four. -/
theorem readFloat_double_mode_takes_eight :
    ReadFloat ⟨[0x3f, 0x80, 0, 0, 0, 0, 0, 0, 9], .BigEndian, 19, true⟩ =
        .ret (.fromFloat64 0x3f80000000000000) none ⟨[9], .BigEndian, 19, true⟩ ∧
      ([9] : List Byte) ≠ List.drop 4 [0x3f, 0x80, 0, 0, 0, 0, 0, 0, 9] :=
  ⟨rfl, by decide⟩

/-- C7, as amended: the width of a floating point field is set by the precision
mode alone: `ReadFloat` and `ReadDouble` both take exactly 8 bytes when
`DoublePrecision` is true (`ReadFloat` then narrows the double it read) and
exactly 4 bytes when it is false (`ReadDouble` then widens the single it
read). -/
theorem readFloat_readDouble_width (r : Reader)
    (h : (if r.DoublePrecision then 8 else 4) ≤ r.Reader.length) :
    ReadFloat r = .ret
        (if r.DoublePrecision then .fromFloat64 (weighted r.ByteOrder (r.Reader.take 8) : Nat)
          else .bits (weighted r.ByteOrder (r.Reader.take 4) : Nat))
        none { r with Reader := r.Reader.drop (if r.DoublePrecision then 8 else 4) } ∧
      ReadDouble r = .ret
        (if r.DoublePrecision then .bits (weighted r.ByteOrder (r.Reader.take 8) : Nat)
          else .fromFloat32 (weighted r.ByteOrder (r.Reader.take 4) : Nat))
        none { r with Reader := r.Reader.drop (if r.DoublePrecision then 8 else 4) } := by
  cases hdp : r.DoublePrecision
  · rw [hdp] at h
    have h4 : NumKind.float32.size ≤ r.Reader.length := h
    simp only [ReadFloat, ReadDouble, hdp, ReadNumber_enough _ _ h4]
    simp [NumKind.size, decode_unsigned NumKind.float32 rfl]
  · rw [hdp] at h
    have h8 : NumKind.float64.size ≤ r.Reader.length := h
    simp only [ReadFloat, ReadDouble, hdp, ReadNumber_enough _ _ h8]
    simp [NumKind.size, decode_unsigned NumKind.float64 rfl]

theorem readFloat_readDouble_width_witness :
    ReadFloat ⟨[0x3f, 0x80, 0, 0, 0, 0, 0, 0, 9], .BigEndian, 19, true⟩ =
        .ret (.fromFloat64 0x3f80000000000000) none ⟨[9], .BigEndian, 19, true⟩ ∧
      ReadDouble ⟨[0x3f, 0x80, 0, 0, 0, 0, 0, 0, 9], .BigEndian, 19, true⟩ =
        .ret (.bits 0x3f80000000000000) none ⟨[9], .BigEndian, 19, true⟩ :=
  readFloat_readDouble_width ⟨[0x3f, 0x80, 0, 0, 0, 0, 0, 0, 9], .BigEndian, 19, true⟩ (by decide)

/-- C9, counterexample: on the length 0xFFFFFFFF and on the length 0 `ReadQString`
returns the same value, the empty string, and no error: the two results cannot
be told apart. -/
theorem readQString_null_equals_empty :
    ReadQString ⟨[0xFF, 0xFF, 0xFF, 0xFF], .BigEndian, 19, false⟩ =
        .ret [] none ⟨[], .BigEndian, 19, false⟩ ∧
      ReadQString ⟨[0, 0, 0, 0], .BigEndian, 19, false⟩ =
        .ret [] none ⟨[], .BigEndian, 19, false⟩ :=
  ⟨rfl, rfl⟩

/-- C9, as amended: on the length 0xFFFFFFFF `ReadQString` returns the empty string
and no error, having read the four bytes of the length only, and on the length 0
it returns the same: the empty string and no error, after the same four
bytes. -/
theorem readQString_sentinel_and_zero (o : ByteOrder) (v : Int) (dp : Bool) (rest : List Byte) :
    ReadQString ⟨encodeUint o 4 0xFFFFFFFF ++ rest, o, v, dp⟩ = .ret [] none ⟨rest, o, v, dp⟩ ∧
      ReadQString ⟨encodeUint o 4 0 ++ rest, o, v, dp⟩ = .ret [] none ⟨rest, o, v, dp⟩ := by
  constructor
  · have h := ReadUint32_encode o 0xFFFFFFFF (by decide) rest v dp
    simp only [ReadQString, h]
    simp
  · have h := ReadUint32_encode o 0 (by decide) rest v dp
    simp only [ReadQString, h]
    simp [binaryRead, utf16Decode, decodeUint16s, stringOfRunes]

theorem DecodeRune_pair (hi lo : Nat) (hh : isHigh hi = true) (hl : isLow lo = true) :
    DecodeRune hi lo = pairScalar hi lo := by
  simp only [isHigh, isLow, Bool.and_eq_true, decide_eq_true_eq] at hh hl
  have hlt : lo - 0xDC00 < 2 ^ 10 := by omega
  have hor := Nat.mul_add_lt_is_or hlt (hi - 0xD800)
  simp only [DecodeRune, surr1, surr2, surr3, surrSelf, pairScalar]
  rw [if_pos (by omega)]
  have h2 : (hi - 55296) * 1024 = 2 ^ 10 * (hi - 55296) := by ring
  rw [h2, ← hor]
  omega

theorem isHigh_iff (r : Nat) : isHigh r = true ↔ surr1 ≤ r ∧ r < surr2 := by
  simp [isHigh, surr1, surr2]

theorem isLow_iff (r : Nat) : isLow r = true ↔ surr2 ≤ r ∧ r < surr3 := by
  simp [isLow, surr2, surr3]

theorem isHigh_false_iff (r : Nat) : isHigh r = false ↔ ¬(surr1 ≤ r ∧ r < surr2) := by
  rw [← isHigh_iff]; simp

theorem isLow_false_iff (r : Nat) : isLow r = false ↔ ¬(surr2 ≤ r ∧ r < surr3) := by
  rw [← isLow_iff]; simp

theorem surrogate_flags (r : Nat) :
    ((r < surr1 ∨ surr3 ≤ r) → isHigh r = false ∧ isLow r = false) ∧
      (¬(r < surr1 ∨ surr3 ≤ r) → (isHigh r || isLow r) = true) ∧
      (isHigh r = true ↔ surr1 ≤ r ∧ r < surr2) ∧ (isLow r = true ↔ surr2 ≤ r ∧ r < surr3) := by
  refine ⟨fun h => ⟨?_, ?_⟩, fun h => ?_, isHigh_iff r, isLow_iff r⟩
  · rw [isHigh_false_iff]; simp only [surr1, surr2, surr3] at *; omega
  · rw [isLow_false_iff]; simp only [surr1, surr2, surr3] at *; omega
  · rw [Bool.or_eq_true, isHigh_iff, isLow_iff]; simp only [surr1, surr2, surr3] at *; omega

theorem utf16Decode_decodesAs (ok : Nat → Bool) (hok : ok replacementChar = true)
    (units : List Nat) : decodesAs ok units (utf16Decode units) = true := by
  induction units using utf16Decode.induct with
  | case1 => rfl
  | case2 r h =>
    obtain ⟨hh, hl⟩ := (surrogate_flags r).1 h
    simp [utf16Decode, h, decodesAs, hh, hl]
  | case3 r h =>
    have hs := (surrogate_flags r).2.1 h
    simp only [Bool.or_eq_true] at hs
    simp [utf16Decode, h, decodesAs, hs, hok]
  | case4 r s1 rest h ih =>
    obtain ⟨hh, hl⟩ := (surrogate_flags r).1 h
    simp [utf16Decode, h, decodesAs, hh, hl, ih]
  | case5 r s1 rest h1 h2 ih =>
    have hh : isHigh r = true := (surrogate_flags r).2.2.1.mpr ⟨h2.1, h2.2.1⟩
    have hl : isLow s1 = true := (surrogate_flags s1).2.2.2.mpr ⟨h2.2.2.1, h2.2.2.2⟩
    simp [utf16Decode, h1, h2, decodesAs, hh, hl, ih, DecodeRune_pair r s1 hh hl]
  | case6 r s1 rest h1 h2 ih =>
    have hs := (surrogate_flags r).2.1 h1
    have hp : (isHigh r && isLow s1) = false := by
      cases hh : isHigh r
      · rfl
      · cases hl : isLow s1
        · rfl
        · exact absurd ⟨((surrogate_flags r).2.2.1.mp hh).1, ((surrogate_flags r).2.2.1.mp hh).2,
            ((surrogate_flags s1).2.2.2.mp hl).1, ((surrogate_flags s1).2.2.2.mp hl).2⟩ h2
    simp only [Bool.or_eq_true] at hs
    simp [utf16Decode, h1, h2, decodesAs, hs, hp, ih, hok]

theorem utf16Decode_unpaired (units : List Nat) :
    ∀ prev : Option Nat, ¬(prev.any isHigh = true ∧ units.head?.any isLow = true) →
      hasUnpaired prev units = true → replacementChar ∈ utf16Decode units := by
  induction units using utf16Decode.induct with
  | case1 => intro prev _ h; simp [hasUnpaired] at h
  | case2 r h =>
    intro prev _ hu
    obtain ⟨hh, hl⟩ := (surrogate_flags r).1 h
    simp [hasUnpaired, hh, hl] at hu
  | case3 r h =>
    intro prev _ _
    simp [utf16Decode, h]
  | case4 r s1 rest h ih =>
    intro prev _ hu
    obtain ⟨hh, hl⟩ := (surrogate_flags r).1 h
    simp only [hasUnpaired, hh, hl, Bool.false_and, Bool.false_or] at hu
    have := ih (some r) (by simp [hh]) (by simpa [hasUnpaired] using hu)
    simp [utf16Decode, h, this]
  | case5 r s1 rest h1 h2 ih =>
    intro prev _ hu
    have hh : isHigh r = true := (surrogate_flags r).2.2.1.mpr ⟨h2.1, h2.2.1⟩
    have hl : isLow s1 = true := (surrogate_flags s1).2.2.2.mpr ⟨h2.2.2.1, h2.2.2.2⟩
    have hrl : isLow r = false := by
      cases hx : isLow r
      · rfl
      · have a := (surrogate_flags r).2.2.2.mp hx
        have b := (surrogate_flags r).2.2.1.mp hh
        omega
    have hsh : isHigh s1 = false := by
      cases hx : isHigh s1
      · rfl
      · have a := (surrogate_flags s1).2.2.1.mp hx
        have b := (surrogate_flags s1).2.2.2.mp hl
        omega
    simp only [hasUnpaired, hh, hl, hrl, hsh, List.head?_cons, Option.any_some, Bool.not_true,
      Bool.and_false, Bool.false_and, Bool.false_or, Bool.and_self] at hu
    have := ih (some s1) (by simp [hsh]) hu
    simp [utf16Decode, h1, h2, this]
  | case6 r s1 rest h1 h2 ih =>
    intro prev _ _
    simp [utf16Decode, h1, h2]

theorem decodeUint16s_length (o : ByteOrder) :
    ∀ bs : List Byte, (decodeUint16s o bs).length = bs.length / 2
  | [] => rfl
  | [_] => by simp [decodeUint16s]
  | b0 :: b1 :: rest => by
    simp only [decodeUint16s, List.length_cons, decodeUint16s_length o rest]
    omega

theorem decodeUint16s_get (o : ByteOrder) :
    ∀ (bs : List Byte) (i : Nat), 2 * i + 1 < bs.length →
      (decodeUint16s o bs).get? i = some (weighted o [bs.getD (2 * i) 0, bs.getD (2 * i + 1) 0])
  | [], i, hi => by simp at hi
  | [_], i, hi => by simp at hi
  | b0 :: b1 :: rest, 0, _ => by simp [decodeUint16s, decodeUint_eq_weighted]
  | b0 :: b1 :: rest, i + 1, hi => by
    have h2 : 2 * (i + 1) = 2 * i + 1 + 1 := by ring
    simp only [decodeUint16s, List.get?_cons_succ, h2, List.getD_cons_succ]
    apply decodeUint16s_get o rest i
    simp only [List.length_cons] at hi
    omega

theorem readQString_body (o : ByteOrder) (v : Int) (dp : Bool) (n : Nat) (hn : n < 4294967296)
    (hs : n ≠ 4294967295) (body : List Byte) (hlen : 2 * (n / 2) ≤ body.length) :
    ReadQString ⟨encodeUint o 4 n ++ body, o, v, dp⟩ =
      .ret (stringOfRunes (utf16Decode (codeUnits o n body))) none
        ⟨body.drop (2 * (n / 2)), o, v, dp⟩ := by
  have h := ReadUint32_encode o n hn body v dp
  have hne : ¬((n : Int) = 4294967295) := by omega
  have hb : binaryRead (2 * (n / 2)) ⟨body, o, v, dp⟩ =
      (.ok (body.take (2 * (n / 2))), ⟨body.drop (2 * (n / 2)), o, v, dp⟩) :=
    binaryRead_enough _ _ hlen
  simp only [ReadQString, h, hne, if_false, Int.toNat_ofNat, hb, codeUnits]

/-- C8: for every length `n` other than 0xFFFFFFFF and every source that holds the
four bytes of `n` and then at least `2 * (n / 2)` bytes, `ReadQString` returns no
error, takes exactly those `4 + 2 * (n / 2)` bytes, and returns the string of
the runes decoded from the `n / 2` code units, each unit being read from its two
bytes in the reader's byte order: a high surrogate immediately followed by a low
one gives the scalar value `0x10000 + (hi - 0xD800) * 2^10 + (lo - 0xDC00)` and
a unit that is no surrogate gives itself. -/
theorem readQString_spec (o : ByteOrder) (v : Int) (dp : Bool) (n : Nat) (hn : n < 4294967296)
    (hs : n ≠ 4294967295) (body : List Byte) (hlen : 2 * (n / 2) ≤ body.length) :
    ReadQString ⟨encodeUint o 4 n ++ body, o, v, dp⟩ =
        .ret (stringOfRunes (utf16Decode (codeUnits o n body))) none
          ⟨body.drop (2 * (n / 2)), o, v, dp⟩ ∧
      (codeUnits o n body).length = n / 2 ∧
      (∀ i, i < n / 2 → (codeUnits o n body).get? i =
        some (weighted o [body.getD (2 * i) 0, body.getD (2 * i + 1) 0])) ∧
      decodesAs (fun _ => true) (codeUnits o n body) (utf16Decode (codeUnits o n body)) = true := by
  refine ⟨readQString_body o v dp n hn hs body hlen, ?_, ?_, utf16Decode_decodesAs _ rfl _⟩
  · simp only [codeUnits, decodeUint16s_length, List.length_take]
    omega
  · intro i hi
    have hlt : 2 * i + 1 < (body.take (2 * (n / 2))).length := by
      simp only [List.length_take]; omega
    rw [codeUnits, decodeUint16s_get o _ i hlt]
    have g : ∀ j, j < 2 * (n / 2) → (body.take (2 * (n / 2))).getD j 0 = body.getD j 0 := by
      intro j hj
      simp only [List.getD_eq_getElem?_getD, List.getElem?_take, hj, if_true]
    rw [g _ (by omega), g _ (by omega)]

theorem readQString_spec_witness :
    ReadQString ⟨[0, 0, 0, 7, 0, 0x41, 0xD8, 0x3D, 0xDE, 0x00, 9], .BigEndian, 19, false⟩ =
      .ret [0x41, 0xF0, 0x9F, 0x98, 0x80] none ⟨[9], .BigEndian, 19, false⟩ :=
  (readQString_spec .BigEndian 19 false 7 (by decide) (by decide)
    [0, 0x41, 0xD8, 0x3D, 0xDE, 0x00, 9] (by decide)).1

/-- C10, counterexample: a string field that is the single high surrogate 0xD800
makes `ReadQString` return no error; it returns the string of U+FFFD. -/
theorem readQString_lone_surrogate_no_error :
    hasUnpaired none (codeUnits .BigEndian 2 [0xD8, 0x00]) = true ∧
      ReadQString ⟨[0, 0, 0, 2, 0xD8, 0x00], .BigEndian, 19, false⟩ =
        .ret [0xEF, 0xBF, 0xBD] none ⟨[], .BigEndian, 19, false⟩ :=
  ⟨by decide, rfl⟩

/-- C10, as amended: for every string field whose code units contain an unpaired
surrogate, `ReadQString` returns no error; it returns the string of the runes in
which each unpaired surrogate is replaced by U+FFFD (so U+FFFD is among them),
the paired surrogates and the other units being decoded as usual. -/
theorem readQString_unpaired_replaced (o : ByteOrder) (v : Int) (dp : Bool) (n : Nat)
    (hn : n < 4294967296) (hs : n ≠ 4294967295) (body : List Byte)
    (hlen : 2 * (n / 2) ≤ body.length) (hu : hasUnpaired none (codeUnits o n body) = true) :
    ReadQString ⟨encodeUint o 4 n ++ body, o, v, dp⟩ =
        .ret (stringOfRunes (utf16Decode (codeUnits o n body))) none
          ⟨body.drop (2 * (n / 2)), o, v, dp⟩ ∧
      decodesAs (fun s => decide (s = 0xFFFD)) (codeUnits o n body)
        (utf16Decode (codeUnits o n body)) = true ∧
      0xFFFD ∈ utf16Decode (codeUnits o n body) :=
  ⟨readQString_body o v dp n hn hs body hlen, utf16Decode_decodesAs _ rfl _,
    utf16Decode_unpaired _ none (by simp) hu⟩

theorem readQString_unpaired_replaced_witness :
    ReadQString ⟨[4, 0, 0, 0, 0x41, 0, 0x00, 0xDC, 9], .LittleEndian, 19, false⟩ =
        .ret [0x41, 0xEF, 0xBF, 0xBD] none ⟨[9], .LittleEndian, 19, false⟩ ∧
      0xFFFD ∈ utf16Decode (codeUnits .LittleEndian 4 [0x41, 0, 0x00, 0xDC, 9]) :=
  ⟨(readQString_unpaired_replaced .LittleEndian 19 false 4 (by decide) (by decide)
      [0x41, 0, 0x00, 0xDC, 9] (by decide) (by decide)).1,
    (readQString_unpaired_replaced .LittleEndian 19 false 4 (by decide) (by decide)
      [0x41, 0, 0x00, 0xDC, 9] (by decide) (by decide)).2.2⟩

theorem wrap64_id (x : Int) (h0 : -9223372036854775808 ≤ x) (h1 : x < 9223372036854775808) :
    wrap64 x = x := by
  unfold wrap64
  omega

theorem floordiv_nonneg (a b : Int) (h0 : 0 ≤ a) (h1 : a < 9223372036854775808) (hb : 0 < b) :
    floordiv a b = a / b := by
  have hq0 : 0 ≤ a / b := Int.ediv_nonneg h0 (le_of_lt hb)
  have hq1 : a / b ≤ a := Int.ediv_le_self b h0
  simp only [floordiv, not_lt.mpr h0, if_false, sub64, sub_zero, div64,
    wrap64_id a (by omega) h1, Int.tdiv_eq_ediv h0 (le_of_lt hb)]
  exact wrap64_id _ (by omega) (by omega)

theorem fdiv_pos (a b : Int) (hb : 0 < b) : Int.fdiv a b = a / b :=
  Int.fdiv_eq_ediv a (le_of_lt hb)

theorem add64_id (a b : Int) (h0 : -9223372036854775808 ≤ a + b)
    (h1 : a + b < 9223372036854775808) : add64 a b = a + b := wrap64_id _ h0 h1

theorem sub64_id (a b : Int) (h0 : -9223372036854775808 ≤ a - b)
    (h1 : a - b < 9223372036854775808) : sub64 a b = a - b := wrap64_id _ h0 h1

theorem mul64_id (a b : Int) (h0 : -9223372036854775808 ≤ a * b)
    (h1 : a * b < 9223372036854775808) : mul64 a b = a * b := wrap64_id _ h0 h1

theorem qdateYMD_eq_specYMD_range (j : Int) (h0 : 0 ≤ j) (h1 : j ≤ 1152921504606846976) :
    qdateYMD j = specYMD j := by
  have a1 : wrap64 j = j := wrap64_id j (by omega) (by omega)
  have a2 : add64 j 32044 = j + 32044 := add64_id _ _ (by omega) (by omega)
  generalize ha : j + 32044 = a at a2
  have b1 : mul64 4 a = 4 * a := mul64_id _ _ (by omega) (by omega)
  have b2 : add64 (4 * a) 3 = 4 * a + 3 := add64_id _ _ (by omega) (by omega)
  have b3 : floordiv (4 * a + 3) 146097 = (4 * a + 3) / 146097 :=
    floordiv_nonneg _ _ (by omega) (by omega) (by norm_num)
  generalize hb : (4 * a + 3) / 146097 = b at b3
  have c1 : mul64 146097 b = 146097 * b := mul64_id _ _ (by omega) (by omega)
  have c2 : floordiv (146097 * b) 4 = 146097 * b / 4 :=
    floordiv_nonneg _ _ (by omega) (by omega) (by norm_num)
  have c3 : sub64 a (146097 * b / 4) = a - 146097 * b / 4 := sub64_id _ _ (by omega) (by omega)
  generalize hc : a - 146097 * b / 4 = c at c3
  have d1 : mul64 4 c = 4 * c := mul64_id _ _ (by omega) (by omega)
  have d2 : add64 (4 * c) 3 = 4 * c + 3 := add64_id _ _ (by omega) (by omega)
  have d3 : floordiv (4 * c + 3) 1461 = (4 * c + 3) / 1461 :=
    floordiv_nonneg _ _ (by omega) (by omega) (by norm_num)
  generalize hd : (4 * c + 3) / 1461 = d at d3
  have e1 : mul64 1461 d = 1461 * d := mul64_id _ _ (by omega) (by omega)
  have e2 : floordiv (1461 * d) 4 = 1461 * d / 4 :=
    floordiv_nonneg _ _ (by omega) (by omega) (by norm_num)
  have e3 : sub64 c (1461 * d / 4) = c - 1461 * d / 4 := sub64_id _ _ (by omega) (by omega)
  generalize he : c - 1461 * d / 4 = e at e3
  have m1 : mul64 5 e = 5 * e := mul64_id _ _ (by omega) (by omega)
  have m2 : add64 (5 * e) 2 = 5 * e + 2 := add64_id _ _ (by omega) (by omega)
  have m3 : floordiv (5 * e + 2) 153 = (5 * e + 2) / 153 :=
    floordiv_nonneg _ _ (by omega) (by omega) (by norm_num)
  generalize hm : (5 * e + 2) / 153 = m at m3
  have y1 : mul64 153 m = 153 * m := mul64_id _ _ (by omega) (by omega)
  have y2 : add64 (153 * m) 2 = 153 * m + 2 := add64_id _ _ (by omega) (by omega)
  have y3 : floordiv (153 * m + 2) 5 = (153 * m + 2) / 5 :=
    floordiv_nonneg _ _ (by omega) (by omega) (by norm_num)
  have y4 : sub64 e ((153 * m + 2) / 5) = e - (153 * m + 2) / 5 :=
    sub64_id _ _ (by omega) (by omega)
  have y5 : add64 (e - (153 * m + 2) / 5) 1 = e - (153 * m + 2) / 5 + 1 :=
    add64_id _ _ (by omega) (by omega)
  have n1 : floordiv m 10 = m / 10 := floordiv_nonneg _ _ (by omega) (by omega) (by norm_num)
  have n2 : mul64 12 (m / 10) = 12 * (m / 10) := mul64_id _ _ (by omega) (by omega)
  have n3 : add64 m 3 = m + 3 := add64_id _ _ (by omega) (by omega)
  have n4 : sub64 (m + 3) (12 * (m / 10)) = m + 3 - 12 * (m / 10) :=
    sub64_id _ _ (by omega) (by omega)
  have z1 : mul64 100 b = 100 * b := mul64_id _ _ (by omega) (by omega)
  have z2 : add64 (100 * b) d = 100 * b + d := add64_id _ _ (by omega) (by omega)
  have z3 : sub64 (100 * b + d) 4800 = 100 * b + d - 4800 := sub64_id _ _ (by omega) (by omega)
  have z4 : add64 (100 * b + d - 4800) (m / 10) = 100 * b + d - 4800 + m / 10 :=
    add64_id _ _ (by omega) (by omega)
  have z5 : sub64 (100 * b + d - 4800 + m / 10) 1 = 100 * b + d - 4800 + m / 10 - 1 :=
    sub64_id _ _ (by omega) (by omega)
  simp only [qdateYMD, specYMD, fdiv_pos _ _ (show (0 : Int) < 146097 by norm_num),
    fdiv_pos _ _ (show (0 : Int) < 4 by norm_num), fdiv_pos _ _ (show (0 : Int) < 1461 by norm_num),
    fdiv_pos _ _ (show (0 : Int) < 153 by norm_num), fdiv_pos _ _ (show (0 : Int) < 5 by norm_num),
    fdiv_pos _ _ (show (0 : Int) < 10 by norm_num),
    a1, a2, ha, b1, b2, b3, hb, c1, c2, c3, hc, d1, d2, d3, hd, e1, e2, e3, he, m1, m2, m3, hm,
    y1, y2, y3, y4, y5, n1, n2, n3, n4, z1, z2, z3, z4, z5]

theorem ReadQDate_encode (o : ByteOrder) (v : Int) (dp : Bool) (j : Nat)
    (hj : j < 18446744073709551616) (rest : List Byte) :
    ReadQDate ⟨encodeUint o 8 j ++ rest, o, v, dp⟩ = .ret (qdateValue j) none ⟨rest, o, v, dp⟩ := by
  have hlen : (encodeUint o 8 j).length = 8 := encodeUint_length o 8 j
  have hb := binaryRead_append (encodeUint o 8 j) rest o v dp
  rw [hlen] at hb
  simp only [ReadQDate, ReadUint64, ReadNumber, NumKind.size, hb, NumKind.decode, NumKind.signed,
    qdateValue]
  rw [decodeUint_encodeUint o 8 j (by simpa using hj)]
  rfl

/-- C4: for every Julian day number `j` with `0 ≤ j ≤ 2^60`, the year, month and
day that `ReadQDate` computes in 64-bit arithmetic from the eight bytes of `j`,
and passes to `time.Date`, are those of the spec's algorithm over the integers
with floored division. -/
theorem qdateYMD_eq_specYMD (j : Nat) (h1 : j ≤ 1152921504606846976) :
    qdateYMD j = specYMD j ∧
      ∀ (o : ByteOrder) (v : Int) (dp : Bool) (rest : List Byte),
        ReadQDate ⟨encodeUint o 8 j ++ rest, o, v, dp⟩ =
          .ret (goDate (specYMD j).1 (specYMD j).2.1 (specYMD j).2.2 .UTC) none
            ⟨rest, o, v, dp⟩ := by
  have h := qdateYMD_eq_specYMD_range j (by omega) (by omega)
  refine ⟨h, fun o v dp rest => ?_⟩
  rw [ReadQDate_encode o v dp j (by omega) rest, qdateValue, h]

theorem qdateYMD_eq_specYMD_witness :
    qdateYMD 2440588 = (1970, 1, 1) ∧ specYMD 2440588 = (1970, 1, 1) :=
  ⟨((qdateYMD_eq_specYMD 2440588 (by decide)).1).trans (by decide), by decide⟩

/-- C3, failing input: 29 February of year -1 is a date of the calendar and has
the Julian day number 1721119, but `ReadQDate` on the eight bytes of 1721119
returns a time whose `Month()` is 3 and whose `Day()` is 1: it computes the year
-1, the month 2 and the day 29 and passes them to `time.Date`, for which the
year -1 is no leap year. -/
theorem readQDate_leap_day_before_year_one :
    validDate (-1) 2 29 = true ∧ julianDayFromDate (-1) 2 29 = 1721119 ∧
      qdateYMD 1721119 = (-1, 2, 29) ∧
      ReadQDate ⟨[0, 0, 0, 0, 0, 0x1A, 0x43, 0x1F], .BigEndian, 19, false⟩ =
        .ret (qdateValue 1721119) none ⟨[], .BigEndian, 19, false⟩ ∧
      (qdateValue 1721119).Year = -1 ∧ (qdateValue 1721119).Month = 3 ∧
      (qdateValue 1721119).Day = 1 := by
  refine ⟨by decide, by decide, by decide, rfl, by decide, by decide, by decide⟩

theorem qdateYMD_year_ne_zero (j : Int) : (qdateYMD j).1 ≠ 0 := by
  simp only [qdateYMD]
  generalize sub64 (add64 (mul64 100 _) _) 4800 = p
  generalize floordiv _ 10 = q
  simp only [add64, sub64, wrap64]
  split_ifs <;> omega

set_option maxRecDepth 100000 in
theorem year_zero_days : ∀ k : Nat, k < 366 →
    (qdateYMD (1721060 + (k : Int))).1 = -1 ∧ (qdateValue (1721060 + (k : Int))).Year = -1 := by
  decide

/-- C5: the year that `ReadQDate` computes and passes to `time.Date` is never 0,
whatever the 64-bit Julian day number; every Julian day number of the
astronomical year 0, from 1721060 to 1721425, gives the year -1, also as the
`Year()` of the time returned; 1721060 gives 1 January and 1721425 gives
31 December of the year -1. -/
theorem readQDate_no_year_zero :
    (∀ j : Nat, j < 18446744073709551616 → (qdateYMD j).1 ≠ 0) ∧
      (∀ (j : Nat) (o : ByteOrder) (v : Int) (dp : Bool) (rest : List Byte),
        1721060 ≤ j → j ≤ 1721425 →
          (qdateYMD j).1 = -1 ∧
            ReadQDate ⟨encodeUint o 8 j ++ rest, o, v, dp⟩ =
              .ret (qdateValue j) none ⟨rest, o, v, dp⟩ ∧
            (qdateValue j).Year = -1) ∧
      qdateYMD 1721060 = (-1, 1, 1) ∧ (qdateValue 1721060).civil = (-1, 1, 1) ∧
      qdateYMD 1721425 = (-1, 12, 31) ∧ (qdateValue 1721425).civil = (-1, 12, 31) := by
  refine ⟨fun j _ => qdateYMD_year_ne_zero j, ?_, by decide, by decide, by decide, by decide⟩
  intro j o v dp rest h0 h1
  have hk := year_zero_days (j - 1721060) (by omega)
  have hj : (1721060 : Int) + ((j - 1721060 : Nat) : Int) = (j : Int) := by omega
  rw [hj] at hk
  exact ⟨hk.1, ReadQDate_encode o v dp j (by omega) rest, hk.2⟩

theorem readQDate_no_year_zero_witness :
    (qdateYMD 18446744073709551615).1 ≠ 0 ∧
      ((qdateYMD 1721119).1 = -1 ∧
        ReadQDate ⟨encodeUint .LittleEndian 8 1721119 ++ [5], .LittleEndian, 20, true⟩ =
          .ret (qdateValue 1721119) none ⟨[5], .LittleEndian, 20, true⟩ ∧
        (qdateValue 1721119).Year = -1) :=
  ⟨readQDate_no_year_zero.1 18446744073709551615 (by decide),
    readQDate_no_year_zero.2.1 1721119 .LittleEndian 20 true [5] (by decide) (by decide)⟩

/-- C11: on the length 0xFFFFFFFF `ReadQByteArray` returns the nil slice and no error
after the four bytes of the length; on any other length `n` followed by at least
`n` bytes it returns those `n` bytes in order, as a slice that is not nil (also
when `n = 0`, where it is empty), after `4 + n` bytes; followed by fewer than
`n` bytes it returns an error and the nil slice. -/
theorem readQByteArray_spec (o : ByteOrder) (v : Int) (dp : Bool) :
    (∀ rest : List Byte,
      ReadQByteArray ⟨encodeUint o 4 0xFFFFFFFF ++ rest, o, v, dp⟩ =
        .ret none none ⟨rest, o, v, dp⟩) ∧
    (∀ (n : Nat) (body : List Byte), n < 4294967295 → n ≤ body.length →
      ReadQByteArray ⟨encodeUint o 4 n ++ body, o, v, dp⟩ =
        .ret (some (body.take n)) none ⟨body.drop n, o, v, dp⟩ ∧
      (body.take n).length = n ∧ some (body.take n) ≠ (none : Option (List Byte))) ∧
    (∀ rest : List Byte,
      ReadQByteArray ⟨encodeUint o 4 0 ++ rest, o, v, dp⟩ = .ret (some []) none ⟨rest, o, v, dp⟩) ∧
    (∀ (n : Nat) (body : List Byte), n < 4294967295 → body.length < n →
      ∃ err, ReadQByteArray ⟨encodeUint o 4 n ++ body, o, v, dp⟩ =
        .ret none (some err) ⟨[], o, v, dp⟩) := by
  have main : ∀ (n : Nat) (body : List Byte), n < 4294967295 →
      ReadQByteArray ⟨encodeUint o 4 n ++ body, o, v, dp⟩ =
        match binaryRead n ⟨body, o, v, dp⟩ with
        | (.error err, r2) => .ret none (some err) r2
        | (.ok buf, r2) => .ret (some buf) none r2 := by
    intro n body hn
    have h := ReadUint32_encode o n (by omega) body v dp
    have hne : ¬((n : Int) = 4294967295) := by omega
    simp only [ReadQByteArray, h, hne, if_false, Int.toNat_ofNat]
  refine ⟨fun rest => ?_, fun n body hn hlen => ⟨?_, ?_, ?_⟩, fun rest => ?_, fun n body hn hlen => ?_⟩
  · have h := ReadUint32_encode o 0xFFFFFFFF (by decide) rest v dp
    simp only [ReadQByteArray, h]
    simp
  · rw [main n body hn, binaryRead_enough _ _ hlen]
  · simp [List.length_take, hlen]
  · simp
  · rw [main 0 rest (by decide)]
    simp [binaryRead]
  · rw [main n body hn, binaryRead_short _ _ hlen]
    exact ⟨_, rfl⟩

theorem readQByteArray_spec_witness :
    (ReadQByteArray ⟨[0, 0, 0, 2, 7, 8, 9], .BigEndian, 19, false⟩ =
        .ret (some [7, 8]) none ⟨[9], .BigEndian, 19, false⟩ ∧
      ([7, 8] : List Byte).length = 2 ∧ some ([7, 8] : List Byte) ≠ none) ∧
    (∃ err, ReadQByteArray ⟨[0, 0, 0, 2, 7], .BigEndian, 19, false⟩ =
        .ret none (some err) ⟨[], .BigEndian, 19, false⟩) :=
  ⟨(readQByteArray_spec .BigEndian 19 false).2.1 2 [7, 8, 9] (by decide) (by decide),
    (readQByteArray_spec .BigEndian 19 false).2.2.2 2 [7] (by decide) (by decide)⟩

theorem bitArrayLoop_last (buf : List Byte) (r : Reader) (hbuf : buf.length ≤ 536870911)
    (k : Nat) (bits : List Bool) (hk : 1 ≤ k) :
    bitArrayLoop buf r k 4294967295 bits = .panic := by
  obtain ⟨k, rfl⟩ : ∃ k', k = k' + 1 := ⟨k - 1, by omega⟩
  have hget : buf.get? (4294967295 / 8) = none := by
    rw [List.get?_eq_none]
    have : (4294967295 : Nat) / 8 = 536870911 := by norm_num
    omega
  simp only [bitArrayLoop, Nat.zero_le, if_true, hget]

theorem bitArrayLoop_panics (buf : List Byte) (r : Reader) (hbuf : buf.length ≤ 536870911) :
    ∀ (i k : Nat) (bits : List Bool), i + 2 ≤ k → bitArrayLoop buf r k i bits = .panic := by
  intro i
  induction i with
  | zero =>
    intro k bits hk
    obtain ⟨k, rfl⟩ : ∃ k', k = k' + 1 := ⟨k - 1, by omega⟩
    simp only [bitArrayLoop, Nat.zero_le, if_true]
    split
    · rfl
    · split_ifs
      · exact bitArrayLoop_last buf r hbuf k _ (by omega)
      · rfl
  | succ i ih =>
    intro k bits hk
    obtain ⟨k, rfl⟩ : ∃ k', k = k' + 1 := ⟨k - 1, by omega⟩
    simp only [bitArrayLoop, Nat.zero_le, if_true]
    split
    · rfl
    · split_ifs
      · have hd : dec32 (i + 1) = i := by simp [dec32]
        rw [hd]
        exact ih k _ (by omega)
      · rfl

/-- C12, the defect: for every bit count `n` (also `n = 0`) and every source that
holds the four bytes of `n` and then at least `ceil(n/8)` bytes, `ReadQBitArray`
panics: the counter `i` of its loop is a `uint32`, so the condition `i >= 0`
never ends the loop, and after the bit 0 is written the counter wraps around to
an index outside the buffer. -/
theorem readQBitArray_panics (o : ByteOrder) (v : Int) (dp : Bool) (n : Nat)
    (hn : n < 4294967296) (body : List Byte) (hlen : (n + 7) / 8 ≤ body.length) :
    ReadQBitArray ⟨encodeUint o 4 n ++ body, o, v, dp⟩ = .panic := by
  have h := ReadUint32_encode o n hn body v dp
  have hL : (n + 7) % 4294967296 / 8 ≤ body.length := by omega
  have hb := binaryRead_enough ((n + 7) % 4294967296 / 8) ⟨body, o, v, dp⟩ hL
  have hbuf : (body.take ((n + 7) % 4294967296 / 8)).length ≤ 536870911 := by
    rw [List.length_take]; omega
  have hloop : bitArrayLoop (body.take ((n + 7) % 4294967296 / 8))
      ⟨body.drop ((n + 7) % 4294967296 / 8), o, v, dp⟩ (n + 2) (dec32 n)
      (List.replicate n false) = .panic := by
    by_cases h0 : n = 0
    · subst h0
      exact bitArrayLoop_last _ _ hbuf _ _ (by omega)
    · have hd : dec32 n = n - 1 := by simp [dec32, h0]
      rw [hd]
      exact bitArrayLoop_panics _ _ hbuf _ _ _ (by omega)
  simp only [ReadQBitArray, h, Int.toNat_ofNat, hb, hloop]

theorem readQBitArray_panics_witness :
    ReadQBitArray ⟨[0, 0, 0, 9, 0x80, 0x80, 7], .BigEndian, 19, false⟩ = .panic ∧
      ReadQBitArray ⟨[0, 0, 0, 0], .LittleEndian, 19, false⟩ = .panic :=
  ⟨readQBitArray_panics .BigEndian 19 false 9 (by decide) [0x80, 0x80, 7] (by decide),
    readQBitArray_panics .LittleEndian 19 false 0 (by decide) [] (by decide)⟩

theorem ReadQTime_encode (o : ByteOrder) (v : Int) (dp : Bool) (ms : Nat) (hms : ms < 4294967296)
    (rest : List Byte) :
    ReadQTime ⟨encodeUint o 4 ms ++ rest, o, v, dp⟩ =
      .ret ((ms : Int) * 1000000) none ⟨rest, o, v, dp⟩ := by
  have h := ReadUint32_encode o ms hms rest v dp
  simp only [ReadQTime, h]
  rw [wrap64_id _ (by omega) (by omega), mul64_id _ _ (by omega) (by omega), mul_comm]

/-- C15: for every `uint32` value `ms`, `ReadQTime` on the four bytes of `ms` returns
the duration of `ms * 1,000,000` nanoseconds, the product not wrapping around in
64 bits, so that its whole hours are `ms / 3,600,000`, its minutes
`(ms / 60,000) mod 60`, its seconds `(ms / 1,000) mod 60` and its milliseconds
`ms mod 1,000`. -/
theorem readQTime_spec (o : ByteOrder) (v : Int) (dp : Bool) (ms : Nat) (hms : ms < 4294967296)
    (rest : List Byte) :
    ReadQTime ⟨encodeUint o 4 ms ++ rest, o, v, dp⟩ =
        .ret ((ms : Int) * 1000000) none ⟨rest, o, v, dp⟩ ∧
      (ms : Int) * 1000000 < 9223372036854775808 ∧
      (ms : Int) * 1000000 / 3600000000000 = (ms : Int) / 3600000 ∧
      (ms : Int) * 1000000 / 60000000000 % 60 = (ms : Int) / 60000 % 60 ∧
      (ms : Int) * 1000000 / 1000000000 % 60 = (ms : Int) / 1000 % 60 ∧
      (ms : Int) * 1000000 / 1000000 % 1000 = (ms : Int) % 1000 := by
  refine ⟨ReadQTime_encode o v dp ms hms rest, ?_, ?_, ?_, ?_, ?_⟩ <;> omega

theorem readQTime_spec_witness :
    ReadQTime ⟨[0x00, 0x37, 0xDC, 0xC8], .BigEndian, 19, false⟩ =
        .ret 3661000000000 none ⟨[], .BigEndian, 19, false⟩ ∧
      (3661000000000 : Int) / 3600000000000 = 1 ∧ (3661000000000 : Int) / 60000000000 % 60 = 1 ∧
      (3661000000000 : Int) / 1000000000 % 60 = 1 ∧ (3661000000000 : Int) / 1000000 % 1000 = 0 :=
  ⟨(readQTime_spec .BigEndian 19 false 3661000 (by decide) []).1, by decide, by decide,
    by decide, by decide⟩

theorem hexByte_digits (b : Byte) :
    hexByte b = [hexDigits.getD (b.val / 16) 0, hexDigits.getD (b.val % 16) 0] := by
  have hd : ∀ n, n < 16 →
      (if n < 10 then byte (48 + n) else byte (87 + n)) = hexDigits.getD n 0 := by
    intro n hn
    interval_cases n <;> rfl
  have h1 : b.val / 16 < 16 := by have := b.isLt; omega
  have h2 : b.val % 16 < 16 := by omega
  simp only [hexByte, hd _ h1, hd _ h2]

theorem flatten_hex_length (bs : List Byte) : (bs.map hexByte).flatten.length = 2 * bs.length := by
  induction bs with
  | nil => rfl
  | cons b rest ih =>
    simp only [List.map_cons, List.flatten_cons, List.length_append, ih, List.length_cons, hexByte,
      List.length_nil]
    omega

theorem flatten_hex_get (bs : List Byte) :
    ∀ k, k < bs.length →
      (bs.map hexByte).flatten.get? (2 * k) = some (hexDigits.getD ((bs.getD k 0).val / 16) 0) ∧
      (bs.map hexByte).flatten.get? (2 * k + 1) =
        some (hexDigits.getD ((bs.getD k 0).val % 16) 0) := by
  induction bs with
  | nil => intro k hk; simp at hk
  | cons b rest ih =>
    intro k hk
    cases k with
    | zero => simp [hexByte_digits]
    | succ k =>
      have h2 : 2 * (k + 1) = 2 * k + 1 + 1 := by ring
      have := ih k (by simpa using hk)
      simp only [List.map_cons, List.flatten_cons, hexByte_digits b, h2, List.cons_append,
        List.nil_append, List.get?_cons_succ, List.getD_cons_succ]
      exact this

/-- C17: for every source with at least 16 bytes left, `ReadQUuid` takes exactly 16
bytes and returns, with no error, the string of 32 lower-case hexadecimal
digits in which the byte `k` of the source gives the characters `2k` and
`2k + 1`, the high digit first. -/
theorem readQUuid_spec (r : Reader) (h : 16 ≤ r.Reader.length) :
    ∃ s, ReadQUuid r = .ret s none { r with Reader := r.Reader.drop 16 } ∧ s.length = 32 ∧
      ∀ k, k < 16 →
        s.get? (2 * k) = some (hexDigits.getD ((r.Reader.getD k 0).val / 16) 0) ∧
        s.get? (2 * k + 1) = some (hexDigits.getD ((r.Reader.getD k 0).val % 16) 0) := by
  refine ⟨_, rfl, ?_, ?_⟩
  · rw [flatten_hex_length, List.length_take]; omega
  · intro k hk
    have hlen : k < (r.Reader.take 16).length := by rw [List.length_take]; omega
    have := flatten_hex_get (r.Reader.take 16) k hlen
    have g : (r.Reader.take 16).getD k 0 = r.Reader.getD k 0 := by
      simp only [List.getD_eq_getElem?_getD, List.getElem?_take, hk, if_true]
    rw [g] at this
    exact this

theorem readQUuid_spec_witness :
    ∃ s, ReadQUuid ⟨[0x12, 0x3e, 0x45, 0x67, 0xe8, 0x9b, 0x12, 0xd3, 0xa4, 0x56, 0x42, 0x66,
          0x14, 0x17, 0x40, 0x00, 9], .BigEndian, 19, false⟩ =
        .ret s none ⟨[9], .BigEndian, 19, false⟩ ∧ s.length = 32 ∧
      ∀ k, k < 16 →
        s.get? (2 * k) = some (hexDigits.getD ((([0x12, 0x3e, 0x45, 0x67, 0xe8, 0x9b, 0x12, 0xd3,
          0xa4, 0x56, 0x42, 0x66, 0x14, 0x17, 0x40, 0x00, 9] : List Byte).getD k 0).val / 16) 0) ∧
        s.get? (2 * k + 1) = some (hexDigits.getD ((([0x12, 0x3e, 0x45, 0x67, 0xe8, 0x9b, 0x12,
          0xd3, 0xa4, 0x56, 0x42, 0x66, 0x14, 0x17, 0x40, 0x00, 9] : List Byte).getD k 0).val % 16)
            0) :=
  readQUuid_spec ⟨[0x12, 0x3e, 0x45, 0x67, 0xe8, 0x9b, 0x12, 0xd3, 0xa4, 0x56, 0x42, 0x66,
    0x14, 0x17, 0x40, 0x00, 9], .BigEndian, 19, false⟩ (by decide)

/-- C18, the defect: for every source with fewer than 16 bytes left, `ReadQUuid`
returns no error: it returns the hexadecimal digits of the bytes that are left,
a string of fewer than 32 characters, and `ReadQVariant` returns it as the
payload of a variant of the type code 30. -/
theorem readQUuid_short_no_error (r : Reader) (h : r.Reader.length < 16) :
    ReadQUuid r = .ret (r.Reader.map hexByte).flatten none { r with Reader := [] } ∧
      (r.Reader.map hexByte).flatten.length < 32 ∧
      ReadQVariant (fun _ => false) Location.UTC ⟨[0, 0, 0, 30, 0, 1, 2, 0xab], .BigEndian, 19, false⟩ =
        .ret (30, Value.string [48, 49, 48, 50, 97, 98]) none ⟨[], .BigEndian, 19, false⟩ := by
  refine ⟨?_, ?_, rfl⟩
  · simp only [ReadQUuid, List.take_of_length_le (le_of_lt h), List.drop_of_length_le (le_of_lt h)]
  · rw [flatten_hex_length]; omega

theorem readQUuid_short_no_error_witness :
    ReadQUuid ⟨[1, 2, 0xab], .BigEndian, 19, false⟩ =
      .ret [48, 49, 48, 50, 97, 98] none ⟨[], .BigEndian, 19, false⟩ :=
  (readQUuid_short_no_error ⟨[1, 2, 0xab], .BigEndian, 19, false⟩ (by decide)).1

/-- C19: `SetVersion(v)` returns no error exactly when `v` is 19 or 20; then the
version of the reader becomes `v`; otherwise it returns the error carrying `v`
and the version stays what it was; in both cases the byte source, the byte
order and the precision mode stay what they were. -/
theorem setVersion_spec (r : Reader) (version : Int) :
    ((SetVersion r version).1 = none ↔ version = 19 ∨ version = 20) ∧
      (version = 19 ∨ version = 20 → (SetVersion r version).2.version = version) ∧
      (¬(version = 19 ∨ version = 20) →
        (SetVersion r version).1 = some (.unsupportedVersion version) ∧
          (SetVersion r version).2.version = r.version) ∧
      (SetVersion r version).2.Reader = r.Reader ∧
      (SetVersion r version).2.ByteOrder = r.ByteOrder ∧
      (SetVersion r version).2.DoublePrecision = r.DoublePrecision := by
  by_cases h19 : version = 19
  · subst h19; simp [SetVersion]
  · by_cases h20 : version = 20
    · subst h20; simp [SetVersion]
    · have e1 : ¬(19 = version) := fun h => h19 h.symm
      have e2 : ¬(20 = version) := fun h => h20 h.symm
      simp [SetVersion, h19, h20, e1, e2]

theorem setVersion_spec_witness :
    (SetVersion ⟨[1], .LittleEndian, 19, true⟩ 20).2.version = 20 ∧
      ((SetVersion ⟨[1], .LittleEndian, 20, true⟩ 21).1 = some (.unsupportedVersion 21) ∧
        (SetVersion ⟨[1], .LittleEndian, 20, true⟩ 21).2.version = 20) :=
  ⟨(setVersion_spec ⟨[1], .LittleEndian, 19, true⟩ 20).2.1 (by decide),
    (setVersion_spec ⟨[1], .LittleEndian, 20, true⟩ 21).2.2.1 (by decide)⟩

/-- C20, the defect: `NewReader` returns a reader bound to the given source, with the
big endian byte order and the version 19, whose `DoublePrecision` is false,
while the comment of the function says it enables double precision. -/
theorem newReader_single_precision (reader : List Byte) :
    (NewReader reader).Reader = reader ∧ (NewReader reader).ByteOrder = .BigEndian ∧
      (NewReader reader).version = 19 ∧ (NewReader reader).DoublePrecision = false :=
  ⟨rfl, rfl, rfl, rfl⟩

theorem ReadUint8_cons (u : Byte) (rest : List Byte) (o : ByteOrder) (v : Int) (dp : Bool) :
    ReadUint8 ⟨u :: rest, o, v, dp⟩ = .ret (u.val : Int) none ⟨rest, o, v, dp⟩ := by
  have hd : decodeUint o [u] = u.val := by cases o <;> simp [decodeUint]
  simp [ReadUint8, ReadNumber, binaryRead, NumKind.size, NumKind.decode, NumKind.signed, hd]

theorem ReadQDateTime_encode (Local : Location) (o : ByteOrder) (v : Int) (dp : Bool)
    (j ms : Nat) (u : Byte) (rest : List Byte) (hj : j < 18446744073709551616)
    (hms : ms < 4294967296) :
    ReadQDateTime Local ⟨encodeUint o 8 j ++ (encodeUint o 4 ms ++ u :: rest), o, v, dp⟩ =
      .ret ((goDate (qdateValue j).Year (qdateValue j).Month (qdateValue j).Day
        (if u = 0 then Local else Location.UTC)).Add ((ms : Int) * 1000000)) none
        ⟨rest, o, v, dp⟩ := by
  have hu : ((u.val : Int) = 0) = (u = 0) := by
    apply propext
    constructor
    · intro h; exact Fin.ext (by exact_mod_cast h)
    · intro h; rw [h]; rfl
  simp only [ReadQDateTime, ReadQDate_encode o v dp j hj, ReadQTime_encode o v dp ms hms,
    ReadUint8_cons, hu]

theorem ReadQDateTime_short (Local : Location) (r : Reader) (hlen : r.Reader.length < 13) :
    ∃ err r1, ReadQDateTime Local r = .ret GoTime.zero (some err) r1 := by
  by_cases h8 : r.Reader.length < 8
  · have h := ReadNumber_short .uint64 r (by simpa [NumKind.size] using h8)
    simp only [ReadQDateTime, ReadQDate, ReadUint64, h]
    exact ⟨_, _, rfl⟩
  · have h := ReadNumber_enough .uint64 r (by simp only [NumKind.size]; omega)
    by_cases h12 : r.Reader.length < 12
    · have h2 := ReadNumber_short .uint32 { r with Reader := r.Reader.drop NumKind.uint64.size }
        (by simp only [NumKind.size, List.length_drop]; omega)
      simp only [ReadQDateTime, ReadQDate, ReadUint64, h, ReadQTime, ReadUint32, h2]
      exact ⟨_, _, rfl⟩
    · have h2 := ReadNumber_enough .uint32 { r with Reader := r.Reader.drop NumKind.uint64.size }
        (by simp only [NumKind.size, List.length_drop]; omega)
      have h3 := ReadNumber_short .uint8
        { r with Reader := (r.Reader.drop NumKind.uint64.size).drop NumKind.uint32.size }
        (by simp only [NumKind.size, List.length_drop]; omega)
      simp only [ReadQDateTime, ReadQDate, ReadUint64, h, ReadQTime, ReadUint32, h2, ReadUint8, h3]
      exact ⟨_, _, rfl⟩

set_option maxRecDepth 100000 in
theorem ReadQDateTime_saoPaulo :
    ReadQDateTime saoPaulo2018
        ⟨[0, 0, 0, 0, 0, 0x25, 0x83, 0x3B, 0, 0, 0, 0, 0], .BigEndian, 19, false⟩ =
      .ret ⟨63676893600, 0, saoPaulo2018⟩ none ⟨[], .BigEndian, 19, false⟩ := rfl

set_option maxRecDepth 100000 in
theorem ReadQDateTime_saoPaulo_utc :
    ReadQDateTime saoPaulo2018
        ⟨[0, 0, 0, 0, 0, 0x25, 0x83, 0x3B, 0, 0, 0, 0, 1], .BigEndian, 19, false⟩ =
      .ret ⟨63676886400, 0, Location.UTC⟩ none ⟨[], .BigEndian, 19, false⟩ := rfl

set_option maxRecDepth 100000 in
theorem ReadQDateTime_fixedZone :
    ReadQDateTime (FixedZone (-10800))
        ⟨[0, 0, 0, 0, 0, 0x25, 0x83, 0x3B, 0, 0, 0, 0, 0], .BigEndian, 19, false⟩ =
      .ret ⟨63676897200, 0, FixedZone (-10800)⟩ none ⟨[], .BigEndian, 19, false⟩ := rfl

/-- C16, failing input: the thirteen bytes 00 00 00 00 00 25 83 3B, 00 00 00 00, 00
hold the Julian day number 2458427, which is 4 November 2018, the time 0 ms and
the flag 0 of the local zone.  With America/Sao_Paulo as the local zone
`ReadQDateTime` returns a time whose `Day()` is 3 and whose `Hour()` is 23: that
day has no midnight there, and `time.Date` answers with the instant one hour
before the clocks went forward.  `TestDateTime` requires the fields of the
recorded date and time, the day 4 and the hour 0, which the same bytes give
with a nonzero flag (UTC) and with a local zone of the fixed offset of -3
hours. -/
theorem readQDateTime_local_midnight_missing :
    qdateYMD 2458427 = (2018, 11, 4) ∧ (qdateValue 2458427).civil = (2018, 11, 4) ∧
      ReadQDateTime saoPaulo2018
          ⟨[0, 0, 0, 0, 0, 0x25, 0x83, 0x3B, 0, 0, 0, 0, 0], .BigEndian, 19, false⟩ =
        .ret ⟨63676893600, 0, saoPaulo2018⟩ none ⟨[], .BigEndian, 19, false⟩ ∧
      GoTime.civil ⟨63676893600, 0, saoPaulo2018⟩ = (2018, 11, 3) ∧
      GoTime.Hour ⟨63676893600, 0, saoPaulo2018⟩ = 23 ∧
      GoTime.Minute ⟨63676893600, 0, saoPaulo2018⟩ = 0 ∧
      ReadQDateTime saoPaulo2018
          ⟨[0, 0, 0, 0, 0, 0x25, 0x83, 0x3B, 0, 0, 0, 0, 1], .BigEndian, 19, false⟩ =
        .ret ⟨63676886400, 0, Location.UTC⟩ none ⟨[], .BigEndian, 19, false⟩ ∧
      GoTime.civil ⟨63676886400, 0, Location.UTC⟩ = (2018, 11, 4) ∧
      GoTime.Hour ⟨63676886400, 0, Location.UTC⟩ = 0 ∧
      ReadQDateTime (FixedZone (-10800))
          ⟨[0, 0, 0, 0, 0, 0x25, 0x83, 0x3B, 0, 0, 0, 0, 0], .BigEndian, 19, false⟩ =
        .ret ⟨63676897200, 0, FixedZone (-10800)⟩ none ⟨[], .BigEndian, 19, false⟩ ∧
      GoTime.civil ⟨63676897200, 0, FixedZone (-10800)⟩ = (2018, 11, 4) ∧
      GoTime.Hour ⟨63676897200, 0, FixedZone (-10800)⟩ = 0 := by
  refine ⟨by decide, by decide, ReadQDateTime_saoPaulo, by decide, by decide, by decide,
    ReadQDateTime_saoPaulo_utc, by decide, by decide, ReadQDateTime_fixedZone, by decide,
    by decide⟩

theorem within_cases {α : Type} (o : Outcome α) (B : Nat) (h : o.within B) :
    (∃ val err r1, o = .ret val err r1 ∧ r1.Reader.length ≤ B) ∨ o = .panic := by
  cases o with
  | ret val err r => exact Or.inl ⟨val, err, r, rfl, h⟩
  | panic => exact Or.inr rfl
  | fuel => exact absurd h (by simp [Outcome.within])

theorem within_mono {α : Type} (o : Outcome α) (B C : Nat) (hBC : B ≤ C) (h : o.within B) :
    o.within C := by
  cases o with
  | ret val err r => exact le_trans h hBC
  | panic => trivial
  | fuel => exact h

theorem binaryRead_length (n : Nat) (r : Reader) :
    (binaryRead n r).2.Reader.length ≤ r.Reader.length := by
  unfold binaryRead
  split_ifs <;> simp

theorem binaryRead_ok_length (n : Nat) (r r1 : Reader) (bs : List Byte)
    (h : binaryRead n r = (.ok bs, r1)) : r1.Reader.length + n = r.Reader.length := by
  unfold binaryRead at h
  by_cases hn : n ≤ r.Reader.length
  · rw [if_pos hn] at h
    simp only [Prod.mk.injEq] at h
    rw [← h.2]
    simp only [List.length_drop]
    omega
  · rw [if_neg hn] at h
    simp at h

theorem within_of_binaryRead {α : Type} (n : Nat) (r : Reader)
    (f : Except GoError (List Byte) × Reader → Outcome α)
    (hf : ∀ x r1, r1.Reader.length ≤ r.Reader.length → (f (x, r1)).within r.Reader.length) :
    (f (binaryRead n r)).within r.Reader.length := by
  have h := binaryRead_length n r
  generalize binaryRead n r = p at h
  obtain ⟨x, r1⟩ := p
  exact hf x r1 h

theorem within_ReadNumber (k : NumKind) (r : Reader) :
    (ReadNumber k r).within r.Reader.length := by
  unfold ReadNumber
  have h := binaryRead_length k.size r
  generalize binaryRead k.size r = p at h
  obtain ⟨x, r1⟩ := p
  cases x <;> exact h

theorem within_ReadBool (r : Reader) : (ReadBool r).within r.Reader.length := by
  unfold ReadBool
  have h := binaryRead_length 1 r
  generalize binaryRead 1 r = p at h
  obtain ⟨x, r1⟩ := p
  cases x <;> exact h

theorem ReadNumber_ok_length (k : NumKind) (r r1 : Reader) (val : Int)
    (h : ReadNumber k r = .ret val none r1) : r1.Reader.length + k.size = r.Reader.length := by
  unfold ReadNumber at h
  have hb := binaryRead_ok_length k.size r
  generalize binaryRead k.size r = p at h hb
  obtain ⟨x, r2⟩ := p
  cases x with
  | error e => simp at h
  | ok bs =>
    simp only [Outcome.ret.injEq] at h
    rw [← h.2.2]
    exact hb r2 bs rfl

theorem ReadBool_ok_length (r r1 : Reader) (val : Bool)
    (h : ReadBool r = .ret val none r1) : r1.Reader.length + 1 = r.Reader.length := by
  unfold ReadBool at h
  have hb := binaryRead_ok_length 1 r
  generalize binaryRead 1 r = p at h hb
  obtain ⟨x, r2⟩ := p
  cases x with
  | error e => simp at h
  | ok bs =>
    simp only [Outcome.ret.injEq] at h
    rw [← h.2.2]
    exact hb r2 bs rfl

/-- A step `match o with ...` of a method keeps the bound when `o` does and the
continuation does. -/
theorem within_bind {α β : Type} (o : Outcome α) (B : Nat) (h : o.within B)
    (f : Outcome α → Outcome β)
    (hf : ∀ val err r1, r1.Reader.length ≤ B → (f (.ret val err r1)).within B)
    (hp : (f .panic).within B) : (f o).within B := by
  rcases within_cases o B h with ⟨val, err, r1, rfl, hl⟩ | rfl
  · exact hf val err r1 hl
  · exact hp

theorem within_ret_cases {α : Type} (o : Outcome α) (B : Nat) (h : o.within B) :
    (∃ val r1, o = .ret val none r1 ∧ r1.Reader.length ≤ B) ∨
      (∃ val e r1, o = .ret val (some e) r1 ∧ r1.Reader.length ≤ B) ∨ o = .panic := by
  rcases within_cases o B h with ⟨val, err, r1, rfl, hl⟩ | rfl
  · cases err with
    | none => exact Or.inl ⟨val, r1, rfl, hl⟩
    | some e => exact Or.inr (Or.inl ⟨val, e, r1, rfl, hl⟩)
  · exact Or.inr (Or.inr rfl)

theorem within_ReadFloat (r : Reader) : (ReadFloat r).within r.Reader.length := by
  unfold ReadFloat
  split_ifs
  · rcases within_ret_cases _ _ (within_ReadNumber .float64 r) with
      ⟨val, r1, h, hl⟩ | ⟨val, e, r1, h, hl⟩ | h <;> simp_all [Outcome.within]
  · rcases within_ret_cases _ _ (within_ReadNumber .float32 r) with
      ⟨val, r1, h, hl⟩ | ⟨val, e, r1, h, hl⟩ | h <;> simp_all [Outcome.within]

theorem within_ReadDouble (r : Reader) : (ReadDouble r).within r.Reader.length := by
  unfold ReadDouble
  split_ifs
  · rcases within_ret_cases _ _ (within_ReadNumber .float32 r) with
      ⟨val, r1, h, hl⟩ | ⟨val, e, r1, h, hl⟩ | h <;> simp_all [Outcome.within]
  · rcases within_ret_cases _ _ (within_ReadNumber .float64 r) with
      ⟨val, r1, h, hl⟩ | ⟨val, e, r1, h, hl⟩ | h <;> simp_all [Outcome.within]

theorem binaryRead_pair_cases (n : Nat) (r : Reader) :
    ∃ x r1, binaryRead n r = (x, r1) ∧ r1.Reader.length ≤ r.Reader.length :=
  ⟨(binaryRead n r).1, (binaryRead n r).2, rfl, binaryRead_length n r⟩

theorem within_ReadQString (r : Reader) : (ReadQString r).within r.Reader.length := by
  unfold ReadQString ReadUint32
  rcases within_ret_cases _ _ (within_ReadNumber .uint32 r) with
    ⟨val, r1, h, hl⟩ | ⟨val, e, r1, h, hl⟩ | h
  · rw [h]
    dsimp only
    split_ifs
    · exact hl
    · obtain ⟨x, r2, hb, hl2⟩ := binaryRead_pair_cases (2 * (val.toNat / 2)) r1
      rw [hb]
      cases x <;> exact le_trans hl2 hl
  · rw [h]; exact hl
  · rw [h]; trivial

theorem within_ReadQByteArray (r : Reader) : (ReadQByteArray r).within r.Reader.length := by
  unfold ReadQByteArray ReadUint32
  rcases within_ret_cases _ _ (within_ReadNumber .uint32 r) with
    ⟨val, r1, h, hl⟩ | ⟨val, e, r1, h, hl⟩ | h
  · rw [h]
    dsimp only
    split_ifs
    · exact hl
    · obtain ⟨x, r2, hb, hl2⟩ := binaryRead_pair_cases val.toNat r1
      rw [hb]
      cases x <;> exact le_trans hl2 hl
  · rw [h]; exact hl
  · rw [h]; trivial

theorem ReadNumber_uint32_lt (r r1 : Reader) (val : Int)
    (h : ReadNumber .uint32 r = .ret val none r1) : 0 ≤ val ∧ val < 4294967296 := by
  by_cases hlen : NumKind.uint32.size ≤ r.Reader.length
  · rw [ReadNumber_enough _ _ hlen] at h
    simp only [Outcome.ret.injEq, true_and] at h
    rw [← h.1, decode_unsigned NumKind.uint32 rfl]
    have hw := weighted_lt r.ByteOrder (r.Reader.take NumKind.uint32.size)
    have hl : (r.Reader.take NumKind.uint32.size).length = 4 := by
      simp only [List.length_take, NumKind.size] at hlen ⊢
      omega
    rw [hl] at hw
    constructor
    · exact Int.natCast_nonneg _
    · have : (256 : Nat) ^ 4 = 4294967296 := by norm_num
      omega
  · rw [ReadNumber_short _ _ (by omega)] at h
    simp at h

theorem within_ReadQBitArray (r : Reader) : (ReadQBitArray r).within r.Reader.length := by
  unfold ReadQBitArray ReadUint32
  rcases within_ret_cases _ _ (within_ReadNumber .uint32 r) with
    ⟨val, r1, h, hl⟩ | ⟨val, e, r1, h, hl⟩ | h
  · have hv := ReadNumber_uint32_lt r r1 val h
    rw [h]
    dsimp only
    by_cases hb : (val.toNat + 7) % 4294967296 / 8 ≤ r1.Reader.length
    · rw [binaryRead_enough _ _ hb]
      dsimp only
      have hbuf : (r1.Reader.take ((val.toNat + 7) % 4294967296 / 8)).length ≤ 536870911 := by
        rw [List.length_take]; omega
      have hloop : bitArrayLoop (r1.Reader.take ((val.toNat + 7) % 4294967296 / 8))
          { r1 with Reader := r1.Reader.drop ((val.toNat + 7) % 4294967296 / 8) }
          (val.toNat + 2) (dec32 val.toNat) (List.replicate val.toNat false) = .panic := by
        by_cases h0 : val.toNat = 0
        · have hd : dec32 val.toNat = 4294967295 := by simp [dec32, h0]
          rw [hd]
          exact bitArrayLoop_last _ _ hbuf (val.toNat + 2) _ (by omega)
        · have hd : dec32 val.toNat = val.toNat - 1 := by simp [dec32, h0]
          rw [hd]
          exact bitArrayLoop_panics _ _ hbuf (val.toNat - 1) (val.toNat + 2) _ (by omega)
      rw [hloop]
      trivial
    · rw [binaryRead_short _ _ (by omega)]
      exact Nat.zero_le _
  · rw [h]; exact hl
  · rw [h]; trivial

theorem within_ReadQUuid (r : Reader) : (ReadQUuid r).within r.Reader.length := by
  simp only [ReadQUuid, Outcome.within, List.length_drop]
  omega

theorem within_ReadQDate (r : Reader) : (ReadQDate r).within r.Reader.length := by
  unfold ReadQDate ReadUint64
  rcases within_ret_cases _ _ (within_ReadNumber .uint64 r) with
    ⟨val, r1, h, hl⟩ | ⟨val, e, r1, h, hl⟩ | h <;> simp_all [Outcome.within]

theorem within_ReadQTime (r : Reader) : (ReadQTime r).within r.Reader.length := by
  unfold ReadQTime ReadUint32
  rcases within_ret_cases _ _ (within_ReadNumber .uint32 r) with
    ⟨val, r1, h, hl⟩ | ⟨val, e, r1, h, hl⟩ | h <;> simp_all [Outcome.within]

theorem within_ReadQDateTime (Local : Location) (r : Reader) :
    (ReadQDateTime Local r).within r.Reader.length := by
  unfold ReadQDateTime
  rcases within_ret_cases _ _ (within_ReadQDate r) with
    ⟨d, r1, h, hl⟩ | ⟨d, e, r1, h, hl⟩ | h
  · rw [h]
    dsimp only
    rcases within_ret_cases _ _ (within_ReadQTime r1) with
      ⟨t, r2, h2, hl2⟩ | ⟨t, e, r2, h2, hl2⟩ | h2
    · rw [h2]
      dsimp only
      rcases within_ret_cases _ _ (within_ReadNumber .uint8 r2) with
        ⟨u, r3, h3, hl3⟩ | ⟨u, e, r3, h3, hl3⟩ | h3
      · rw [ReadUint8, h3]; exact le_trans hl3 (le_trans hl2 hl)
      · rw [ReadUint8, h3]; exact le_trans hl3 (le_trans hl2 hl)
      · rw [ReadUint8, h3]; trivial
    · rw [h2]; exact le_trans hl2 hl
    · rw [h2]; trivial
  · rw [h]; exact hl
  · rw [h]; trivial

theorem within_ReadQUrl (urlFails : GoString → Bool) (r : Reader) :
    (ReadQUrl urlFails r).within r.Reader.length := by
  unfold ReadQUrl
  rcases within_ret_cases _ _ (within_ReadQString r) with
    ⟨s, r1, h, hl⟩ | ⟨s, e, r1, h, hl⟩ | h
  · rw [h]
    dsimp only
    split_ifs <;> exact hl
  · rw [h]; exact hl
  · rw [h]; trivial

theorem within_stringListLoop (n : Nat) (r : Reader) (acc : List GoString) :
    (stringListLoop n r acc).within r.Reader.length := by
  induction n generalizing r acc with
  | zero => exact le_refl _
  | succ n ih =>
    unfold stringListLoop
    rcases within_ret_cases _ _ (within_ReadQString r) with
      ⟨s, r1, h, hl⟩ | ⟨s, e, r1, h, hl⟩ | h
    · rw [h]; exact within_mono _ _ _ hl (ih r1 _)
    · rw [h]; exact hl
    · rw [h]; trivial

theorem within_ReadQStringQStringList (r : Reader) :
    (ReadQStringQStringList r).within r.Reader.length := by
  unfold ReadQStringQStringList ReadUint32
  rcases within_ret_cases _ _ (within_ReadNumber .uint32 r) with
    ⟨val, r1, h, hl⟩ | ⟨val, e, r1, h, hl⟩ | h
  · rw [h]; exact within_mono _ _ _ hl (within_stringListLoop _ r1 _)
  · rw [h]; exact hl
  · rw [h]; trivial

theorem within_payload {α : Type} (B : Nat) (t : Int) (f : α → Value) (o : Outcome α)
    (h : o.within B) : (payload t f o).within B := by
  cases o with
  | ret val err r => exact h
  | panic => trivial
  | fuel => exact h

theorem within_variantListLoop (rv : Reader → Outcome (QMetaType × Value)) (B : Nat)
    (hrv : ∀ r, r.Reader.length ≤ B → (rv r).within r.Reader.length) (n : Nat) :
    ∀ (r : Reader) (acc : List Value), r.Reader.length ≤ B →
      (variantListLoop rv n r acc).within r.Reader.length := by
  induction n with
  | zero => intro r acc _; exact le_refl _
  | succ n ih =>
    intro r acc hr
    unfold variantListLoop
    rcases within_ret_cases _ _ (hrv r hr) with ⟨x, r1, h, hl⟩ | ⟨x, e, r1, h, hl⟩ | h
    · rw [h]; exact within_mono _ _ _ hl (ih r1 _ (le_trans hl hr))
    · rw [h]; exact hl
    · rw [h]; trivial

theorem within_variantMapLoop (rv : Reader → Outcome (QMetaType × Value)) (B : Nat)
    (hrv : ∀ r, r.Reader.length ≤ B → (rv r).within r.Reader.length) (n : Nat) :
    ∀ (r : Reader) (m : List (GoString × Value)), r.Reader.length ≤ B →
      (variantMapLoop rv n r m).within r.Reader.length := by
  induction n with
  | zero => intro r m _; exact le_refl _
  | succ n ih =>
    intro r m hr
    unfold variantMapLoop
    rcases within_ret_cases _ _ (within_ReadQString r) with ⟨k, r1, h, hl⟩ | ⟨k, e, r1, h, hl⟩ | h
    · rw [h]
      dsimp only
      rcases within_ret_cases _ _ (hrv r1 (le_trans hl hr)) with
        ⟨x, r2, h2, hl2⟩ | ⟨x, e, r2, h2, hl2⟩ | h2
      · rw [h2]
        exact within_mono _ _ _ (le_trans hl2 hl) (ih r2 _ (le_trans hl2 (le_trans hl hr)))
      · rw [h2]; exact le_trans hl2 hl
      · rw [h2]; trivial
    · rw [h]; exact hl
    · rw [h]; trivial

theorem within_readQStringQVariantList (rv : Reader → Outcome (QMetaType × Value)) (B : Nat)
    (hrv : ∀ r, r.Reader.length ≤ B → (rv r).within r.Reader.length) (r : Reader)
    (hr : r.Reader.length ≤ B) : (readQStringQVariantList rv r).within r.Reader.length := by
  unfold readQStringQVariantList ReadUint32
  rcases within_ret_cases _ _ (within_ReadNumber .uint32 r) with
    ⟨val, r1, h, hl⟩ | ⟨val, e, r1, h, hl⟩ | h
  · rw [h]
    exact within_mono _ _ _ hl (within_variantListLoop rv B hrv _ r1 _ (le_trans hl hr))
  · rw [h]; exact hl
  · rw [h]; trivial

theorem within_readQStringQVariantAssociative (rv : Reader → Outcome (QMetaType × Value))
    (B : Nat) (hrv : ∀ r, r.Reader.length ≤ B → (rv r).within r.Reader.length) (r : Reader)
    (hr : r.Reader.length ≤ B) :
    (readQStringQVariantAssociative rv r).within r.Reader.length := by
  unfold readQStringQVariantAssociative ReadUint32
  rcases within_ret_cases _ _ (within_ReadNumber .uint32 r) with
    ⟨val, r1, h, hl⟩ | ⟨val, e, r1, h, hl⟩ | h
  · rw [h]
    exact within_mono _ _ _ hl (within_variantMapLoop rv B hrv _ r1 _ (le_trans hl hr))
  · rw [h]; exact hl
  · rw [h]; trivial

theorem within_ite {α : Type} (B : Nat) (c : Prop) [Decidable c] (a b : Outcome α)
    (ha : a.within B) (hb : b.within B) : (if c then a else b).within B := by
  split_ifs
  · exact ha
  · exact hb

theorem within_variantSwitch (urlFails : GoString → Bool) (Local : Location)
    (rv : Reader → Outcome (QMetaType × Value)) (B : Nat)
    (hrv : ∀ r, r.Reader.length ≤ B → (rv r).within r.Reader.length) (t : Int) (r2 : Reader)
    (hr : r2.Reader.length ≤ B) : (variantSwitch urlFails Local rv t r2).within r2.Reader.length := by
  unfold variantSwitch
  refine within_ite _ _ _ _ (within_payload _ _ _ _ (within_ReadBool _)) ?_
  refine within_ite _ _ _ _ (within_payload _ _ _ _ (within_ReadNumber _ _)) ?_
  refine within_ite _ _ _ _ (within_payload _ _ _ _ (within_ReadNumber _ _)) ?_
  refine within_ite _ _ _ _ (within_payload _ _ _ _ (within_ReadNumber _ _)) ?_
  refine within_ite _ _ _ _ (within_payload _ _ _ _ (within_ReadNumber _ _)) ?_
  refine within_ite _ _ _ _ (within_payload _ _ _ _ (within_ReadDouble _)) ?_
  refine within_ite _ _ _ _ (within_payload _ _ _ _ (within_ReadFloat _)) ?_
  refine within_ite _ _ _ _ (within_payload _ _ _ _ (within_ReadNumber _ _)) ?_
  refine within_ite _ _ _ _ (within_payload _ _ _ _ (within_ReadNumber _ _)) ?_
  refine within_ite _ _ _ _ (within_payload _ _ _ _ (within_ReadNumber _ _)) ?_
  refine within_ite _ _ _ _ (within_payload _ _ _ _ (within_ReadNumber _ _)) ?_
  refine within_ite _ _ _ _ (within_payload _ _ _ _ (within_ReadQBitArray _)) ?_
  refine within_ite _ _ _ _
    (within_payload _ _ _ _ (within_readQStringQVariantAssociative rv B hrv r2 hr)) ?_
  refine within_ite _ _ _ _ (within_payload _ _ _ _ (within_ReadQUuid _)) ?_
  refine within_ite _ _ _ _
    (within_payload _ _ _ _ (within_readQStringQVariantList rv B hrv r2 hr)) ?_
  refine within_ite _ _ _ _ (within_payload _ _ _ _ (within_ReadQByteArray _)) ?_
  refine within_ite _ _ _ _ (within_payload _ _ _ _ (within_ReadQString _)) ?_
  refine within_ite _ _ _ _ (within_payload _ _ _ _ (within_ReadQStringQStringList _)) ?_
  refine within_ite _ _ _ _ (within_payload _ _ _ _ (within_ReadQDate _)) ?_
  refine within_ite _ _ _ _ (within_payload _ _ _ _ (within_ReadQTime _)) ?_
  refine within_ite _ _ _ _ (within_payload _ _ _ _ (within_ReadQDateTime Local _)) ?_
  refine within_ite _ _ _ _ (within_payload _ _ _ _ (within_ReadQUrl urlFails _)) ?_
  exact le_refl _

/-- The header of a variant: the outcome of `ReadQVariant` is fixed by the two
reads of the header, or it is that of the switch on a reader with at least
five bytes fewer. -/
theorem readQVariant_step (urlFails : GoString → Bool) (Local : Location) (r : Reader) :
    (∃ (x : QMetaType × Value) (err : Option GoError) (r1 : Reader),
        r1.Reader.length ≤ r.Reader.length ∧
        ∀ d, readQVariant urlFails Local (d + 1) r = .ret x err r1) ∨
      (∃ (t : Int) (r2 : Reader), r2.Reader.length + 5 = r.Reader.length ∧
        ∀ d, readQVariant urlFails Local (d + 1) r =
          variantSwitch urlFails Local (readQVariant urlFails Local d) t r2) := by
  rcases within_ret_cases _ _ (within_ReadNumber .uint32 r) with
    ⟨t, r1, h, hl⟩ | ⟨t, e, r1, h, hl⟩ | h
  · have h4 := ReadNumber_ok_length _ _ _ _ h
    rcases within_ret_cases _ _ (within_ReadBool r1) with
      ⟨b, r2, h2, hl2⟩ | ⟨b, e, r2, h2, hl2⟩ | h2
    · have h1 := ReadBool_ok_length _ _ _ h2
      cases b
      · right
        refine ⟨t, r2, by simp only [NumKind.size] at h4; omega, fun d => ?_⟩
        simp only [readQVariant, ReadUint32, h, h2]
      · left
        refine ⟨(t, .nil), none, r2, le_trans hl2 hl, fun d => ?_⟩
        simp only [readQVariant, ReadUint32, h, h2]
    · left
      refine ⟨(0, .nil), some e, r2, le_trans hl2 hl, fun d => ?_⟩
      cases b <;> simp only [readQVariant, ReadUint32, h, h2]
    · exact absurd h2 (by unfold ReadBool; split <;> simp)
  · left
    refine ⟨(0, .nil), some e, r1, hl, fun d => ?_⟩
    simp only [readQVariant, ReadUint32, h]
  · exact absurd h (by unfold ReadNumber; split <;> simp)

theorem within_readQVariant (urlFails : GoString → Bool) (Local : Location) (depth : Nat) :
    ∀ r : Reader, r.Reader.length < depth →
      (readQVariant urlFails Local depth r).within r.Reader.length := by
  induction depth with
  | zero => intro r hr; exact absurd hr (Nat.not_lt_zero _)
  | succ d ih =>
    intro r hr
    rcases readQVariant_step urlFails Local r with ⟨x, err, r1, hl, h⟩ | ⟨t, r2, hl, h⟩
    · rw [h d]; exact hl
    · rw [h d]
      refine within_mono _ _ _ (by omega)
        (within_variantSwitch urlFails Local _ r2.Reader.length (fun r3 h3 => ih r3 (by omega)) t r2
          (le_refl _))

theorem variantListLoop_congr (rv rv2 : Reader → Outcome (QMetaType × Value)) (B : Nat)
    (heq : ∀ r, r.Reader.length ≤ B → rv r = rv2 r)
    (hrv : ∀ r, r.Reader.length ≤ B → (rv r).within r.Reader.length) (n : Nat) :
    ∀ (r : Reader) (acc : List Value), r.Reader.length ≤ B →
      variantListLoop rv n r acc = variantListLoop rv2 n r acc := by
  induction n with
  | zero => intro r acc _; rfl
  | succ n ih =>
    intro r acc hr
    unfold variantListLoop
    rw [← heq r hr]
    rcases within_ret_cases _ _ (hrv r hr) with ⟨x, r1, h, hl⟩ | ⟨x, e, r1, h, hl⟩ | h
    · rw [h]; exact ih r1 _ (le_trans hl hr)
    · rw [h]
    · rw [h]

theorem variantMapLoop_congr (rv rv2 : Reader → Outcome (QMetaType × Value)) (B : Nat)
    (heq : ∀ r, r.Reader.length ≤ B → rv r = rv2 r)
    (hrv : ∀ r, r.Reader.length ≤ B → (rv r).within r.Reader.length) (n : Nat) :
    ∀ (r : Reader) (m : List (GoString × Value)), r.Reader.length ≤ B →
      variantMapLoop rv n r m = variantMapLoop rv2 n r m := by
  induction n with
  | zero => intro r m _; rfl
  | succ n ih =>
    intro r m hr
    unfold variantMapLoop
    rcases within_ret_cases _ _ (within_ReadQString r) with ⟨k, r1, h, hl⟩ | ⟨k, e, r1, h, hl⟩ | h
    · rw [h]
      dsimp only
      rw [← heq r1 (le_trans hl hr)]
      rcases within_ret_cases _ _ (hrv r1 (le_trans hl hr)) with
        ⟨x, r2, h2, hl2⟩ | ⟨x, e, r2, h2, hl2⟩ | h2
      · rw [h2]; exact ih r2 _ (le_trans hl2 (le_trans hl hr))
      · rw [h2]
      · rw [h2]
    · rw [h]
    · rw [h]

theorem readQStringQVariantList_congr (rv rv2 : Reader → Outcome (QMetaType × Value)) (B : Nat)
    (heq : ∀ r, r.Reader.length ≤ B → rv r = rv2 r)
    (hrv : ∀ r, r.Reader.length ≤ B → (rv r).within r.Reader.length) (r : Reader)
    (hr : r.Reader.length ≤ B) :
    readQStringQVariantList rv r = readQStringQVariantList rv2 r := by
  unfold readQStringQVariantList ReadUint32
  rcases within_ret_cases _ _ (within_ReadNumber .uint32 r) with
    ⟨val, r1, h, hl⟩ | ⟨val, e, r1, h, hl⟩ | h
  · rw [h]; exact variantListLoop_congr rv rv2 B heq hrv _ r1 _ (le_trans hl hr)
  · rw [h]
  · rw [h]

theorem readQStringQVariantAssociative_congr (rv rv2 : Reader → Outcome (QMetaType × Value))
    (B : Nat) (heq : ∀ r, r.Reader.length ≤ B → rv r = rv2 r)
    (hrv : ∀ r, r.Reader.length ≤ B → (rv r).within r.Reader.length) (r : Reader)
    (hr : r.Reader.length ≤ B) :
    readQStringQVariantAssociative rv r = readQStringQVariantAssociative rv2 r := by
  unfold readQStringQVariantAssociative ReadUint32
  rcases within_ret_cases _ _ (within_ReadNumber .uint32 r) with
    ⟨val, r1, h, hl⟩ | ⟨val, e, r1, h, hl⟩ | h
  · rw [h]; exact variantMapLoop_congr rv rv2 B heq hrv _ r1 _ (le_trans hl hr)
  · rw [h]
  · rw [h]

theorem variantSwitch_congr (urlFails : GoString → Bool) (Local : Location)
    (rv rv2 : Reader → Outcome (QMetaType × Value)) (B : Nat)
    (heq : ∀ r, r.Reader.length ≤ B → rv r = rv2 r)
    (hrv : ∀ r, r.Reader.length ≤ B → (rv r).within r.Reader.length) (t : Int) (r2 : Reader)
    (hr : r2.Reader.length ≤ B) :
    variantSwitch urlFails Local rv t r2 = variantSwitch urlFails Local rv2 t r2 := by
  unfold variantSwitch
  rw [readQStringQVariantList_congr rv rv2 B heq hrv r2 hr,
    readQStringQVariantAssociative_congr rv rv2 B heq hrv r2 hr]

theorem readQVariant_depth (urlFails : GoString → Bool) (Local : Location) (d : Nat) :
    ∀ (d2 : Nat) (r : Reader), r.Reader.length < d → r.Reader.length < d2 →
      readQVariant urlFails Local d r = readQVariant urlFails Local d2 r := by
  induction d with
  | zero => intro d2 r hr; exact absurd hr (Nat.not_lt_zero _)
  | succ e ih =>
    intro d2 r hr hr2
    obtain ⟨e2, rfl⟩ : ∃ e2, d2 = e2 + 1 := ⟨d2 - 1, by omega⟩
    rcases readQVariant_step urlFails Local r with ⟨x, err, r1, hl, h⟩ | ⟨t, r2, hl, h⟩
    · rw [h e, h e2]
    · rw [h e, h e2]
      exact variantSwitch_congr urlFails Local _ _ r2.Reader.length
        (fun r3 h3 => ih e2 r3 (by omega) (by omega))
        (fun r3 h3 => within_readQVariant urlFails Local e r3 (by omega)) t r2 (le_refl _)

theorem readQVariant_eq_ReadQVariant (urlFails : GoString → Bool) (Local : Location)
    (d : Nat) (r : Reader)
    (h : r.Reader.length < d) : readQVariant urlFails Local d r = ReadQVariant urlFails Local r :=
  readQVariant_depth urlFails Local d _ r h (Nat.lt_succ_self _)

theorem within_ReadQVariant (urlFails : GoString → Bool) (Local : Location) (r : Reader) :
    (ReadQVariant urlFails Local r).within r.Reader.length :=
  within_readQVariant urlFails Local _ r (Nat.lt_succ_self _)

theorem ReadQStringQVariantList_eq (urlFails : GoString → Bool) (Local : Location) (r : Reader) :
    ReadQStringQVariantList urlFails Local r = readQStringQVariantList (ReadQVariant urlFails Local) r :=
  readQStringQVariantList_congr _ _ r.Reader.length
    (fun r3 h3 => readQVariant_eq_ReadQVariant urlFails Local _ r3 (by omega))
    (fun r3 h3 => within_readQVariant urlFails Local _ r3 (by omega)) r (le_refl _)

theorem ReadQStringQVariantAssociative_eq (urlFails : GoString → Bool) (Local : Location)
    (r : Reader) :
    ReadQStringQVariantAssociative urlFails Local r =
      readQStringQVariantAssociative (ReadQVariant urlFails Local) r :=
  readQStringQVariantAssociative_congr _ _ r.Reader.length
    (fun r3 h3 => readQVariant_eq_ReadQVariant urlFails Local _ r3 (by omega))
    (fun r3 h3 => within_readQVariant urlFails Local _ r3 (by omega)) r (le_refl _)

theorem variantListLoop_wellFormed (urlFails : GoString → Bool) (Local : Location) (n : Nat) :
    ∀ (r : Reader) (acc vs : List Value) (r2 : Reader),
      wellFormedVariants urlFails Local n r = some (vs, r2) →
      variantListLoop (ReadQVariant urlFails Local) n r acc = .ret (some (acc ++ vs)) none r2 ∧
        vs.length = n := by
  induction n with
  | zero =>
    intro r acc vs r2 h
    simp only [wellFormedVariants, Option.some.injEq, Prod.mk.injEq] at h
    obtain ⟨rfl, rfl⟩ := h
    simp [variantListLoop]
  | succ n ih =>
    intro r acc vs r2 h
    unfold wellFormedVariants at h
    unfold variantListLoop
    generalize ReadQVariant urlFails Local r = res at h
    cases res with
    | ret x err r1 =>
      obtain ⟨t, v⟩ := x
      cases err with
      | some e => simp at h
      | none =>
        dsimp only at h ⊢
        cases hw : wellFormedVariants urlFails Local n r1 with
        | none => simp [hw] at h
        | some p =>
          obtain ⟨vs1, r3⟩ := p
          simp only [hw, Option.some.injEq, Prod.mk.injEq] at h
          obtain ⟨rfl, rfl⟩ := h
          have := ih r1 (acc ++ [v]) vs1 r3 hw
          simp only [List.append_assoc, List.singleton_append] at this
          exact ⟨this.1, by simp [this.2]⟩
    | panic => simp at h
    | fuel => simp at h

theorem variantListLoop_fails (urlFails : GoString → Bool) (Local : Location) (k : Nat) :
    ∀ (n : Nat) (r : Reader) (acc vs : List Value) (rk r2 : Reader) (x : QMetaType × Value)
      (err : GoError), k < n → wellFormedVariants urlFails Local k r = some (vs, rk) →
      ReadQVariant urlFails Local rk = .ret x (some err) r2 →
      variantListLoop (ReadQVariant urlFails Local) n r acc = .ret none (some err) r2 := by
  induction k with
  | zero =>
    intro n r acc vs rk r2 x err hk h hf
    obtain ⟨n, rfl⟩ : ∃ m, n = m + 1 := ⟨n - 1, by omega⟩
    simp only [wellFormedVariants, Option.some.injEq, Prod.mk.injEq] at h
    obtain ⟨_, rfl⟩ := h
    simp only [variantListLoop, hf]
  | succ k ih =>
    intro n r acc vs rk r2 x err hk h hf
    obtain ⟨n, rfl⟩ : ∃ m, n = m + 1 := ⟨n - 1, by omega⟩
    unfold wellFormedVariants at h
    unfold variantListLoop
    generalize ReadQVariant urlFails Local r = res at h
    cases res with
    | ret y e r1 =>
      obtain ⟨t, v⟩ := y
      cases e with
      | some e => simp at h
      | none =>
        dsimp only at h ⊢
        cases hw : wellFormedVariants urlFails Local k r1 with
        | none => simp [hw] at h
        | some p =>
          obtain ⟨vs1, r3⟩ := p
          simp only [hw, Option.some.injEq, Prod.mk.injEq] at h
          obtain ⟨_, rfl⟩ := h
          exact ih n r1 _ vs1 r3 r2 x err (by omega) hw hf
    | panic => simp at h
    | fuel => simp at h

theorem wellFormedVariants_element (urlFails : GoString → Bool) (Local : Location) (n : Nat) :
    ∀ (r : Reader) (vs : List Value) (r2 : Reader),
      wellFormedVariants urlFails Local n r = some (vs, r2) →
      ∀ i, i < n → ∃ (ri : Reader) (t : QMetaType) (val : Value) (ri2 : Reader),
        wellFormedVariants urlFails Local i r = some (vs.take i, ri) ∧
        ReadQVariant urlFails Local ri = .ret (t, val) none ri2 ∧ vs.get? i = some val := by
  induction n with
  | zero => intro r vs r2 _ i hi; exact absurd hi (Nat.not_lt_zero _)
  | succ n ih =>
    intro r vs r2 h i hi
    unfold wellFormedVariants at h
    cases hres : ReadQVariant urlFails Local r with
    | ret x err r1 =>
      obtain ⟨t, v⟩ := x
      rw [hres] at h
      cases err with
      | some e => simp at h
      | none =>
        dsimp only at h
        cases hw : wellFormedVariants urlFails Local n r1 with
        | none => simp [hw] at h
        | some p =>
          obtain ⟨vs1, r3⟩ := p
          simp only [hw, Option.some.injEq, Prod.mk.injEq] at h
          obtain ⟨rfl, rfl⟩ := h
          cases i with
          | zero => exact ⟨r, t, v, r1, by simp [wellFormedVariants], hres, by simp⟩
          | succ i =>
            obtain ⟨ri, t2, val, ri2, h1, h2, h3⟩ := ih r1 vs1 r3 hw i (by omega)
            refine ⟨ri, t2, val, ri2, ?_, h2, by simpa using h3⟩
            simp only [wellFormedVariants, hres, h1, List.take_succ_cons]
    | panic => rw [hres] at h; simp at h
    | fuel => rw [hres] at h; simp at h

theorem ReadQStringQVariantList_encode (urlFails : GoString → Bool) (Local : Location)
    (o : ByteOrder) (v : Int)
    (dp : Bool) (n : Nat) (hn : n < 4294967296) (body : List Byte) :
    ReadQStringQVariantList urlFails Local ⟨encodeUint o 4 n ++ body, o, v, dp⟩ =
      variantListLoop (ReadQVariant urlFails Local) n ⟨body, o, v, dp⟩ [] := by
  rw [ReadQStringQVariantList_eq]
  simp only [readQStringQVariantList, ReadUint32_encode o n hn body v dp, Int.toNat_ofNat]

/-- C13: for every count `n` and every source that holds the four bytes of `n` and
then `n` well-formed variants, `ReadQStringQVariantList` returns, with no error, the
sequence of `n` elements whose element `i` is the payload that `ReadQVariant`
returns for the variant `i` of the stream, and it leaves the reader where the
last of them ends; when the first `k < n` variants are well formed and
`ReadQVariant` returns an error for the next one, the call returns that error
and the nil slice. -/
theorem readQStringQVariantList_spec (urlFails : GoString → Bool) (Local : Location)
    (o : ByteOrder) (v : Int)
    (dp : Bool) (n : Nat) (hn : n < 4294967296) (body : List Byte) :
    (∀ (vs : List Value) (r2 : Reader),
      wellFormedVariants urlFails Local n ⟨body, o, v, dp⟩ = some (vs, r2) →
      ReadQStringQVariantList urlFails Local ⟨encodeUint o 4 n ++ body, o, v, dp⟩ =
          .ret (some vs) none r2 ∧
        vs.length = n ∧
        ∀ i, i < n → ∃ (ri : Reader) (t : QMetaType) (val : Value) (ri2 : Reader),
          wellFormedVariants urlFails Local i ⟨body, o, v, dp⟩ = some (vs.take i, ri) ∧
          ReadQVariant urlFails Local ri = .ret (t, val) none ri2 ∧ vs.get? i = some val) ∧
    (∀ (k : Nat) (vs : List Value) (rk r2 : Reader) (x : QMetaType × Value) (err : GoError),
      k < n → wellFormedVariants urlFails Local k ⟨body, o, v, dp⟩ = some (vs, rk) →
      ReadQVariant urlFails Local rk = .ret x (some err) r2 →
      ReadQStringQVariantList urlFails Local ⟨encodeUint o 4 n ++ body, o, v, dp⟩ =
        .ret none (some err) r2) := by
  constructor
  · intro vs r2 h
    have hl := variantListLoop_wellFormed urlFails Local n _ [] vs r2 h
    rw [ReadQStringQVariantList_encode urlFails Local o v dp n hn body]
    exact ⟨by simpa using hl.1, hl.2, wellFormedVariants_element urlFails Local n _ vs r2 h⟩
  · intro k vs rk r2 x err hk h hf
    rw [ReadQStringQVariantList_encode urlFails Local o v dp n hn body]
    exact variantListLoop_fails urlFails Local k n _ [] vs rk r2 x err hk h hf

theorem readQStringQVariantList_spec_witness :
    (ReadQStringQVariantList (fun _ => false) Location.UTC
          ⟨encodeUint .BigEndian 4 3 ++
            [0, 0, 0, 2, 0, 0, 0, 0, 5, 0, 0, 0, 10, 1, 0, 0, 0, 1, 0, 1, 9],
            .BigEndian, 19, false⟩ =
        .ret (some [Value.int32 5, Value.nil, Value.bool true]) none ⟨[9], .BigEndian, 19, false⟩ ∧
      [Value.int32 5, Value.nil, Value.bool true].length = 3) ∧
    ReadQStringQVariantList (fun _ => false) Location.UTC
        ⟨encodeUint .BigEndian 4 2 ++ [0, 0, 0, 1, 0, 1, 0, 0, 0, 19, 0, 7],
          .BigEndian, 19, false⟩ =
      .ret none (some (.unimplementedType 19)) ⟨[7], .BigEndian, 19, false⟩ :=
  ⟨⟨((readQStringQVariantList_spec (fun _ => false) Location.UTC .BigEndian 19 false 3 (by decide)
        [0, 0, 0, 2, 0, 0, 0, 0, 5, 0, 0, 0, 10, 1, 0, 0, 0, 1, 0, 1, 9]).1
        [Value.int32 5, Value.nil, Value.bool true] ⟨[9], .BigEndian, 19, false⟩ rfl).1,
      ((readQStringQVariantList_spec (fun _ => false) Location.UTC .BigEndian 19 false 3 (by decide)
        [0, 0, 0, 2, 0, 0, 0, 0, 5, 0, 0, 0, 10, 1, 0, 0, 0, 1, 0, 1, 9]).1
        [Value.int32 5, Value.nil, Value.bool true] ⟨[9], .BigEndian, 19, false⟩ rfl).2.1⟩,
    (readQStringQVariantList_spec (fun _ => false) Location.UTC .BigEndian 19 false 2 (by decide)
      [0, 0, 0, 1, 0, 1, 0, 0, 0, 19, 0, 7]).2 1 [Value.bool true]
      ⟨[0, 0, 0, 19, 0, 7], .BigEndian, 19, false⟩ ⟨[7], .BigEndian, 19, false⟩ (19, Value.nil)
      (.unimplementedType 19) (by decide) rfl rfl⟩

theorem mapSet_any (m : List (GoString × Value)) (k : GoString) :
    (m.any (fun e => decide (e.1 = k))) = true ↔ k ∈ m.map Prod.fst := by
  simp only [List.any_eq_true, decide_eq_true_eq, List.mem_map]

theorem mapSet_keys (m : List (GoString × Value)) (k : GoString) (v : Value) :
    (mapSet m k v).map Prod.fst =
      if k ∈ m.map Prod.fst then m.map Prod.fst else m.map Prod.fst ++ [k] := by
  have hany := mapSet_any m k
  unfold mapSet
  by_cases h : k ∈ m.map Prod.fst
  · rw [if_pos (hany.mpr h), if_pos h, List.map_map]
    apply List.map_congr_left
    intro e _
    by_cases he : e.1 = k
    · simp [he]
    · simp [he]
  · rw [if_neg (fun h2 => h (hany.mp h2)), if_neg h]
    simp

theorem mapGet_mapSet (m : List (GoString × Value)) (k : GoString) (v : Value) (k2 : GoString) :
    mapGet (mapSet m k v) k2 = if k2 = k then some v else mapGet m k2 := by
  have hrep : ∀ m : List (GoString × Value),
      mapGet (m.map (fun e => if e.1 = k then (k, v) else e)) k2 =
        if k2 = k then (if k ∈ m.map Prod.fst then some v else none) else mapGet m k2 := by
    intro m
    induction m with
    | nil => simp [mapGet]
    | cons e rest ih =>
      simp only [mapGet] at ih ⊢
      by_cases he : e.1 = k
      · by_cases hk : k2 = k
        · subst hk; simp [he]
        · have hk2 : ¬(k = k2) := fun h => hk h.symm
          have hk3 : ¬(e.1 = k2) := fun h => hk (h.symm.trans he)
          simp only [List.map_cons, he, if_true, List.find?_cons, hk2, decide_False, hk3, hk,
            if_false] at ih ⊢
          exact ih
      · by_cases hk : k2 = k
        · subst hk
          have he2 : ¬(k2 = e.1) := fun h => he h.symm
          simp only [List.map_cons, he, if_false, List.find?_cons, decide_False, if_true,
            List.mem_cons, he2, false_or] at ih ⊢
          exact ih
        · by_cases hek : e.1 = k2
          · simp [he, hek, hk]
          · simp only [List.map_cons, he, if_false, List.find?_cons, hek, decide_False, hk] at ih ⊢
            exact ih
  have happ : ∀ m : List (GoString × Value), k ∉ m.map Prod.fst →
      mapGet (m ++ [(k, v)]) k2 = if k2 = k then some v else mapGet m k2 := by
    intro m
    induction m with
    | nil =>
      intro _
      by_cases hk : k2 = k
      · subst hk; simp [mapGet]
      · have hk2 : ¬(k = k2) := fun h => hk h.symm
        simp [mapGet, hk, hk2]
    | cons e rest ih =>
      intro hne
      simp only [List.map_cons, List.mem_cons, not_or] at hne
      have ih2 := ih hne.2
      simp only [mapGet] at ih2 ⊢
      by_cases hek : e.1 = k2
      · have hk : ¬(k2 = k) := fun h => hne.1 (h.symm.trans hek.symm)
        simp [hek, hk]
      · simp only [List.cons_append, List.find?_cons, hek, decide_False]
        exact ih2
  have hany := mapSet_any m k
  unfold mapSet
  by_cases h : k ∈ m.map Prod.fst
  · rw [if_pos (hany.mpr h), hrep m]
    simp [h]
  · rw [if_neg (fun h2 => h (hany.mp h2)), happ m h]

theorem mapSet_nodup (m : List (GoString × Value)) (k : GoString) (v : Value)
    (h : (m.map Prod.fst).Nodup) : ((mapSet m k v).map Prod.fst).Nodup := by
  rw [mapSet_keys]
  split_ifs with hk
  · exact h
  · rw [List.nodup_append]
    refine ⟨h, List.nodup_singleton k, ?_⟩
    intro a ha hb
    simp only [List.mem_singleton] at hb
    subst hb
    exact hk ha

theorem mapSet_mem_keys (m : List (GoString × Value)) (k : GoString) (v : Value) (k2 : GoString) :
    k2 ∈ (mapSet m k v).map Prod.fst ↔ k2 ∈ m.map Prod.fst ∨ k2 = k := by
  rw [mapSet_keys]
  split_ifs with hk
  · constructor
    · exact Or.inl
    · rintro (h | rfl)
      · exact h
      · exact hk
  · simp

theorem assignAll_nodup (pairs : List (GoString × Value)) :
    ∀ m : List (GoString × Value), (m.map Prod.fst).Nodup →
      ((assignAll m pairs).map Prod.fst).Nodup := by
  induction pairs with
  | nil => intro m h; exact h
  | cons p ps ih => intro m h; exact ih _ (mapSet_nodup m p.1 p.2 h)

theorem assignAll_mem_keys (pairs : List (GoString × Value)) (k : GoString) :
    ∀ m : List (GoString × Value),
      k ∈ (assignAll m pairs).map Prod.fst ↔ k ∈ m.map Prod.fst ∨ k ∈ pairs.map Prod.fst := by
  induction pairs with
  | nil => intro m; simp [assignAll]
  | cons p ps ih =>
    intro m
    have := ih (mapSet m p.1 p.2)
    simp only [assignAll, List.foldl_cons] at this ⊢
    rw [this, mapSet_mem_keys]
    simp only [List.map_cons, List.mem_cons]
    tauto

theorem mapGet_append (a b : List (GoString × Value)) (k : GoString) :
    mapGet (a ++ b) k = (mapGet a k).orElse (fun _ => mapGet b k) := by
  simp only [mapGet, List.find?_append]
  cases List.find? (fun e => decide (e.1 = k)) a <;> rfl

theorem assignAll_get (pairs : List (GoString × Value)) (k : GoString) :
    ∀ m : List (GoString × Value),
      mapGet (assignAll m pairs) k = (lastValue pairs k).orElse (fun _ => mapGet m k) := by
  induction pairs with
  | nil => intro m; rfl
  | cons p ps ih =>
    intro m
    have h1 := ih (mapSet m p.1 p.2)
    simp only [assignAll, List.foldl_cons] at h1 ⊢
    rw [h1, mapGet_mapSet]
    simp only [lastValue, List.reverse_cons, mapGet_append]
    cases mapGet ps.reverse k with
    | some x => rfl
    | none =>
      simp only [Option.orElse]
      by_cases hk : k = p.1
      · subst hk; simp [mapGet]
      · have hk2 : ¬(p.1 = k) := fun h => hk h.symm
        simp [mapGet, hk, hk2]

theorem variantMapLoop_wellFormed (urlFails : GoString → Bool) (Local : Location) (n : Nat) :
    ∀ (r : Reader) (m pairs : List (GoString × Value)) (r3 : Reader),
      wellFormedPairs urlFails Local n r = some (pairs, r3) →
      variantMapLoop (ReadQVariant urlFails Local) n r m = .ret (some (assignAll m pairs)) none r3 ∧
        pairs.length = n := by
  induction n with
  | zero =>
    intro r m pairs r3 h
    simp only [wellFormedPairs, Option.some.injEq, Prod.mk.injEq] at h
    obtain ⟨rfl, rfl⟩ := h
    simp [variantMapLoop, assignAll]
  | succ n ih =>
    intro r m pairs r3 h
    unfold wellFormedPairs at h
    unfold variantMapLoop
    generalize ReadQString r = res at h
    cases res with
    | ret k err r1 =>
      cases err with
      | some e => simp at h
      | none =>
        dsimp only at h ⊢
        generalize ReadQVariant urlFails Local r1 = res2 at h
        cases res2 with
        | ret x err2 r2 =>
          obtain ⟨t, v⟩ := x
          cases err2 with
          | some e => simp at h
          | none =>
            dsimp only at h ⊢
            cases hw : wellFormedPairs urlFails Local n r2 with
            | none => simp [hw] at h
            | some p =>
              obtain ⟨ps, r4⟩ := p
              simp only [hw, Option.some.injEq, Prod.mk.injEq] at h
              obtain ⟨rfl, rfl⟩ := h
              have := ih r2 (mapSet m k v) ps r4 hw
              exact ⟨by simpa [assignAll] using this.1, by simp [this.2]⟩
        | panic => simp at h
        | fuel => simp at h
    | panic => simp at h
    | fuel => simp at h

/-- C14: for every count `n` and every source that holds the four bytes of `n` and
then `n` well-formed pairs of a string key and a variant,
`ReadQStringQVariantAssociative` returns, with no error, a map whose keys are
exactly the keys of the pairs, each once, and which has for each key the
payload of the last pair that carries it; it has as many entries as there are
distinct keys. -/
theorem readQStringQVariantAssociative_spec (urlFails : GoString → Bool) (Local : Location)
    (o : ByteOrder)
    (v : Int) (dp : Bool) (n : Nat) (hn : n < 4294967296) (body : List Byte)
    (pairs : List (GoString × Value)) (r3 : Reader)
    (h : wellFormedPairs urlFails Local n ⟨body, o, v, dp⟩ = some (pairs, r3)) :
    ∃ m, ReadQStringQVariantAssociative urlFails Local ⟨encodeUint o 4 n ++ body, o, v, dp⟩ =
        .ret (some m) none r3 ∧
      (∀ k, k ∈ m.map Prod.fst ↔ k ∈ pairs.map Prod.fst) ∧ (m.map Prod.fst).Nodup ∧
      (∀ k, mapGet m k = lastValue pairs k) ∧
      m.length = (pairs.map Prod.fst).dedup.length := by
  have hl := variantMapLoop_wellFormed urlFails Local n _ [] pairs r3 h
  refine ⟨assignAll [] pairs, ?_, ?_, ?_, ?_, ?_⟩
  · rw [ReadQStringQVariantAssociative_eq]
    simp only [readQStringQVariantAssociative, ReadUint32_encode o n hn body v dp,
      Int.toNat_ofNat, hl.1]
  · intro k
    rw [assignAll_mem_keys]
    simp
  · exact assignAll_nodup pairs [] (by simp)
  · intro k
    rw [assignAll_get]
    cases lastValue pairs k <;> rfl
  · have hnd := assignAll_nodup pairs [] (by simp)
    have hperm : List.Perm ((assignAll [] pairs).map Prod.fst) (pairs.map Prod.fst).dedup := by
      rw [List.perm_ext_iff_of_nodup hnd (List.nodup_dedup _)]
      intro k
      rw [assignAll_mem_keys, List.mem_dedup]
      simp
    have := hperm.length_eq
    simpa using this

theorem readQStringQVariantAssociative_spec_witness :
    (∃ m, ReadQStringQVariantAssociative (fun _ => false) Location.UTC
          ⟨encodeUint .BigEndian 4 2 ++
            [0, 0, 0, 2, 0, 0x61, 0, 0, 0, 2, 0, 0, 0, 0, 5,
              0, 0, 0, 2, 0, 0x61, 0, 0, 0, 2, 0, 0, 0, 0, 7, 9], .BigEndian, 19, false⟩ =
        .ret (some m) none ⟨[9], .BigEndian, 19, false⟩ ∧
      (∀ k, k ∈ m.map Prod.fst ↔
        k ∈ ([([0x61], Value.int32 5), ([0x61], Value.int32 7)] :
          List (GoString × Value)).map Prod.fst) ∧
      (m.map Prod.fst).Nodup ∧
      (∀ k, mapGet m k = lastValue [([0x61], Value.int32 5), ([0x61], Value.int32 7)] k) ∧
      m.length = (([([0x61], Value.int32 5), ([0x61], Value.int32 7)] :
        List (GoString × Value)).map Prod.fst).dedup.length) ∧
    ReadQStringQVariantAssociative (fun _ => false) Location.UTC
        ⟨[0, 0, 0, 2, 0, 0, 0, 2, 0, 0x61, 0, 0, 0, 2, 0, 0, 0, 0, 5,
          0, 0, 0, 2, 0, 0x62, 0, 0, 0, 2, 0, 0, 0, 0, 7, 9], .BigEndian, 19, false⟩ =
      .ret (some [([0x61], Value.int32 5), ([0x62], Value.int32 7)]) none
        ⟨[9], .BigEndian, 19, false⟩ :=
  ⟨readQStringQVariantAssociative_spec (fun _ => false) Location.UTC .BigEndian 19 false 2 (by decide)
      [0, 0, 0, 2, 0, 0x61, 0, 0, 0, 2, 0, 0, 0, 0, 5,
        0, 0, 0, 2, 0, 0x61, 0, 0, 0, 2, 0, 0, 0, 0, 7, 9]
      [([0x61], Value.int32 5), ([0x61], Value.int32 7)] ⟨[9], .BigEndian, 19, false⟩ rfl,
    rfl⟩

theorem floordiv_neg_dividend (a b : Int) (ha : a < 0) (ha0 : -9223372036854775808 ≤ a)
    (hb : 0 < b) (hb1 : b < 9223372036854775808)
    (hno : -9223372036854775808 ≤ a - (b - 1)) : floordiv a b = a / b := by
  have hx : sub64 b 1 = b - 1 := sub64_id _ _ (by omega) (by omega)
  have hn : sub64 a (b - 1) = a - (b - 1) := sub64_id _ _ hno (by omega)
  have hq : (b - 1 - a) / b = -(a / b) := by
    have hmod0 : 0 ≤ a % b := Int.emod_nonneg a (by omega)
    have hmod1 : a % b < b := Int.emod_lt_of_pos a hb
    have hdiv := Int.emod_add_ediv a b
    have := (Int.ediv_emod_unique (a := b - 1 - a) (r := b - 1 - a % b) (q := -(a / b)) hb).2
      ⟨by linarith [hdiv], by omega, by omega⟩
    exact this.1
  have ht : (a - (b - 1)).tdiv b = a / b := by
    have e : a - (b - 1) = -(b - 1 - a) := by ring
    rw [e, Int.neg_tdiv, Int.tdiv_eq_ediv (by omega) (le_of_lt hb), hq, neg_neg]
  have hlo : a ≤ a / b := Int.le_ediv_of_mul_le hb (by nlinarith)
  have hhi : a / b < 0 := Int.ediv_lt_of_lt_mul hb (by simpa using ha)
  simp only [floordiv, ha, if_true, hx, hn, div64, ht]
  exact wrap64_id _ (by omega) (by omega)

/-- C21, counterexample: with a negative divisor `floordiv` is not the floored
division: `floordiv(1, -2)` is 0 and `floordiv(-1, -2)` is -1, while the floors
of the quotients are -1 and 0. -/
theorem floordiv_negative_divisor :
    floordiv 1 (-2) = 0 ∧ Int.fdiv 1 (-2) = -1 ∧ floordiv (-1) (-2) = -1 ∧
      Int.fdiv (-1) (-2) = 0 := by
  decide

/-- C21, as amended: for all 64-bit integers `a` and `b` with `b > 0`, when the
subtraction `a - (b - 1)` that `floordiv` makes for a negative `a` does not
wrap around, `floordiv(a, b)` is the floor of `a / b`, whether the dividend is
negative or not. -/
theorem floordiv_eq_fdiv (a b : Int) (ha0 : -9223372036854775808 ≤ a)
    (ha1 : a < 9223372036854775808) (hb : 0 < b) (hb1 : b < 9223372036854775808)
    (hno : a < 0 → -9223372036854775808 ≤ a - (b - 1)) :
    floordiv a b = Int.fdiv a b ∧ Int.fdiv a b * b ≤ a ∧ a < (Int.fdiv a b + 1) * b := by
  have hf : Int.fdiv a b = a / b := fdiv_pos a b hb
  have hmod0 : 0 ≤ a % b := Int.emod_nonneg a (by omega)
  have hmod1 : a % b < b := Int.emod_lt_of_pos a hb
  have hdiv := Int.emod_add_ediv a b
  refine ⟨?_, by rw [hf]; nlinarith, by rw [hf]; nlinarith⟩
  rw [hf]
  by_cases ha : a < 0
  · exact floordiv_neg_dividend a b ha ha0 hb hb1 (hno ha)
  · exact floordiv_nonneg a b (by omega) ha1 hb

theorem floordiv_eq_fdiv_witness :
    floordiv (-7) 2 = -4 ∧ Int.fdiv (-7) 2 * 2 ≤ -7 ∧ (-7 : Int) < (Int.fdiv (-7) 2 + 1) * 2 :=
  ⟨(floordiv_eq_fdiv (-7) 2 (by decide) (by decide) (by decide) (by decide)
      (fun _ => by decide)).1.trans (by decide),
    (floordiv_eq_fdiv (-7) 2 (by decide) (by decide) (by decide) (by decide)
      (fun _ => by decide)).2.1,
    (floordiv_eq_fdiv (-7) 2 (by decide) (by decide) (by decide) (by decide)
      (fun _ => by decide)).2.2⟩

theorem readQVariant_succ (urlFails : GoString → Bool) (Local : Location) (d : Nat) (r : Reader) :
    readQVariant urlFails Local (d + 1) r = variantBody urlFails Local (readQVariant urlFails Local d) r := by
  rfl

theorem variantBody_step (urlFails : GoString → Bool) (Local : Location) (r : Reader) :
    (∃ (x : QMetaType × Value) (err : Option GoError) (r1 : Reader),
        r1.Reader.length ≤ r.Reader.length ∧
        ∀ rv, variantBody urlFails Local rv r = .ret x err r1) ∨
      (∃ (t : Int) (r2 : Reader), r2.Reader.length + 5 = r.Reader.length ∧
        ∀ rv, variantBody urlFails Local rv r = variantSwitch urlFails Local rv t r2) := by
  rcases within_ret_cases _ _ (within_ReadNumber .uint32 r) with
    ⟨t, r1, h, hl⟩ | ⟨t, e, r1, h, hl⟩ | h
  · have h4 := ReadNumber_ok_length _ _ _ _ h
    rcases within_ret_cases _ _ (within_ReadBool r1) with
      ⟨b, r2, h2, hl2⟩ | ⟨b, e, r2, h2, hl2⟩ | h2
    · have h1 := ReadBool_ok_length _ _ _ h2
      cases b
      · right
        refine ⟨t, r2, by simp only [NumKind.size] at h4; omega, fun rv => ?_⟩
        simp only [variantBody, ReadUint32, h, h2]
      · left
        refine ⟨(t, .nil), none, r2, le_trans hl2 hl, fun rv => ?_⟩
        simp only [variantBody, ReadUint32, h, h2]
    · left
      refine ⟨(0, .nil), some e, r2, le_trans hl2 hl, fun rv => ?_⟩
      cases b <;> simp only [variantBody, ReadUint32, h, h2]
    · exact absurd h2 (by unfold ReadBool; split <;> simp)
  · left
    refine ⟨(0, .nil), some e, r1, hl, fun rv => ?_⟩
    simp only [variantBody, ReadUint32, h]
  · exact absurd h (by unfold ReadNumber; split <;> simp)

theorem variantBody_congr (urlFails : GoString → Bool) (Local : Location)
    (rv rv2 : Reader → Outcome (QMetaType × Value)) (r : Reader)
    (heq : ∀ r3 : Reader, r3.Reader.length + 5 ≤ r.Reader.length → rv r3 = rv2 r3)
    (hrv : ∀ r3 : Reader, r3.Reader.length + 5 ≤ r.Reader.length →
      (rv r3).within r3.Reader.length) :
    variantBody urlFails Local rv r = variantBody urlFails Local rv2 r := by
  rcases variantBody_step urlFails Local r with ⟨x, err, r1, _, h⟩ | ⟨t, r2, hl, h⟩
  · rw [h rv, h rv2]
  · rw [h rv, h rv2]
    exact variantSwitch_congr urlFails Local rv rv2 r2.Reader.length
      (fun r3 h3 => heq r3 (by omega)) (fun r3 h3 => hrv r3 (by omega)) t r2 (le_refl _)

theorem within_readQVariant_five (urlFails : GoString → Bool) (Local : Location) (depth : Nat) :
    ∀ r : Reader, r.Reader.length < 5 * depth →
      (readQVariant urlFails Local depth r).within r.Reader.length := by
  induction depth with
  | zero => intro r hr; exact absurd hr (by omega)
  | succ d ih =>
    intro r hr
    rw [readQVariant_succ]
    rcases variantBody_step urlFails Local r with ⟨x, err, r1, hl, h⟩ | ⟨t, r2, hl, h⟩
    · rw [h]; exact hl
    · rw [h]
      refine within_mono _ _ _ (by omega)
        (within_variantSwitch urlFails Local _ r2.Reader.length (fun r3 h3 => ih r3 (by omega)) t r2
          (le_refl _))

theorem readQVariant_depth_five (urlFails : GoString → Bool) (Local : Location) (d : Nat) :
    ∀ (d2 : Nat) (r : Reader), r.Reader.length < 5 * d → r.Reader.length < 5 * d2 →
      readQVariant urlFails Local d r = readQVariant urlFails Local d2 r := by
  induction d with
  | zero => intro d2 r hr; exact absurd hr (by omega)
  | succ e ih =>
    intro d2 r hr hr2
    obtain ⟨e2, rfl⟩ : ∃ e2, d2 = e2 + 1 := ⟨d2 - 1, by omega⟩
    rw [readQVariant_succ, readQVariant_succ]
    exact variantBody_congr urlFails Local _ _ r (fun r3 h3 => ih e2 r3 (by omega) (by omega))
      (fun r3 h3 => within_readQVariant_five urlFails Local e r3 (by omega))

theorem ReadQVariant_fixed (urlFails : GoString → Bool) (Local : Location) (r : Reader) :
    ReadQVariant urlFails Local r = variantBody urlFails Local (ReadQVariant urlFails Local) r := by
  unfold ReadQVariant
  rw [readQVariant_succ]
  exact variantBody_congr urlFails Local _ _ r
    (fun r3 h3 => readQVariant_eq_ReadQVariant urlFails Local _ r3 (by omega))
    (fun r3 h3 => within_readQVariant urlFails Local _ r3 (by omega))

theorem within_ne_fuel {α : Type} (o : Outcome α) (B : Nat) (h : o.within B) : o ≠ .fuel := by
  intro hf
  rw [hf] at h
  exact h

theorem within_of_explicit {α : Type} (o : Outcome α) (B : Nat) (h1 : o ≠ .fuel)
    (h2 : ∀ x e r1, o = .ret x e r1 → r1.Reader.length ≤ B) : o.within B := by
  cases o with
  | ret x e r1 => exact h2 x e r1 rfl
  | panic => trivial
  | fuel => exact absurd rfl h1

theorem ReadQString_ret (r : Reader) : ∃ s err r1, ReadQString r = .ret s err r1 := by
  unfold ReadQString ReadUint32
  rcases ReadNumber_cases .uint32 r with ⟨val, r1, h⟩ | ⟨e, r1, he, h⟩
  · rw [h]
    dsimp only
    split_ifs
    · exact ⟨_, _, _, rfl⟩
    · rcases binaryRead_cases (2 * (val.toNat / 2)) r1 with ⟨bs, r2, hb⟩ | ⟨e, r2, he, hb⟩
      · rw [hb]; exact ⟨_, _, _, rfl⟩
      · rw [hb]; exact ⟨_, _, _, rfl⟩
  · rw [h]; exact ⟨_, _, _, rfl⟩

theorem variantListLoop_stops (urlFails : GoString → Bool) (Local : Location) (n : Nat) :
    ∀ (r : Reader) (acc : List Value), ∃ (k : Nat) (vs : List Value) (rk : Reader),
      k ≤ n ∧ wellFormedVariants urlFails Local k r = some (vs, rk) ∧
      ((k = n ∧
          variantListLoop (ReadQVariant urlFails Local) n r acc = .ret (some (acc ++ vs)) none rk) ∨
        (k < n ∧
          ((∃ x e r2, ReadQVariant urlFails Local rk = .ret x (some e) r2 ∧
              variantListLoop (ReadQVariant urlFails Local) n r acc = .ret none (some e) r2) ∨
            (ReadQVariant urlFails Local rk = .panic ∧
              variantListLoop (ReadQVariant urlFails Local) n r acc = .panic)))) := by
  induction n with
  | zero =>
    intro r acc
    exact ⟨0, [], r, le_refl _, rfl, Or.inl ⟨rfl, by simp [variantListLoop]⟩⟩
  | succ n ih =>
    intro r acc
    rcases within_ret_cases _ _ (within_ReadQVariant urlFails Local r) with
      ⟨x, r1, h, _⟩ | ⟨x, e, r1, h, _⟩ | h
    · obtain ⟨t, v⟩ := x
      obtain ⟨k, vs, rk, hk, hw, hres⟩ := ih r1 (acc ++ [v])
      have hstep : variantListLoop (ReadQVariant urlFails Local) (n + 1) r acc =
          variantListLoop (ReadQVariant urlFails Local) n r1 (acc ++ [v]) := by
        simp only [variantListLoop, h]
      refine ⟨k + 1, v :: vs, rk, by omega, ?_, ?_⟩
      · simp only [wellFormedVariants, h, hw]
      · rw [hstep]
        rcases hres with ⟨rfl, hr⟩ | ⟨hlt, hr⟩
        · left
          exact ⟨rfl, by simpa using hr⟩
        · right
          exact ⟨by omega, hr⟩
    · refine ⟨0, [], r, by omega, rfl, Or.inr ⟨by omega, Or.inl ⟨x, e, r1, h, ?_⟩⟩⟩
      simp only [variantListLoop, h]
    · refine ⟨0, [], r, by omega, rfl, Or.inr ⟨by omega, Or.inr ⟨h, ?_⟩⟩⟩
      simp only [variantListLoop, h]

theorem variantMapLoop_stops (urlFails : GoString → Bool) (Local : Location) (n : Nat) :
    ∀ (r : Reader) (m : List (GoString × Value)),
      ∃ (k : Nat) (ps : List (GoString × Value)) (rk : Reader),
      k ≤ n ∧ wellFormedPairs urlFails Local k r = some (ps, rk) ∧
      ((k = n ∧
          variantMapLoop (ReadQVariant urlFails Local) n r m = .ret (some (assignAll m ps)) none rk) ∨
        (k < n ∧
          ((∃ s e r1, ReadQString rk = .ret s (some e) r1 ∧
              variantMapLoop (ReadQVariant urlFails Local) n r m =
                .ret (some (assignAll m ps)) (some e) r1) ∨
            (∃ s r1 x e r2, ReadQString rk = .ret s none r1 ∧
              ReadQVariant urlFails Local r1 = .ret x (some e) r2 ∧
              variantMapLoop (ReadQVariant urlFails Local) n r m =
                .ret (some (assignAll m ps)) (some e) r2) ∨
            (∃ s r1, ReadQString rk = .ret s none r1 ∧ ReadQVariant urlFails Local r1 = .panic ∧
              variantMapLoop (ReadQVariant urlFails Local) n r m = .panic)))) := by
  induction n with
  | zero =>
    intro r m
    exact ⟨0, [], r, le_refl _, rfl, Or.inl ⟨rfl, by simp [variantMapLoop, assignAll]⟩⟩
  | succ n ih =>
    intro r m
    obtain ⟨s, err, r1, hs⟩ := ReadQString_ret r
    cases err with
    | some e =>
      refine ⟨0, [], r, by omega, rfl, Or.inr ⟨by omega, Or.inl ⟨s, e, r1, hs, ?_⟩⟩⟩
      simp only [variantMapLoop, hs, assignAll, List.foldl_nil]
    | none =>
      rcases within_ret_cases _ _ (within_ReadQVariant urlFails Local r1) with
        ⟨x, r2, h, _⟩ | ⟨x, e, r2, h, _⟩ | h
      · obtain ⟨t, v⟩ := x
        obtain ⟨k, ps, rk, hk, hw, hres⟩ := ih r2 (mapSet m s v)
        have hstep : variantMapLoop (ReadQVariant urlFails Local) (n + 1) r m =
            variantMapLoop (ReadQVariant urlFails Local) n r2 (mapSet m s v) := by
          simp only [variantMapLoop, hs, h]
        have hassign : assignAll m ((s, v) :: ps) = assignAll (mapSet m s v) ps := by
          simp only [assignAll, List.foldl_cons]
        refine ⟨k + 1, (s, v) :: ps, rk, by omega, ?_, ?_⟩
        · simp only [wellFormedPairs, hs, h, hw]
        · rw [hstep, hassign]
          rcases hres with ⟨rfl, hr⟩ | ⟨hlt, hr⟩
          · left
            exact ⟨rfl, hr⟩
          · right
            exact ⟨by omega, hr⟩
      · refine ⟨0, [], r, by omega, rfl,
          Or.inr ⟨by omega, Or.inr (Or.inl ⟨s, r1, x, e, r2, hs, h, ?_⟩)⟩⟩
        simp only [variantMapLoop, hs, h, assignAll, List.foldl_nil]
      · refine ⟨0, [], r, by omega, rfl, Or.inr ⟨by omega, Or.inr (Or.inr ⟨s, r1, hs, h, ?_⟩)⟩⟩
        simp only [variantMapLoop, hs, h]

/-- C22: `ReadQVariant` terminates on every source.  (1) The bound on the depth of
nesting is never reached: with any bound above a fifth of the unread bytes the
result is that of `ReadQVariant`, which is a return or a panic and leaves no
more unread bytes than it was given; so are the results of
`ReadQStringQVariantList` and `ReadQStringQVariantAssociative`.  (2) `ReadQVariant`
is the function that its body defines, the list and the map calling
`ReadQVariant` itself for their elements.  (3) The body calls `ReadQVariant` only
on readers that have at least five unread bytes fewer, the header of the
enclosing variant: its result is the same for any two functions that agree on
those readers.  (4) A loop of `n` elements reads `k ≤ n` of them and, when
`k < n`, stops at the read that fails after them. -/
theorem readQVariant_terminates (urlFails : GoString → Bool) (Local : Location) :
    (∀ (r : Reader) (d : Nat), r.Reader.length < 5 * d →
      readQVariant urlFails Local d r = ReadQVariant urlFails Local r) ∧
    (∀ r : Reader, ReadQVariant urlFails Local r ≠ .fuel ∧
      ReadQStringQVariantList urlFails Local r ≠ .fuel ∧
      ReadQStringQVariantAssociative urlFails Local r ≠ .fuel ∧
      ∀ x e r1, ReadQVariant urlFails Local r = .ret x e r1 → r1.Reader.length ≤ r.Reader.length) ∧
    (∀ r : Reader,
      ReadQVariant urlFails Local r = variantBody urlFails Local (ReadQVariant urlFails Local) r ∧
      ReadQStringQVariantList urlFails Local r =
        readQStringQVariantList (ReadQVariant urlFails Local) r ∧
      ReadQStringQVariantAssociative urlFails Local r =
        readQStringQVariantAssociative (ReadQVariant urlFails Local) r) ∧
    (∀ (rv rv2 : Reader → Outcome (QMetaType × Value)) (r : Reader),
      (∀ r3 : Reader, r3.Reader.length + 5 ≤ r.Reader.length →
        rv r3 = rv2 r3 ∧ rv r3 ≠ .fuel ∧
          ∀ x e r4, rv r3 = .ret x e r4 → r4.Reader.length ≤ r3.Reader.length) →
      variantBody urlFails Local rv r = variantBody urlFails Local rv2 r) ∧
    (∀ (n : Nat) (r : Reader) (acc : List Value), ∃ (k : Nat) (vs : List Value) (rk : Reader),
      k ≤ n ∧ wellFormedVariants urlFails Local k r = some (vs, rk) ∧
      ((k = n ∧
          variantListLoop (ReadQVariant urlFails Local) n r acc = .ret (some (acc ++ vs)) none rk) ∨
        (k < n ∧
          ((∃ x e r2, ReadQVariant urlFails Local rk = .ret x (some e) r2 ∧
              variantListLoop (ReadQVariant urlFails Local) n r acc = .ret none (some e) r2) ∨
            (ReadQVariant urlFails Local rk = .panic ∧
              variantListLoop (ReadQVariant urlFails Local) n r acc = .panic))))) ∧
    (∀ (n : Nat) (r : Reader) (m : List (GoString × Value)),
      ∃ (k : Nat) (ps : List (GoString × Value)) (rk : Reader),
      k ≤ n ∧ wellFormedPairs urlFails Local k r = some (ps, rk) ∧
      ((k = n ∧
          variantMapLoop (ReadQVariant urlFails Local) n r m = .ret (some (assignAll m ps)) none rk) ∨
        (k < n ∧
          ((∃ s e r1, ReadQString rk = .ret s (some e) r1 ∧
              variantMapLoop (ReadQVariant urlFails Local) n r m =
                .ret (some (assignAll m ps)) (some e) r1) ∨
            (∃ s r1 x e r2, ReadQString rk = .ret s none r1 ∧
              ReadQVariant urlFails Local r1 = .ret x (some e) r2 ∧
              variantMapLoop (ReadQVariant urlFails Local) n r m =
                .ret (some (assignAll m ps)) (some e) r2) ∨
            (∃ s r1, ReadQString rk = .ret s none r1 ∧ ReadQVariant urlFails Local r1 = .panic ∧
              variantMapLoop (ReadQVariant urlFails Local) n r m = .panic))))) := by
  refine ⟨?_, ?_, ?_, ?_, variantListLoop_stops urlFails Local, variantMapLoop_stops urlFails Local⟩
  · intro r d hd
    exact readQVariant_depth_five urlFails Local d _ r hd (by omega)
  · intro r
    have hw := within_ReadQVariant urlFails Local r
    have hrv : ∀ r3 : Reader, r3.Reader.length ≤ r.Reader.length →
        (ReadQVariant urlFails Local r3).within r3.Reader.length :=
      fun r3 _ => within_ReadQVariant urlFails Local r3
    refine ⟨within_ne_fuel _ _ hw, ?_, ?_, ?_⟩
    · rw [ReadQStringQVariantList_eq]
      exact within_ne_fuel _ _ (within_readQStringQVariantList _ _ hrv r (le_refl _))
    · rw [ReadQStringQVariantAssociative_eq]
      exact within_ne_fuel _ _ (within_readQStringQVariantAssociative _ _ hrv r (le_refl _))
    · intro x e r1 h
      rw [h] at hw
      exact hw
  · intro r
    exact ⟨ReadQVariant_fixed urlFails Local r, ReadQStringQVariantList_eq urlFails Local r,
      ReadQStringQVariantAssociative_eq urlFails Local r⟩
  · intro rv rv2 r h
    exact variantBody_congr urlFails Local rv rv2 r (fun r3 h3 => (h r3 h3).1)
      (fun r3 h3 => within_of_explicit _ _ (h r3 h3).2.1 (h r3 h3).2.2)

theorem readQVariant_terminates_witness :
    readQVariant (fun _ => false) Location.UTC 4
        ⟨[0, 0, 0, 9, 0, 0, 0, 0, 1, 0, 0, 0, 9, 0, 0, 0, 0, 0], .BigEndian, 19, false⟩ =
      ReadQVariant (fun _ => false) Location.UTC
        ⟨[0, 0, 0, 9, 0, 0, 0, 0, 1, 0, 0, 0, 9, 0, 0, 0, 0, 0], .BigEndian, 19, false⟩ ∧
    ReadQVariant (fun _ => false) Location.UTC
        ⟨[0, 0, 0, 9, 0, 0, 0, 0, 1, 0, 0, 0, 9, 0, 0, 0, 0, 0], .BigEndian, 19, false⟩ =
      .ret (9, Value.list (some [Value.list (some [])])) none ⟨[], .BigEndian, 19, false⟩ ∧
    ReadQVariant (fun _ => false) Location.UTC
        ⟨[0, 0, 0, 9, 0, 0xFF, 0xFF, 0xFF, 0xFF, 0, 0, 0, 9], .BigEndian, 19, false⟩ ≠ .fuel :=
  ⟨(readQVariant_terminates (fun _ => false) Location.UTC).1 _ 4 (by decide), rfl,
    ((readQVariant_terminates (fun _ => false) Location.UTC).2.1 _).1⟩

end Cutestream
